import Mathlib

/-!
# The template compiler of `internal/check/clause.go`

A shallow embedding of the clause parser (`Slices.parse` and its sub-parsers),
the clause serialisers (`String()` methods) and the fragment type validator
(`checkTempleFragmentValid`), followed by theorems about them.

Conventions of the embedding.
* Go strings are Lean `String`s; `fmt.Sprintf` is spelled out with `++`.
* The receiver `*Slices` is mutated in place by the Go code; here every
  operation takes the state and returns the new state.
* An index-out-of-range panic is the result `Outcome.crash`.
* Go loops are recursive functions on a fuel argument; `Outcome.outOfFuel`
  is the only result that is an artefact of the embedding.
-/

namespace Gen

/-! ## Data model -/

/-- Modelled from the spec: the enumeration `models.Status` of package
`gorm.io/gen/internal/models`, which is not among the source files. The
constructors are exactly the constants that `clause.go` names. -/
inductive Status where
  | UNKNOWN | SQL | DATA | VARIABLE | IF | ELSEIF | ELSE | WHERE | SET | END
  | BOOL | INT | STRING | TIME | OTHER | EXPRESSION | LOGICAL | NIL
  deriving DecidableEq, Repr, Inhabited

/-- Modelled from the spec: the statement type `slice` (kind, condition text,
original text), declared in a file that is not among the source files. The
field `Typ` is Go's `Type`. -/
structure slice where
  Typ : Status
  Value : String
  Origin : String
  deriving DecidableEq, Repr, Inhabited

/-- The embedded base struct `clause`; `Typ` is Go's `Type`. -/
structure clause where
  VarName : String
  Typ : Status
  deriving DecidableEq, Repr, Inhabited

/-- The interface `Clause` with its five dynamic types. -/
inductive Clause where
  | SQL (base : clause) (Value : List String)
  | If (base : clause) (Cond : String) (Value : List Clause) (Else : List Clause)
  | Else (base : clause) (Cond : String) (Value : List Clause)
  | Where (base : clause) (Value : List Clause)
  | Set (base : clause) (Value : List Clause)
  deriving Repr, Inhabited

mutual
/-- Decision procedure for equality of clauses. -/
def Clause.decEq : (a b : Clause) → Decidable (a = b)
  | .SQL b1 v1, .SQL b2 v2 =>
    if h : b1 = b2 ∧ v1 = v2 then isTrue (by rw [h.1, h.2])
    else isFalse (fun e => h (by cases e; exact ⟨rfl, rfl⟩))
  | .If b1 c1 v1 e1, .If b2 c2 v2 e2 =>
    match Clause.decEqList v1 v2, Clause.decEqList e1 e2 with
    | isTrue hv, isTrue he =>
      if h : b1 = b2 ∧ c1 = c2 then isTrue (by rw [h.1, h.2, hv, he])
      else isFalse (fun e => h (by cases e; exact ⟨rfl, rfl⟩))
    | isFalse hv, _ => isFalse (fun e => hv (by cases e; rfl))
    | _, isFalse he => isFalse (fun e => he (by cases e; rfl))
  | .Else b1 c1 v1, .Else b2 c2 v2 =>
    match Clause.decEqList v1 v2 with
    | isTrue hv =>
      if h : b1 = b2 ∧ c1 = c2 then isTrue (by rw [h.1, h.2, hv])
      else isFalse (fun e => h (by cases e; exact ⟨rfl, rfl⟩))
    | isFalse hv => isFalse (fun e => hv (by cases e; rfl))
  | .Where b1 v1, .Where b2 v2 =>
    match Clause.decEqList v1 v2 with
    | isTrue hv =>
      if h : b1 = b2 then isTrue (by rw [h, hv]) else isFalse (fun e => h (by cases e; rfl))
    | isFalse hv => isFalse (fun e => hv (by cases e; rfl))
  | .Set b1 v1, .Set b2 v2 =>
    match Clause.decEqList v1 v2 with
    | isTrue hv =>
      if h : b1 = b2 then isTrue (by rw [h, hv]) else isFalse (fun e => h (by cases e; rfl))
    | isFalse hv => isFalse (fun e => hv (by cases e; rfl))
  | .SQL .., .If .. | .SQL .., .Else .. | .SQL .., .Where .. | .SQL .., .Set ..
  | .If .., .SQL .. | .If .., .Else .. | .If .., .Where .. | .If .., .Set ..
  | .Else .., .SQL .. | .Else .., .If .. | .Else .., .Where .. | .Else .., .Set ..
  | .Where .., .SQL .. | .Where .., .If .. | .Where .., .Else .. | .Where .., .Set ..
  | .Set .., .SQL .. | .Set .., .If .. | .Set .., .Else .. | .Set .., .Where .. =>
    isFalse (fun e => by cases e)
/-- Decision procedure for equality of clause lists. -/
def Clause.decEqList : (as bs : List Clause) → Decidable (as = bs)
  | [], [] => isTrue rfl
  | [], _ :: _ => isFalse (fun e => by cases e)
  | _ :: _, [] => isFalse (fun e => by cases e)
  | a :: as, b :: bs =>
    match Clause.decEq a b, Clause.decEqList as bs with
    | isTrue h1, isTrue h2 => isTrue (by rw [h1, h2])
    | isFalse h1, _ => isFalse (fun e => h1 (by cases e; rfl))
    | _, isFalse h2 => isFalse (fun e => h2 (by cases e; rfl))
end

instance : DecidableEq Clause := Clause.decEq

/-- Struct `SQLClause`. -/
structure SQLClause where
  base : clause
  Value : List String
  deriving DecidableEq, Repr, Inhabited

/-- Struct `IfClause`. -/
structure IfClause where
  base : clause
  Cond : String
  Value : List Clause
  Else : List Clause
  deriving Repr, Inhabited

/-- Struct `ElseClause`. -/
structure ElseClause where
  base : clause
  Cond : String
  Value : List Clause
  deriving Repr, Inhabited

/-- Struct `WhereClause`. -/
structure WhereClause where
  base : clause
  Value : List Clause
  deriving Repr, Inhabited

/-- Struct `SetClause`. -/
structure SetClause where
  base : clause
  Value : List Clause
  deriving Repr, Inhabited

/-- Conversion of a `SQLClause` value to the interface type. -/
def SQLClause.toClause (c : SQLClause) : Clause := Clause.SQL c.base c.Value

/-- Conversion of an `IfClause` value to the interface type. -/
def IfClause.toClause (c : IfClause) : Clause := Clause.If c.base c.Cond c.Value c.Else

/-- Conversion of an `ElseClause` value to the interface type. -/
def ElseClause.toClause (c : ElseClause) : Clause := Clause.Else c.base c.Cond c.Value

/-- Conversion of a `WhereClause` value to the interface type. -/
def WhereClause.toClause (c : WhereClause) : Clause := Clause.Where c.base c.Value

/-- Conversion of a `SetClause` value to the interface type. -/
def SetClause.toClause (c : SetClause) : Clause := Clause.Set c.base c.Value

/-! ## String helpers of the Go standard library -/

/-- Go's `strings.Join(elems, sep)`. -/
def Join (elems : List String) (sep : String) : String := sep.intercalate elems

/-- Worker of `ReplaceAll` on character lists: `skip` counts the characters of
a match that are still to be dropped. -/
def replaceAllAux (old new : List Char) : Nat → List Char → List Char
  | _, [] => []
  | k + 1, _ :: rest => replaceAllAux old new k rest
  | 0, c :: rest =>
    if old.isPrefixOf (c :: rest) then new ++ replaceAllAux old new (old.length - 1) rest
    else c :: replaceAllAux old new 0 rest

/-- Go's `strings.ReplaceAll(s, old, new)` for a non-empty `old`: the
non-overlapping occurrences of `old` are replaced from left to right. -/
def ReplaceAll (s old new : String) : String :=
  String.mk (replaceAllAux old.data new.data 0 s.data)

/-- Go's `unicode.IsSpace`. -/
def isSpace (c : Char) : Bool :=
  c = '\t' || c = '\n' || c.val = 0x0B || c.val = 0x0C || c = '\r' || c = ' ' ||
  c.val = 0x85 || c.val = 0xA0 || c.val = 0x1680 || (0x2000 ≤ c.val && c.val ≤ 0x200A) ||
  c.val = 0x2028 || c.val = 0x2029 || c.val = 0x202F || c.val = 0x205F || c.val = 0x3000

/-- Go's `strings.TrimSpace`. -/
def TrimSpace (s : String) : String :=
  String.mk ((s.data.dropWhile isSpace).reverse.dropWhile isSpace).reverse

/-! ## Serialisers -/

/-- Method `SQLClause.String`. -/
def SQLClause.String (s : SQLClause) : String :=
  ReplaceAll (Join s.Value "+") "\"+\"" ""

/-- Method `IfClause.String`. -/
def IfClause.String (i : IfClause) : String :=
  "helper.IfClause(" ++ i.base.VarName ++ ")"

/-- Method `WhereClause.String`. -/
def WhereClause.String (w : WhereClause) : String :=
  "helper.WhereClause(" ++ w.base.VarName ++ ")"

/-- Method `SetClause.String`. -/
def SetClause.String (w : SetClause) : String :=
  "helper.SetClause(" ++ w.base.VarName ++ ")"

mutual
/-- Dynamic dispatch of `String()` on a `Clause` value; the `Else` case is
`ElseClause.String`. -/
def Clause.String : Clause → String
  | .SQL _ value => ReplaceAll (Join value "+") "\"+\"" ""
  | .If base _ _ _ => "helper.IfClause(" ++ base.VarName ++ ")"
  | .Else _ _ value => ReplaceAll (Join (Clause.StringList value) "+") "\"+\"" ""
  | .Where base _ => "helper.WhereClause(" ++ base.VarName ++ ")"
  | .Set base _ => "helper.SetClause(" ++ base.VarName ++ ")"
/-- The `condList` of `ElseClause.String`: `String()` of every element. -/
def Clause.StringList : List Clause → List String
  | [] => []
  | c :: cs => c.String :: Clause.StringList cs
end

/-- Method `ElseClause.String`. -/
def ElseClause.String (e : ElseClause) : String :=
  ReplaceAll (Join (Clause.StringList e.Value) "+") "\"+\"" ""

/-! ## Compiler state -/

/-- The map `Slices.Names`, restricted to the three keys that `NewSlices`
creates and `GetName` updates. -/
structure NameCounters where
  IF : Nat
  WHERE : Nat
  SET : Nat
  deriving DecidableEq, Repr, Inhabited

/-- Struct `Slices`. The cursor is a Go `int`, so it is an `Int` here. -/
structure Slices where
  slices : List slice
  tmpl : List String
  currentIndex : Int
  Names : NameCounters
  deriving DecidableEq, Repr, Inhabited

/-- Result of running a parser function on a state: a normal return with the
state it leaves, a returned Go `error` with the state it leaves, an
index-out-of-range panic, or exhaustion of the fuel of the embedding. -/
inductive Outcome (α : Type) where
  | ok (val : α) (st : Slices)
  | fail (msg : String) (st : Slices)
  | crash
  | outOfFuel
  deriving Repr, DecidableEq

/-- The value of a normal return, if the outcome is one. -/
def Outcome.value? {α : Type} : Outcome α → Option α
  | .ok v _ => some v
  | _ => none

/-- The state left by a normal return, if the outcome is one. -/
def Outcome.state? {α : Type} : Outcome α → Option Slices
  | .ok _ st => some st
  | _ => none

/-- The message of a returned Go `error`, if the outcome is one. -/
def Outcome.error? {α : Type} : Outcome α → Option String
  | .fail msg _ => some msg
  | _ => none

/-- Function `NewSlices`, together with the statement sequence that the caller
stores in the fresh state. -/
def NewSlices (xs : List slice) : Slices :=
  { slices := xs, tmpl := [], currentIndex := 0, Names := { IF := 0, WHERE := 0, SET := 0 } }

/-- Go's indexing `s.slices[i]`: `none` stands for the index-out-of-range
panic. -/
def Slices.index (s : Slices) (i : Int) : Option slice :=
  if i < 0 then none else s.slices[i.toNat]?

/-- Method `Slices.Len`. -/
def Slices.Len (s : Slices) : Int := s.slices.length

/-- Method `Slices.Next`: the cursor moves one step forward, then the
statement under it is read. -/
def Slices.Next (s : Slices) : Option (slice × Slices) :=
  let s1 := { s with currentIndex := s.currentIndex + 1 }
  match s1.index s1.currentIndex with
  | none => none
  | some x => some (x, s1)

/-- Method `Slices.SubIndex`. -/
def Slices.SubIndex (s : Slices) : Slices :=
  { s with currentIndex := s.currentIndex - 1 }

/-- Method `Slices.HasMore`. -/
def Slices.HasMore (s : Slices) : Bool :=
  decide (s.currentIndex < (s.slices.length : Int) - 1)

/-- Method `Slices.IsNull`. -/
def Slices.IsNull (s : Slices) : Bool := s.slices.length == 0

/-- Method `Slices.Current`. -/
def Slices.Current (s : Slices) : Option slice := s.index s.currentIndex

/-- Method `Slices.GetName`: the name and the state with the counter of that
kind incremented (the deferred increment runs after the name is built). -/
def Slices.GetName (s : Slices) (status : Status) : String × Slices :=
  match status with
  | .IF => ("ifCond" ++ toString s.Names.IF,
      { s with Names := { s.Names with IF := s.Names.IF + 1 } })
  | .WHERE => ("whereCond" ++ toString s.Names.WHERE,
      { s with Names := { s.Names with WHERE := s.Names.WHERE + 1 } })
  | .SET => ("setCond" ++ toString s.Names.SET,
      { s with Names := { s.Names with SET := s.Names.SET + 1 } })
  | _ => ("Cond" ++ toString s.currentIndex, s)

/-- The statement `s.tmpl = append(s.tmpl, line)`. -/
def Slices.emit (s : Slices) (line : String) : Slices :=
  { s with tmpl := s.tmpl ++ [line] }

/-- Method `Slices.appendIfCond`. -/
def Slices.appendIfCond (s : Slices) (name cond result : String) : Slices :=
  s.emit (name ++ " = append(" ++ name ++ ", helper.Cond\x7b" ++ cond ++ ", " ++ result ++ "\x7d)")

/-- Method `Slices.appendSetValue`. -/
def Slices.appendSetValue (s : Slices) (name result : String) : Slices :=
  s.emit (name ++ " = append(" ++ name ++ ",  " ++ TrimSpace result ++ ")")

/-- Method `Slices.CreateIf`. -/
def Slices.CreateIf (s : Slices) (name : String) : Slices :=
  s.emit (name ++ " := make([]helper.Cond, 0, 100)")

/-- Method `Slices.CreateStringSet`. -/
def Slices.CreateStringSet (s : Slices) (name : String) : Slices :=
  s.emit (name ++ " := make([]string, 0, 100)")

/-! ## The recursive-descent parser -/

/-- The case `models.SQL, models.DATA, models.VARIABLE` of the parser
switches. -/
def Status.isLiteral : Status → Bool
  | .SQL | .DATA | .VARIABLE => true
  | _ => false

/-- The loop of `parseSQL`: `x` is the loop variable `slice`. -/
def Slices.parseSQLLoop : Nat → SQLClause → slice → Slices → Outcome SQLClause
  | 0, _, _, _ => .outOfFuel
  | fuel + 1, res, x, s =>
    if x.Typ.isLiteral then
      let res := { res with Value := res.Value ++ [x.Value] }
      if !s.HasMore then .ok res s
      else
        match s.Next with
        | none => .crash
        | some (y, s) => Slices.parseSQLLoop fuel res y s
    else .ok res s.SubIndex

/-- Method `Slices.parseSQL`. -/
def Slices.parseSQL (fuel : Nat) (name : String) (s : Slices) : Outcome SQLClause :=
  match s.Current with
  | none => .crash
  | some x => Slices.parseSQLLoop fuel { base := { VarName := name, Typ := .SQL }, Value := [] } x s

mutual
/-- Method `Slices.parseIF`. -/
def Slices.parseIF : Nat → Slices → Outcome IfClause
  | 0, _ => .outOfFuel
  | fuel + 1, s =>
    match s.Current with
    | none => .crash
    | some x =>
      let (name, s) := s.GetName x.Typ
      let s := s.CreateIf name
      Slices.parseIFLoop fuel
        { base := { VarName := name, Typ := x.Typ }, Cond := x.Value, Value := [], Else := [] }
        [x.Value] s

/-- The loop `for s.HasMore()` of `parseIF` and the statements after it:
`res` is the named result, `cond` the local slice of prior conditions. -/
def Slices.parseIFLoop : Nat → IfClause → List String → Slices → Outcome IfClause
  | 0, _, _, _ => .outOfFuel
  | fuel + 1, res, cond, s =>
    if s.HasMore then
      match s.Next with
      | none => .crash
      | some (n, s) =>
        match n.Typ with
        | .SQL | .DATA | .VARIABLE =>
          match Slices.parseSQL fuel res.base.VarName s with
          | .ok str s =>
            Slices.parseIFLoop fuel { res with Value := res.Value ++ [str.toClause] } cond
              (s.appendIfCond res.base.VarName res.Cond str.String)
          | .fail e s => .fail e s
          | .crash => .crash
          | .outOfFuel => .outOfFuel
        | .IF =>
          match Slices.parseIF fuel s with
          | .ok ifClause s =>
            Slices.parseIFLoop fuel { res with Value := res.Value ++ [ifClause.toClause] } cond
              (s.appendIfCond res.base.VarName res.Cond ifClause.String)
          | .fail e s => .fail e s
          | .crash => .crash
          | .outOfFuel => .outOfFuel
        | .WHERE =>
          match Slices.parseWhere fuel s with
          | .ok whereClause s =>
            Slices.parseIFLoop fuel { res with Value := res.Value ++ [whereClause.toClause] } cond
              (s.appendIfCond res.base.VarName res.Cond whereClause.String)
          | .fail e s => .fail e s
          | .crash => .crash
          | .outOfFuel => .outOfFuel
        | .SET =>
          match Slices.parseSet fuel s with
          | .ok setClause s =>
            Slices.parseIFLoop fuel { res with Value := res.Value ++ [setClause.toClause] } cond
              (s.appendIfCond res.base.VarName res.Cond setClause.String)
          | .fail e s => .fail e s
          | .crash => .crash
          | .outOfFuel => .outOfFuel
        | .ELSEIF =>
          match Slices.parseElSE fuel res.base.VarName s with
          | .ok elseClause s =>
            let elseCond := elseClause.Cond
            let elseClause :=
              { elseClause with Cond := "!(" ++ Join cond " || " ++ ") && " ++ elseCond }
            Slices.parseIFLoop fuel { res with Else := res.Else ++ [elseClause.toClause] }
              (cond ++ [elseCond])
              (s.appendIfCond res.base.VarName elseClause.Cond elseClause.String)
          | .fail e s => .fail e s
          | .crash => .crash
          | .outOfFuel => .outOfFuel
        | .ELSE =>
          match Slices.parseElSE fuel res.base.VarName s with
          | .ok elseClause s =>
            let elseClause := { elseClause with Cond := "!(" ++ Join cond " || " ++ ")" }
            Slices.parseIFLoop fuel { res with Else := res.Else ++ [elseClause.toClause] } cond
              (s.appendIfCond res.base.VarName elseClause.Cond elseClause.String)
          | .fail e s => .fail e s
          | .crash => .crash
          | .outOfFuel => .outOfFuel
        | .END => .ok res s
        | _ => .fail ("unknow clause : " ++ n.Origin) s
    else
      match s.Current with
      | none => .crash
      | some x =>
        if x.Typ = .END then .ok res s else .fail "incomplete SQL,if not end" s

/-- Method `Slices.parseElSE`. It has no `error` result: its `Outcome` is
never `fail`. -/
def Slices.parseElSE : Nat → String → Slices → Outcome ElseClause
  | 0, _, _ => .outOfFuel
  | fuel + 1, name, s =>
    match s.Current with
    | none => .crash
    | some x =>
      let res : ElseClause :=
        { base := { VarName := name, Typ := x.Typ }, Cond := x.Value, Value := [] }
      if !s.HasMore then .ok res s
      else
        match s.Next with
        | none => .crash
        | some (n, s) => Slices.parseElSELoop fuel name res n s

/-- The loop `for n := s.Next(); s.HasMore(); n = s.Next()` of `parseElSE`,
entered after `n` has been read: condition, body, then the post statement.
An error of a nested parser makes `parseElSE` return its result so far. -/
def Slices.parseElSELoop : Nat → String → ElseClause → slice → Slices → Outcome ElseClause
  | 0, _, _, _, _ => .outOfFuel
  | fuel + 1, name, res, n, s =>
    if s.HasMore then
      match n.Typ with
      | .SQL | .DATA | .VARIABLE =>
        match Slices.parseSQL fuel name s with
        | .ok c s =>
          match s.Next with
          | none => .crash
          | some (m, s) =>
            Slices.parseElSELoop fuel name { res with Value := res.Value ++ [c.toClause] } m s
        | .fail e s => .fail e s
        | .crash => .crash
        | .outOfFuel => .outOfFuel
      | .IF =>
        match Slices.parseIF fuel s with
        | .ok ifClause s =>
          match s.Next with
          | none => .crash
          | some (m, s) =>
            Slices.parseElSELoop fuel name
              { res with Value := res.Value ++ [ifClause.toClause] } m s
        | .fail _ s => .ok res s
        | .crash => .crash
        | .outOfFuel => .outOfFuel
      | .WHERE =>
        match Slices.parseWhere fuel s with
        | .ok whereClause s =>
          match s.Next with
          | none => .crash
          | some (m, s) =>
            Slices.parseElSELoop fuel name
              { res with Value := res.Value ++ [whereClause.toClause] } m s
        | .fail _ s => .ok res s
        | .crash => .crash
        | .outOfFuel => .outOfFuel
      | .SET =>
        match Slices.parseSet fuel s with
        | .ok setClause s =>
          match s.Next with
          | none => .crash
          | some (m, s) =>
            Slices.parseElSELoop fuel name
              { res with Value := res.Value ++ [setClause.toClause] } m s
        | .fail _ s => .ok res s
        | .crash => .crash
        | .outOfFuel => .outOfFuel
      | _ => .ok res s.SubIndex
    else .ok res s

/-- Method `Slices.parseWhere`. -/
def Slices.parseWhere : Nat → Slices → Outcome WhereClause
  | 0, _ => .outOfFuel
  | fuel + 1, s =>
    match s.Current with
    | none => .crash
    | some x =>
      let (name, s) := s.GetName x.Typ
      let s := s.CreateStringSet name
      Slices.parseWhereLoop fuel { base := { VarName := name, Typ := x.Typ }, Value := [] } s

/-- The loop `for s.HasMore()` of `parseWhere` and the statements after it. -/
def Slices.parseWhereLoop : Nat → WhereClause → Slices → Outcome WhereClause
  | 0, _, _ => .outOfFuel
  | fuel + 1, res, s =>
    if s.HasMore then
      match s.Next with
      | none => .crash
      | some (n, s) =>
        match n.Typ with
        | .SQL | .DATA | .VARIABLE =>
          match Slices.parseSQL fuel res.base.VarName s with
          | .ok strClause s =>
            Slices.parseWhereLoop fuel { res with Value := res.Value ++ [strClause.toClause] }
              (s.appendSetValue res.base.VarName strClause.String)
          | .fail e s => .fail e s
          | .crash => .crash
          | .outOfFuel => .outOfFuel
        | .IF =>
          match Slices.parseIF fuel s with
          | .ok ifClause s =>
            Slices.parseWhereLoop fuel { res with Value := res.Value ++ [ifClause.toClause] }
              (s.appendSetValue res.base.VarName ifClause.String)
          | .fail e s => .fail e s
          | .crash => .crash
          | .outOfFuel => .outOfFuel
        | .END => .ok res s
        | _ => .fail ("unknow clause : " ++ n.Origin) s
    else
      match s.Current with
      | none => .crash
      | some x =>
        if x.Typ = .END then .ok res s else .fail "incomplete SQL,where not end" s

/-- Method `Slices.parseSet`. -/
def Slices.parseSet : Nat → Slices → Outcome SetClause
  | 0, _ => .outOfFuel
  | fuel + 1, s =>
    match s.Current with
    | none => .crash
    | some x =>
      let (name, s) := s.GetName x.Typ
      let s := s.CreateStringSet name
      Slices.parseSetLoop fuel { base := { VarName := name, Typ := x.Typ }, Value := [] } s

/-- The loop `for s.HasMore()` of `parseSet` and the statements after it. -/
def Slices.parseSetLoop : Nat → SetClause → Slices → Outcome SetClause
  | 0, _, _ => .outOfFuel
  | fuel + 1, res, s =>
    if s.HasMore then
      match s.Next with
      | none => .crash
      | some (n, s) =>
        match n.Typ with
        | .SQL | .DATA | .VARIABLE =>
          match Slices.parseSQL fuel res.base.VarName s with
          | .ok strClause s =>
            Slices.parseSetLoop fuel { res with Value := res.Value ++ [strClause.toClause] }
              (s.appendSetValue res.base.VarName strClause.String)
          | .fail e s => .fail e s
          | .crash => .crash
          | .outOfFuel => .outOfFuel
        | .IF =>
          match Slices.parseIF fuel s with
          | .ok ifClause s =>
            Slices.parseSetLoop fuel { res with Value := res.Value ++ [ifClause.toClause] }
              (s.appendSetValue res.base.VarName ifClause.String)
          | .fail e s => .fail e s
          | .crash => .crash
          | .outOfFuel => .outOfFuel
        | .END => .ok res s
        | _ => .fail ("unknow clause : " ++ n.Origin) s
    else
      match s.Current with
      | none => .crash
      | some x =>
        if x.Typ = .END then .ok res s else .fail "incomplete SQL,set not end" s
end

/-- The loop of `parse`: `x` is the loop variable `slice`, `res` the clause
list built so far. -/
def Slices.parseLoop : Nat → List Clause → slice → Slices → Outcome (List Clause)
  | 0, _, _, _ => .outOfFuel
  | fuel + 1, res, x, s =>
    let s := s.emit ""
    let step : Outcome (List Clause) :=
      match x.Typ with
      | .SQL | .DATA | .VARIABLE =>
        match Slices.parseSQL fuel "generateSQL" s with
        | .ok sqlClause s =>
          .ok (res ++ [sqlClause.toClause]) (s.emit ("generateSQL" ++ "+=" ++ sqlClause.String))
        | .fail e s => .fail e s
        | .crash => .crash
        | .outOfFuel => .outOfFuel
      | .IF =>
        match Slices.parseIF fuel s with
        | .ok ifClause s =>
          .ok (res ++ [ifClause.toClause])
            (s.emit ("generateSQL" ++ "+=helper.IfClause(" ++ ifClause.base.VarName ++ ")"))
        | .fail e s => .fail e s
        | .crash => .crash
        | .outOfFuel => .outOfFuel
      | .WHERE =>
        match Slices.parseWhere fuel s with
        | .ok whereClause s =>
          .ok (res ++ [whereClause.toClause])
            (s.emit ("generateSQL" ++ "+=helper.WhereClause(" ++ whereClause.base.VarName ++ ")"))
        | .fail e s => .fail e s
        | .crash => .crash
        | .outOfFuel => .outOfFuel
      | .SET =>
        match Slices.parseSet fuel s with
        | .ok setClause s =>
          .ok (res ++ [setClause.toClause])
            (s.emit ("generateSQL" ++ "+=helper.SetClause(" ++ setClause.base.VarName ++ ")"))
        | .fail e s => .fail e s
        | .crash => .crash
        | .outOfFuel => .outOfFuel
      | .END => .ok res s
      | _ => .fail ("unknow clause:" ++ x.Origin) s
    match step with
    | .ok res s =>
      if !s.HasMore then .ok res s
      else
        match s.Next with
        | none => .crash
        | some (y, s) => Slices.parseLoop fuel res y s
    | .fail e s => .fail e s
    | .crash => .crash
    | .outOfFuel => .outOfFuel

/-- Method `Slices.parse`, with the fuel of the embedding. -/
def Slices.parseFuel (fuel : Nat) (s : Slices) : Outcome (List Clause) :=
  if s.IsNull then .fail "sql is null" s
  else
    match s.Current with
    | none => .crash
    | some x => Slices.parseLoop fuel [] x s

/-- The fuel that `parse` gives to its loops and sub-parsers: two units for
every statement and two more. -/
def Slices.fuelFor (s : Slices) : Nat := 2 * s.slices.length + 2

/-- Method `Slices.parse`. -/
def Slices.parse (s : Slices) : Outcome (List Clause) :=
  Slices.parseFuel s.fuelFor s

/-- The state over the statements `xs` whose cursor is the natural number `n`. -/
def Slices.mkNat (xs : List slice) (t : List String) (n : Nat) (nm : NameCounters) : Slices :=
  { slices := xs, tmpl := t, currentIndex := (n : Int), Names := nm }

/-! ## Fragments and the type validator -/

/-- Struct `fragment`; `Typ` is Go's `Type`. -/
structure fragment where
  Typ : Status
  Value : String
  IsArray : Bool
  deriving DecidableEq, Repr, Inhabited

/-- Function `isExpressionValid`. -/
def isExpressionValid (expr : List fragment) : Bool :=
  match expr with
  | [e0, e1, e2] =>
    if e1.Typ ≠ .EXPRESSION then false
    else if e0.Typ = .NIL ∨ e2.Typ = .NIL then e0.IsArray || e2.IsArray
    else decide (e0.Typ = e2.Typ)
  | _ => false

/-- Function `fragmentToString`. -/
def fragmentToString (list : List fragment) : String :=
  if list.length = 0 then "" else Join (list.map (fun t => t.Value)) " "

/-- The loop of `checkTempleFragmentValid`, entered with loop variable `i`
before the loop condition is tested. The result is the returned `error`,
`none` being `nil`. -/
def checkTempleFragmentValidLoop (list : List fragment) (i : Nat) : Option String :=
  if h : i < list.length then
    match list[i].Typ with
    | .IF | .ELSE | .END | .BOOL | .LOGICAL | .WHERE | .SET =>
      checkTempleFragmentValidLoop list (i + 1)
    | .INT | .STRING | .OTHER | .TIME | .NIL =>
      if i + 2 < list.length then
        if isExpressionValid ((list.drop i).take 3) then
          checkTempleFragmentValidLoop list (i + 2 + 1)
        else some ("condition type not match：" ++ fragmentToString ((list.drop i).take 3))
      else checkTempleFragmentValidLoop list (i + 1)
    | _ => some ("unknow fragment ： " ++ list[i].Value ++ " ")
  else none
termination_by list.length - i

/-- Function `checkTempleFragmentValid`. -/
def checkTempleFragmentValid (list : List fragment) : Option String :=
  checkTempleFragmentValidLoop list 1

/-- The declared operand types of the validator's claims: bool, int, string,
time and other. -/
def Status.isDeclaredType : Status → Bool
  | .BOOL | .INT | .STRING | .TIME | .OTHER => true
  | _ => false

/-! ## The classifier, the lexer and the statement grouper -/

/-- Modelled from the spec: the parameter descriptor `parser.Param`, with its
name, its declared type name (`Typ` is Go's `Type`) and the flag saying that
the parameter is an array. -/
structure Param where
  Name : String
  Typ : String
  IsArray : Bool
  deriving DecidableEq, Repr, Inhabited

/-- Go's `strings.Trim(s, cutset)`: every leading and trailing character that
occurs in `cutset` is removed. -/
def Trim (s cutset : String) : String :=
  String.mk ((s.data.dropWhile (fun c => cutset.data.contains c)).reverse.dropWhile
    (fun c => cutset.data.contains c)).reverse

/-- The lower-case mapping of one character as `strings.ToLower` applies it,
given for the ASCII capitals and for the two characters outside ASCII whose
lower case is an ASCII letter (U+0130 and U+212A); any other character is
left as it is, which changes no comparison with the ASCII words of this
file. -/
def toLowerChar (c : Char) : Char :=
  if 'A' ≤ c ∧ c ≤ 'Z' then Char.ofNat (c.toNat + 32)
  else if c.val = 0x130 then 'i'
  else if c.val = 0x212A then 'k'
  else c

/-- Go's `strings.ToLower`. -/
def ToLower (s : String) : String := String.mk (s.data.map toLowerChar)

/-- Modelled from the spec: the helper `isDigit`, true when every character of
the text is a decimal digit. -/
def isDigit (str : String) : Bool := str.data.all Char.isDigit

/-- Method `fragment.fragmentByParams`: the `range` loop over the parameters,
with `f` passed and returned instead of mutated. The cases `bool`, `int` and
`string` return from the method, the cases `Time` and `default` go on with
the next parameter. -/
def fragment.fragmentByParams (f : fragment) : List Param → fragment
  | [] => f
  | param :: params =>
    if param.Name = f.Value then
      let f := { f with IsArray := param.IsArray }
      if param.Typ = "bool" then { f with Typ := .BOOL }
      else if param.Typ = "int" then { f with Typ := .INT }
      else if param.Typ = "string" then { f with Typ := .STRING }
      else if param.Typ = "Time" then fragment.fragmentByParams { f with Typ := .TIME } params
      else fragment.fragmentByParams { f with Typ := .OTHER } params
    else fragment.fragmentByParams f params

/-- The local function `digital` of `checkFragment`. -/
def digital (str : String) : String :=
  if isDigit str then "<integer>" else str

/-- Function `checkFragment`. The result is the pair of Go's two results, the
fragment and the `error`, `none` being `nil`. -/
def checkFragment (s : String) (params : List Param) : fragment × Option String :=
  let f : fragment := { Typ := .UNKNOWN, Value := Trim s " ", IsArray := false }
  let str := ToLower (Trim s " ")
  let sw := digital str
  if sw = "<integer>" then ({ f with Typ := .INT }, none)
  else if sw = "&&" ∨ sw = "||" then ({ f with Typ := .LOGICAL }, none)
  else if sw = ">" ∨ sw = "<" ∨ sw = ">=" ∨ sw = "<=" ∨ sw = "==" ∨ sw = "!=" then
    ({ f with Typ := .EXPRESSION }, none)
  else if sw = "end" then ({ f with Typ := .END }, none)
  else if sw = "if" then ({ f with Typ := .IF }, none)
  else if sw = "set" then ({ f with Typ := .SET }, none)
  else if sw = "else" then ({ f with Typ := .ELSE }, none)
  else if sw = "where" then ({ f with Typ := .WHERE }, none)
  else if sw = "true" ∨ sw = "false" then ({ f with Typ := .BOOL }, none)
  else if sw = "nil" then ({ f with Typ := .NIL }, none)
  else
    let f := f.fragmentByParams params
    if f.Typ = .UNKNOWN then (f, some ("unknow parameter: " ++ s)) else (f, none)

/-- The words that the `switch` of `checkFragment` has a case for, apart from
the mark `<integer>`. -/
def keywords : List String :=
  ["&&", "||", ">", "<", ">=", "<=", "==", "!=", "end", "if", "set", "else", "where", "true",
    "false", "nil"]

/-- The texts that the `switch` of `checkFragment` has a case for. -/
def switchWords : List String := "<integer>" :: keywords

/-- The characters that reach the `default` case of the `switch` of
`splitTemplate`. -/
def isDefaultChar (c : Char) : Bool :=
  !(c = '"' || c = ' ' || c = '>' || c = '<' || c = '=' || c = '!' || c = '&' || c = '|')

deriving instance DecidableEq for Except

/-- The statement of `splitTemplate` that empties the buffer:
`if sqlClause := buf.Dump(); sqlClause != ""` followed by the call of
`checkFragment`, the return of its error and the `append`. `buf` is the
content of the `models.Sql` buffer, which `Dump` returns and resets; the
result is the new fragment list, or the error that `splitTemplate` returns
with a nil list. -/
def flushBuf (params : List Param) (buf : List Char) (fragList : List fragment) :
    Except String (List fragment) :=
  if buf = [] then .ok fragList
  else
    match checkFragment (String.mk buf) params with
    | (_, some err) => .error err
    | (f, none) => .ok (fragList ++ [f])

mutual
/-- The outer loop of `splitTemplate`, entered before the loop condition is
tested. The first list is the part of the template from index `i` on, so
`strOutrange(i, tmpl)` holds exactly when it is empty, `c` is `tmpl[i]` and
the head of `rest` is `tmpl[i+1]`; then come the content of the buffer and
the fragment list. `tmpl` is the whole template, used by the error text. A
result `.error` stands for Go's `(nil, err)`. -/
def splitTemplateLoop (tmpl : String) (params : List Param) :
    List Char → List Char → List fragment → Except String (List fragment)
  | [], buf, fragList => flushBuf params buf fragList
  | c :: rest, buf, fragList =>
    if c = '"' then splitTemplateQuote tmpl params c rest (buf ++ [c]) fragList
    else if c = ' ' then
      match flushBuf params buf fragList with
      | .error err => .error err
      | .ok fragList => splitTemplateLoop tmpl params rest [] fragList
    else if c = '>' ∨ c = '<' ∨ c = '=' ∨ c = '!' then
      match flushBuf params buf fragList with
      | .error err => .error err
      | .ok fragList =>
        match rest with
        | [] => .error ("incomplete code:" ++ tmpl)
        | d :: rest2 =>
          if d = '=' then
            match checkFragment (String.mk [c, d]) params with
            | (_, some err) => .error err
            | (f, none) => splitTemplateLoop tmpl params rest2 [] (fragList ++ [f])
          else
            match checkFragment (String.mk [c]) params with
            | (_, some err) => .error err
            | (f, none) => splitTemplateLoop tmpl params (d :: rest2) [] (fragList ++ [f])
    else if c = '&' ∨ c = '|' then
      match rest with
      | [] => .error ("incomplete code:" ++ tmpl)
      | d :: rest2 =>
        if d = c then
          match flushBuf params buf fragList with
          | .error err => .error err
          | .ok fragList =>
            splitTemplateLoop tmpl params rest2 []
              (fragList ++ [{ Typ := .LOGICAL, Value := String.mk [c, d], IsArray := false }])
        else splitTemplateLoop tmpl params (d :: rest2) buf fragList
    else splitTemplateLoop tmpl params rest (buf ++ [c]) fragList
/-- The inner loop of `splitTemplate` that copies a string literal, entered
after its `i++`. `prev` is `tmpl[i-1]`, the list is the part of the template
from index `i` on. -/
def splitTemplateQuote (tmpl : String) (params : List Param) :
    Char → List Char → List Char → List fragment → Except String (List fragment)
  | _, [], _, _ => .error ("incomplete code:" ++ tmpl)
  | prev, c :: rest, buf, fragList =>
    if c = '"' ∧ prev ≠ '\\' then
      splitTemplateLoop tmpl params rest []
        (fragList ++ [{ Typ := .STRING, Value := String.mk (buf ++ [c]), IsArray := false }])
    else splitTemplateQuote tmpl params c rest (buf ++ [c]) fragList
end

/-- Function `splitTemplate`. The template is read character by character;
every character that the code compares with is ASCII, so the bytes that the
code reads and the characters read here are cut at the same places. -/
def splitTemplate (tmpl : String) (params : List Param) : Except String (List fragment) :=
  splitTemplateLoop tmpl params tmpl.data [] []

/-- Function `fragmentToSLice`. The result is the pair of Go's two results,
the statement `part` and the `error`, `none` being `nil`; the zero value of
a statement has kind `UNKNOWN` and empty texts. -/
def fragmentToSLice (list : List fragment) : slice × Option String :=
  let values := list.map (fun t => t.Value)
  match values with
  | [] => ({ Typ := .UNKNOWN, Value := "", Origin := "" }, none)
  | v0 :: vs =>
    let part : slice := { Typ := .UNKNOWN, Value := "", Origin := Join values " " }
    let err : slice × Option String := (part, some ("syntax error:" ++ Join values " "))
    let sw := ToLower v0
    if sw = "if" then
      if values.length > 1 then
        ({ part with Typ := .IF, Value := Join (values.drop 1) " " }, none)
      else err
    else if sw = "else" then
      if values.length = 1 then ({ part with Typ := .ELSE }, none)
      else
        match vs with
        | [] => err
        | v1 :: _ =>
          if ToLower v1 = "if" ∧ values.length > 2 then
            ({ part with Value := Join (values.drop 2) " ", Typ := .ELSEIF }, none)
          else err
    else if sw = "where" then ({ part with Typ := .WHERE }, none)
    else if sw = "set" then ({ part with Typ := .SET }, none)
    else if sw = "end" then ({ part with Typ := .END }, none)
    else err

/-! ## Flat if-chains -/

/-- The statement sequence of a list of branches, each an `elseif` or `else`
statement followed by one literal statement. -/
def branchStmts (bs : List (slice × slice)) : List slice := bs.flatMap (fun p => [p.1, p.2])

/-- The else-branches that an if-clause named `name` is expected to hold for a
list of such branches, given the prior conditions `prior`: an `elseif` branch
has the condition `!(prior joined by ||) && own condition` and adds its own
condition to the prior ones, any other branch has `!(prior joined by ||)`. -/
def elseBranches (name : String) : List String → List (slice × slice) → List Clause
  | _, [] => []
  | prior, (b, l) :: rest =>
    if b.Typ = .ELSEIF then
      Clause.Else { VarName := name, Typ := .ELSEIF }
        ("!(" ++ Join prior " || " ++ ") && " ++ b.Value)
        [Clause.SQL { VarName := name, Typ := .SQL } [l.Value]]
        :: elseBranches name (prior ++ [b.Value]) rest
    else
      Clause.Else { VarName := name, Typ := b.Typ } ("!(" ++ Join prior " || " ++ ")")
        [Clause.SQL { VarName := name, Typ := .SQL } [l.Value]]
        :: elseBranches name prior rest

/-- The statement sequence of a flat if-chain: `if`, a literal, the `elseif`
branches, the optional `else` branch, `end`. -/
def ifChain (i l0 : slice) (elifs : List (slice × slice)) (els : Option (slice × slice))
    (e : slice) : List slice :=
  i :: l0 :: (branchStmts (elifs ++ els.toList) ++ [e])

/-! ## Guard texts read as boolean expressions -/

/-- Tokens of a guard text. -/
inductive GuardTok where
  | lparen | rparen | not | and | or
  | atom (name : String)
  deriving DecidableEq, Repr

/-- Ends the atom that is being read, if any. -/
def flushAtom (cur : List Char) (ts : List GuardTok) : List GuardTok :=
  if cur = [] then ts else GuardTok.atom (String.mk cur.reverse) :: ts

/-- Lexer of guard texts: parentheses, `!`, `&&`, `||`, and atoms, an atom
being a maximal run of other characters without a space. `cur` holds the
characters of the atom that is being read, last one first. -/
def lexGuard : List Char → List Char → List GuardTok
  | [], cur => flushAtom cur []
  | '&' :: '&' :: rest, cur => flushAtom cur (GuardTok.and :: lexGuard rest [])
  | '|' :: '|' :: rest, cur => flushAtom cur (GuardTok.or :: lexGuard rest [])
  | c :: rest, cur =>
    if c = ' ' then flushAtom cur (lexGuard rest [])
    else if c = '(' then flushAtom cur (GuardTok.lparen :: lexGuard rest [])
    else if c = ')' then flushAtom cur (GuardTok.rparen :: lexGuard rest [])
    else if c = '!' then flushAtom cur (GuardTok.not :: lexGuard rest [])
    else lexGuard rest (c :: cur)

mutual
/-- Value of a negation, a parenthesised expression or an atom at the head of
the tokens, with the tokens left over. -/
def evalUnary (env : String → Bool) : Nat → List GuardTok → Option (Bool × List GuardTok)
  | 0, _ => none
  | fuel + 1, ts =>
    match ts with
    | GuardTok.not :: rest =>
      match evalUnary env fuel rest with
      | some (b, r) => some (!b, r)
      | none => none
    | GuardTok.lparen :: rest =>
      match evalOr env fuel rest with
      | some (b, GuardTok.rparen :: r) => some (b, r)
      | _ => none
    | GuardTok.atom a :: rest => some (env a, rest)
    | _ => none
/-- Value of a conjunction `u && u && ...` at the head of the tokens: `&&`
binds tighter than `||`. -/
def evalAnd (env : String → Bool) : Nat → List GuardTok → Option (Bool × List GuardTok)
  | 0, _ => none
  | fuel + 1, ts =>
    match evalUnary env fuel ts with
    | some (b, GuardTok.and :: r) =>
      match evalAnd env fuel r with
      | some (c, r2) => some (b && c, r2)
      | none => none
    | other => other
/-- Value of a disjunction `c || c || ...` at the head of the tokens. -/
def evalOr (env : String → Bool) : Nat → List GuardTok → Option (Bool × List GuardTok)
  | 0, _ => none
  | fuel + 1, ts =>
    match evalAnd env fuel ts with
    | some (b, GuardTok.or :: r) =>
      match evalOr env fuel r with
      | some (c, r2) => some (b || c, r2)
      | none => none
    | other => other
end

/-- The truth value of a guard text read as a boolean expression, under the
truth assignment `env` to its atoms; `none` when the text is not such an
expression. -/
def evalGuard (env : String → Bool) (guard : String) : Option Bool :=
  match evalOr env (3 * guard.length + 3) (lexGuard guard.data []) with
  | some (b, []) => some b
  | _ => none

/-! ## Variable names of a clause tree -/

/-- The counter that `Names` holds for a kind (`Names[status]`); kinds other
than `if`, `where` and `set` have no counter. -/
def NameCounters.get (nm : NameCounters) : Status → Nat
  | .IF => nm.IF
  | .WHERE => nm.WHERE
  | .SET => nm.SET
  | _ => 0

/-- The name that `GetName` builds for a kind from the counter value `n`. -/
def nameOf : Status → Nat → String
  | .IF, n => "ifCond" ++ toString n
  | .WHERE, n => "whereCond" ++ toString n
  | .SET, n => "setCond" ++ toString n
  | _, n => "Cond" ++ toString n

mutual
/-- The variable names of the block clauses of kind `k` (`if`, `where` or `set`)
in a clause: its own name when it is a block of that kind, then the names in
its children, the body before the else-branches. Literal clauses and
else-branches carry the name of their enclosing block and own none. -/
def namesIn (k : Status) : Clause → List String
  | .SQL _ _ => []
  | .If base _ value els =>
    (if k = .IF then [base.VarName] else []) ++
      (namesInList k value ++ namesInList k els)
  | .Else _ _ value => namesInList k value
  | .Where base value =>
    (if k = .WHERE then [base.VarName] else []) ++ namesInList k value
  | .Set base value =>
    (if k = .SET then [base.VarName] else []) ++ namesInList k value
/-- The variable names of the block clauses of kind `k` in a clause list. -/
def namesInList (k : Status) : List Clause → List String
  | [] => []
  | c :: cs => namesIn k c ++ namesInList k cs
end

/-- The name `x` of kind `k` is numbered before the name `y`. -/
def nameLt (k : Status) (x y : String) : Prop :=
  ∃ i j, i < j ∧ x = nameOf k i ∧ y = nameOf k j

/-- Left-to-right order of a clause list: every name in an earlier clause is
numbered before every name in a later clause. -/
def siblingsInOrder (k : Status) (cs : List Clause) : Prop :=
  cs.Pairwise (fun a b => ∀ x ∈ namesIn k a, ∀ y ∈ namesIn k b, nameLt k x y)

mutual
/-- Order of the names of kind `k` in a clause: the name of a block is numbered
before every name nested in it, and each of its clause lists is in
left-to-right order, at every depth. -/
def ordered (k : Status) : Clause → Prop
  | .SQL _ _ => True
  | .If base _ value els =>
    (∀ x ∈ (if k = .IF then [base.VarName] else []),
      ∀ y ∈ namesInList k value ++ namesInList k els, nameLt k x y) ∧
    orderedList k value ∧ orderedList k els ∧
    siblingsInOrder k value ∧ siblingsInOrder k els
  | .Else _ _ value => orderedList k value ∧ siblingsInOrder k value
  | .Where base value =>
    (∀ x ∈ (if k = .WHERE then [base.VarName] else []),
      ∀ y ∈ namesInList k value, nameLt k x y) ∧
    orderedList k value ∧ siblingsInOrder k value
  | .Set base value =>
    (∀ x ∈ (if k = .SET then [base.VarName] else []),
      ∀ y ∈ namesInList k value, nameLt k x y) ∧
    orderedList k value ∧ siblingsInOrder k value
/-- Every clause of the list is ordered. -/
def orderedList (k : Status) : List Clause → Prop
  | [] => True
  | c :: cs => ordered k c ∧ orderedList k cs
end

/-- Every name of the list is the name of kind `k` for a counter value `i` with
`lo ≤ i < hi`. -/
def numberedWithin (k : Status) (lo hi : Nat) (l : List String) : Prop :=
  ∀ x ∈ l, ∃ i, lo ≤ i ∧ i < hi ∧ x = nameOf k i

/-- Invariant of the clause lists `value` and `els` that a parser loop has
built when the counter of kind `k` is `n`: their names are numbered from `lo`
up to below `n`, no name occurs twice, and both lists are ordered. -/
def accInv (k : Status) (lo n : Nat) (value els : List Clause) : Prop :=
  lo ≤ n ∧ numberedWithin k lo n (namesInList k value ++ namesInList k els) ∧
  (namesInList k value ++ namesInList k els).Nodup ∧
  orderedList k value ∧ orderedList k els ∧
  siblingsInOrder k value ∧ siblingsInOrder k els

/-- No counter of `a` is above the same counter of `b`. -/
def NameCounters.le (a b : NameCounters) : Prop := ∀ k, a.get k ≤ b.get k

/-- The cursor of the state is an index of its statement sequence. -/
def Slices.inRange (s : Slices) : Prop :=
  0 ≤ s.currentIndex ∧ s.currentIndex < (s.slices.length : Int)

/-- The state `s1` has the statement sequence of `s` and a cursor that is an
index of it and not before the cursor of `s`. -/
def Slices.reaches (s s1 : Slices) : Prop :=
  s1.slices = s.slices ∧ s.currentIndex ≤ s1.currentIndex ∧
    s1.currentIndex < (s.slices.length : Int)

/-- The statement sequence holds an `else` or an `else if` statement. -/
def hasElse (xs : List slice) : Prop := ∃ x ∈ xs, x.Typ = .ELSE ∨ x.Typ = .ELSEIF

/-- An outcome of a run that started in state `s` is settled when the fuel
did not run out, a return leaves the statement sequence as it was and the
cursor at an index not before that of `s`, and an index-out-of-range panic
happens only for a sequence with an `else` or `else if` statement. -/
def Outcome.settled {α : Type} (s : Slices) : Outcome α → Prop
  | .ok _ s1 => s.reaches s1
  | .fail _ s1 => s.reaches s1
  | .crash => hasElse s.slices
  | .outOfFuel => False

/-- The number of statements after the cursor, as an integer. -/
def Slices.ahead (s : Slices) : Int := (s.slices.length : Int) - 1 - s.currentIndex

/-- The cursor facts of the mutually recursive sub-parsers for a given fuel:
each of them settles when the fuel covers two units for every statement
after the cursor and the units of its own entry. -/
structure RunSpec (fuel : Nat) : Prop where
  ifRun : ∀ s, s.inRange → 2 * s.ahead + 2 ≤ (fuel : Int) → (Slices.parseIF fuel s).settled s
  ifLoop : ∀ res cond s, s.inRange → 2 * s.ahead + 1 ≤ (fuel : Int) →
    (Slices.parseIFLoop fuel res cond s).settled s
  elseRun : ∀ name s, s.inRange → hasElse s.slices → 2 * s.ahead + 2 ≤ (fuel : Int) →
    (Slices.parseElSE fuel name s).settled s
  elseLoop : ∀ name res n s, s.inRange → hasElse s.slices → s.Current = some n →
    2 * s.ahead + 3 ≤ (fuel : Int) →
    (Slices.parseElSELoop fuel name res n s).settled s.SubIndex
  whereRun : ∀ s, s.inRange → 2 * s.ahead + 2 ≤ (fuel : Int) →
    (Slices.parseWhere fuel s).settled s
  whereLoop : ∀ res s, s.inRange → 2 * s.ahead + 1 ≤ (fuel : Int) →
    (Slices.parseWhereLoop fuel res s).settled s
  setRun : ∀ s, s.inRange → 2 * s.ahead + 2 ≤ (fuel : Int) → (Slices.parseSet fuel s).settled s
  setLoop : ∀ res s, s.inRange → 2 * s.ahead + 1 ≤ (fuel : Int) →
    (Slices.parseSetLoop fuel res s).settled s

/-- The results of the mutually recursive sub-parsers do not change when a
fuel that did not run out is raised by one. -/
structure StableSpec (fuel : Nat) : Prop where
  ifRun : ∀ s, Slices.parseIF fuel s ≠ .outOfFuel →
    Slices.parseIF (fuel + 1) s = Slices.parseIF fuel s
  ifLoop : ∀ res cond s, Slices.parseIFLoop fuel res cond s ≠ .outOfFuel →
    Slices.parseIFLoop (fuel + 1) res cond s = Slices.parseIFLoop fuel res cond s
  elseRun : ∀ name s, Slices.parseElSE fuel name s ≠ .outOfFuel →
    Slices.parseElSE (fuel + 1) name s = Slices.parseElSE fuel name s
  elseLoop : ∀ name res n s, Slices.parseElSELoop fuel name res n s ≠ .outOfFuel →
    Slices.parseElSELoop (fuel + 1) name res n s = Slices.parseElSELoop fuel name res n s
  whereRun : ∀ s, Slices.parseWhere fuel s ≠ .outOfFuel →
    Slices.parseWhere (fuel + 1) s = Slices.parseWhere fuel s
  whereLoop : ∀ res s, Slices.parseWhereLoop fuel res s ≠ .outOfFuel →
    Slices.parseWhereLoop (fuel + 1) res s = Slices.parseWhereLoop fuel res s
  setRun : ∀ s, Slices.parseSet fuel s ≠ .outOfFuel →
    Slices.parseSet (fuel + 1) s = Slices.parseSet fuel s
  setLoop : ∀ res s, Slices.parseSetLoop fuel res s ≠ .outOfFuel →
    Slices.parseSetLoop (fuel + 1) res s = Slices.parseSetLoop fuel res s

/-! ## The block-parser entries of a run

`GetName` is called in three places: on entry to `parseIF`, to `parseWhere`
and to `parseSet`. The functions of this section follow the parser methods
case by case and list these calls in the order in which a run makes them.
Where a method calls `GetName`, the function makes an entry with the cursor,
the kind of the current statement and the name returned. Where a method calls
a sub-parser, the function takes the entries of that sub-parser and goes on,
as the method does, from the state in which the sub-parser returned. -/

/-- An entry of a block parser (`parseIF`, `parseWhere` or `parseSet`) in a
run: the cursor, which stands on the block statement, the kind of that
statement, and the name that `GetName` returned for it. -/
structure Entry where
  pos : Int
  kind : Status
  name : String
  deriving DecidableEq, Repr

mutual
/-- The entries of the run `parseIF fuel s`, in the order in which they are
made: its own, made where the method calls `GetName`, then those of its
loop. -/
def Slices.parseIFTrace : Nat → Slices → List Entry
  | 0, _ => []
  | fuel + 1, s =>
    match s.Current with
    | none => []
    | some x =>
      let (name, s1) := s.GetName x.Typ
      let s1 := s1.CreateIf name
      { pos := s.currentIndex, kind := x.Typ, name := name } ::
        Slices.parseIFLoopTrace fuel
          { base := { VarName := name, Typ := x.Typ }, Cond := x.Value, Value := [], Else := [] }
          [x.Value] s1

/-- The entries of the run `parseIFLoop fuel res cond s`: in every case of
the switch those of the sub-parser that the case calls, then, when that
sub-parser returned normally, those of the rest of the loop. -/
def Slices.parseIFLoopTrace : Nat → IfClause → List String → Slices → List Entry
  | 0, _, _, _ => []
  | fuel + 1, res, cond, s =>
    if s.HasMore then
      match s.Next with
      | none => []
      | some (n, s) =>
        match n.Typ with
        | .SQL | .DATA | .VARIABLE =>
          match Slices.parseSQL fuel res.base.VarName s with
          | .ok str s =>
            Slices.parseIFLoopTrace fuel { res with Value := res.Value ++ [str.toClause] } cond
              (s.appendIfCond res.base.VarName res.Cond str.String)
          | _ => []
        | .IF =>
          Slices.parseIFTrace fuel s ++
            match Slices.parseIF fuel s with
            | .ok ifClause s =>
              Slices.parseIFLoopTrace fuel { res with Value := res.Value ++ [ifClause.toClause] }
                cond (s.appendIfCond res.base.VarName res.Cond ifClause.String)
            | _ => []
        | .WHERE =>
          Slices.parseWhereTrace fuel s ++
            match Slices.parseWhere fuel s with
            | .ok whereClause s =>
              Slices.parseIFLoopTrace fuel
                { res with Value := res.Value ++ [whereClause.toClause] } cond
                (s.appendIfCond res.base.VarName res.Cond whereClause.String)
            | _ => []
        | .SET =>
          Slices.parseSetTrace fuel s ++
            match Slices.parseSet fuel s with
            | .ok setClause s =>
              Slices.parseIFLoopTrace fuel { res with Value := res.Value ++ [setClause.toClause] }
                cond (s.appendIfCond res.base.VarName res.Cond setClause.String)
            | _ => []
        | .ELSEIF =>
          Slices.parseElSETrace fuel res.base.VarName s ++
            match Slices.parseElSE fuel res.base.VarName s with
            | .ok elseClause s =>
              let elseCond := elseClause.Cond
              let elseClause :=
                { elseClause with Cond := "!(" ++ Join cond " || " ++ ") && " ++ elseCond }
              Slices.parseIFLoopTrace fuel { res with Else := res.Else ++ [elseClause.toClause] }
                (cond ++ [elseCond])
                (s.appendIfCond res.base.VarName elseClause.Cond elseClause.String)
            | _ => []
        | .ELSE =>
          Slices.parseElSETrace fuel res.base.VarName s ++
            match Slices.parseElSE fuel res.base.VarName s with
            | .ok elseClause s =>
              let elseClause := { elseClause with Cond := "!(" ++ Join cond " || " ++ ")" }
              Slices.parseIFLoopTrace fuel { res with Else := res.Else ++ [elseClause.toClause] }
                cond (s.appendIfCond res.base.VarName elseClause.Cond elseClause.String)
            | _ => []
        | _ => []
    else []

/-- The entries of the run `parseElSE fuel name s`: the method makes none of
its own. -/
def Slices.parseElSETrace : Nat → String → Slices → List Entry
  | 0, _, _ => []
  | fuel + 1, name, s =>
    match s.Current with
    | none => []
    | some x =>
      let res : ElseClause :=
        { base := { VarName := name, Typ := x.Typ }, Cond := x.Value, Value := [] }
      if !s.HasMore then []
      else
        match s.Next with
        | none => []
        | some (n, s) => Slices.parseElSELoopTrace fuel name res n s

/-- The entries of the run `parseElSELoop fuel name res n s`: those of the
sub-parser that the case calls, also when it returned an error, then, when
it returned normally and the post statement read a statement, those of the
rest of the loop. -/
def Slices.parseElSELoopTrace : Nat → String → ElseClause → slice → Slices → List Entry
  | 0, _, _, _, _ => []
  | fuel + 1, name, res, n, s =>
    if s.HasMore then
      match n.Typ with
      | .SQL | .DATA | .VARIABLE =>
        match Slices.parseSQL fuel name s with
        | .ok c s =>
          match s.Next with
          | none => []
          | some (m, s) =>
            Slices.parseElSELoopTrace fuel name { res with Value := res.Value ++ [c.toClause] }
              m s
        | _ => []
      | .IF =>
        Slices.parseIFTrace fuel s ++
          match Slices.parseIF fuel s with
          | .ok ifClause s =>
            match s.Next with
            | none => []
            | some (m, s) =>
              Slices.parseElSELoopTrace fuel name
                { res with Value := res.Value ++ [ifClause.toClause] } m s
          | _ => []
      | .WHERE =>
        Slices.parseWhereTrace fuel s ++
          match Slices.parseWhere fuel s with
          | .ok whereClause s =>
            match s.Next with
            | none => []
            | some (m, s) =>
              Slices.parseElSELoopTrace fuel name
                { res with Value := res.Value ++ [whereClause.toClause] } m s
          | _ => []
      | .SET =>
        Slices.parseSetTrace fuel s ++
          match Slices.parseSet fuel s with
          | .ok setClause s =>
            match s.Next with
            | none => []
            | some (m, s) =>
              Slices.parseElSELoopTrace fuel name
                { res with Value := res.Value ++ [setClause.toClause] } m s
          | _ => []
      | _ => []
    else []

/-- The entries of the run `parseWhere fuel s`: its own, then those of its
loop. -/
def Slices.parseWhereTrace : Nat → Slices → List Entry
  | 0, _ => []
  | fuel + 1, s =>
    match s.Current with
    | none => []
    | some x =>
      let (name, s1) := s.GetName x.Typ
      let s1 := s1.CreateStringSet name
      { pos := s.currentIndex, kind := x.Typ, name := name } ::
        Slices.parseWhereLoopTrace fuel
          { base := { VarName := name, Typ := x.Typ }, Value := [] } s1

/-- The entries of the run `parseWhereLoop fuel res s`. -/
def Slices.parseWhereLoopTrace : Nat → WhereClause → Slices → List Entry
  | 0, _, _ => []
  | fuel + 1, res, s =>
    if s.HasMore then
      match s.Next with
      | none => []
      | some (n, s) =>
        match n.Typ with
        | .SQL | .DATA | .VARIABLE =>
          match Slices.parseSQL fuel res.base.VarName s with
          | .ok strClause s =>
            Slices.parseWhereLoopTrace fuel
              { res with Value := res.Value ++ [strClause.toClause] }
              (s.appendSetValue res.base.VarName strClause.String)
          | _ => []
        | .IF =>
          Slices.parseIFTrace fuel s ++
            match Slices.parseIF fuel s with
            | .ok ifClause s =>
              Slices.parseWhereLoopTrace fuel
                { res with Value := res.Value ++ [ifClause.toClause] }
                (s.appendSetValue res.base.VarName ifClause.String)
            | _ => []
        | _ => []
    else []

/-- The entries of the run `parseSet fuel s`: its own, then those of its
loop. -/
def Slices.parseSetTrace : Nat → Slices → List Entry
  | 0, _ => []
  | fuel + 1, s =>
    match s.Current with
    | none => []
    | some x =>
      let (name, s1) := s.GetName x.Typ
      let s1 := s1.CreateStringSet name
      { pos := s.currentIndex, kind := x.Typ, name := name } ::
        Slices.parseSetLoopTrace fuel
          { base := { VarName := name, Typ := x.Typ }, Value := [] } s1

/-- The entries of the run `parseSetLoop fuel res s`. -/
def Slices.parseSetLoopTrace : Nat → SetClause → Slices → List Entry
  | 0, _, _ => []
  | fuel + 1, res, s =>
    if s.HasMore then
      match s.Next with
      | none => []
      | some (n, s) =>
        match n.Typ with
        | .SQL | .DATA | .VARIABLE =>
          match Slices.parseSQL fuel res.base.VarName s with
          | .ok strClause s =>
            Slices.parseSetLoopTrace fuel
              { res with Value := res.Value ++ [strClause.toClause] }
              (s.appendSetValue res.base.VarName strClause.String)
          | _ => []
        | .IF =>
          Slices.parseIFTrace fuel s ++
            match Slices.parseIF fuel s with
            | .ok ifClause s =>
              Slices.parseSetLoopTrace fuel
                { res with Value := res.Value ++ [ifClause.toClause] }
                (s.appendSetValue res.base.VarName ifClause.String)
            | _ => []
        | _ => []
    else []
end

/-- The counters after `GetName` has named a statement of the kind. -/
def NameCounters.bump (nm : NameCounters) : Status → NameCounters
  | .IF => { nm with IF := nm.IF + 1 }
  | .WHERE => { nm with WHERE := nm.WHERE + 1 }
  | .SET => { nm with SET := nm.SET + 1 }
  | _ => nm

theorem NewSlices_eq (xs : List slice) : NewSlices xs = Slices.mkNat xs [] 0 ⟨0, 0, 0⟩ := rfl

@[simp] theorem Slices.Current_mkNat (xs : List slice) (t : List String) (n : Nat)
    (nm : NameCounters) : (Slices.mkNat xs t n nm).Current = xs[n]? := by
  simp [Slices.Current, Slices.index, Slices.mkNat]

@[simp] theorem Slices.HasMore_mkNat (xs : List slice) (t : List String) (n : Nat)
    (nm : NameCounters) : (Slices.mkNat xs t n nm).HasMore = decide (n + 1 < xs.length) := by
  simp only [Slices.HasMore, Slices.mkNat, decide_eq_decide]
  omega

@[simp] theorem Slices.Next_mkNat (xs : List slice) (t : List String) (n : Nat)
    (nm : NameCounters) :
    (Slices.mkNat xs t n nm).Next =
      (xs[n + 1]?).map (fun x => (x, Slices.mkNat xs t (n + 1) nm)) := by
  simp only [Slices.Next, Slices.index, Slices.mkNat]
  have h : ¬ ((n : Int) + 1 < 0) := by omega
  have h2 : ((n : Int) + 1).toNat = n + 1 := by omega
  simp only [h, if_false, h2]
  cases xs[n + 1]? <;> simp

@[simp] theorem Slices.SubIndex_mkNat (xs : List slice) (t : List String) (n : Nat)
    (nm : NameCounters) : (Slices.mkNat xs t (n + 1) nm).SubIndex = Slices.mkNat xs t n nm := by
  simp [Slices.SubIndex, Slices.mkNat]

@[simp] theorem Slices.emit_mkNat (xs : List slice) (t : List String) (n : Nat)
    (nm : NameCounters) (l : String) :
    (Slices.mkNat xs t n nm).emit l = Slices.mkNat xs (t ++ [l]) n nm := rfl

@[simp] theorem getElem?_append_length {α : Type} (pre rest : List α) :
    (pre ++ rest)[pre.length]? = rest[0]? := by
  simp [List.getElem?_append_right]

@[simp] theorem getElem?_append_length_add {α : Type} (pre rest : List α) (k : Nat) :
    (pre ++ rest)[pre.length + k]? = rest[k]? := by
  simp [List.getElem?_append_right]

/-! ### Literal runs -/

/-- The loop of `parseSQL`, started on the first statement `x` of a maximal run
`x :: lits` of literal statements, collects the values of the run and leaves
the cursor on its last statement. -/
theorem Slices.parseSQLLoop_run (lits : List slice) (hl : ∀ y ∈ lits, y.Typ.isLiteral = true) :
    ∀ (pre post : List slice) (x : slice) (fuel : Nat) (res : SQLClause) (t : List String)
      (nm : NameCounters),
      x.Typ.isLiteral = true →
      (∀ z, post.head? = some z → z.Typ.isLiteral = false) →
      lits.length + 1 < fuel →
      Slices.parseSQLLoop fuel res x (Slices.mkNat (pre ++ x :: (lits ++ post)) t pre.length nm)
        = .ok { res with Value := res.Value ++ x.Value :: lits.map (·.Value) }
            (Slices.mkNat (pre ++ x :: (lits ++ post)) t (pre.length + lits.length) nm) := by
  induction lits with
  | nil =>
    intro pre post x fuel res t nm hx hp hf
    obtain ⟨f, rfl⟩ : ∃ f, fuel = f + 1 := ⟨fuel - 1, by simp at hf; omega⟩
    cases post with
    | nil => simp [Slices.parseSQLLoop, hx]
    | cons z post =>
      have hz : z.Typ.isLiteral = false := hp z rfl
      obtain ⟨g, rfl⟩ : ∃ g, f = g + 1 := ⟨f - 1, by simp at hf; omega⟩
      simp [Slices.parseSQLLoop, hx, hz, -List.getElem?_eq_getElem, List.getElem?_cons_zero]
  | cons y lits ih =>
    intro pre post x fuel res t nm hx hp hf
    obtain ⟨f, rfl⟩ : ∃ f, fuel = f + 1 := ⟨fuel - 1, by omega⟩
    have hy : y.Typ.isLiteral = true := hl y (by simp)
    have := ih (fun w hw => hl w (by simp [hw])) (pre ++ [x]) post y f
      { res with Value := res.Value ++ [x.Value] } t nm hy hp (by simp at hf; omega)
    simp only [List.append_assoc, List.cons_append, List.nil_append, List.length_append,
      List.length_singleton] at this
    rw [Slices.parseSQLLoop]
    simp only [List.length_cons] at hf
    simp [hx, this, -List.getElem?_eq_getElem, List.getElem?_cons_zero]
    congr 1
    omega

/-- The method `parseSQL` on a maximal run of literal statements. -/
theorem Slices.parseSQL_run (lits pre post : List slice) (x : slice) (fuel : Nat) (name : String)
    (t : List String) (nm : NameCounters)
    (hx : x.Typ.isLiteral = true) (hl : ∀ y ∈ lits, y.Typ.isLiteral = true)
    (hp : ∀ z, post.head? = some z → z.Typ.isLiteral = false) (hf : lits.length + 1 < fuel) :
    Slices.parseSQL fuel name (Slices.mkNat (pre ++ x :: (lits ++ post)) t pre.length nm)
      = .ok { base := { VarName := name, Typ := .SQL }, Value := x.Value :: lits.map (·.Value) }
          (Slices.mkNat (pre ++ x :: (lits ++ post)) t (pre.length + lits.length) nm) := by
  have := Slices.parseSQLLoop_run lits hl pre post x fuel
    { base := { VarName := name, Typ := .SQL }, Value := [] } t nm hx hp hf
  simp [Slices.parseSQL, this, -List.getElem?_eq_getElem, List.getElem?_cons_zero]

/-- The parser on a sequence of literal statements, for every sufficient fuel. -/
theorem Slices.parseFuel_literals (x : slice) (lits : List slice) (fuel : Nat)
    (hx : x.Typ.isLiteral = true) (hl : ∀ y ∈ lits, y.Typ.isLiteral = true)
    (hf : lits.length + 2 < fuel) :
    Slices.parseFuel fuel (NewSlices (x :: lits)) =
      .ok [Clause.SQL { VarName := "generateSQL", Typ := .SQL } (x.Value :: lits.map (·.Value))]
        (Slices.mkNat (x :: lits)
          ["", "generateSQL+=" ++ SQLClause.String
            { base := { VarName := "generateSQL", Typ := .SQL },
              Value := x.Value :: lits.map (·.Value) }]
          lits.length ⟨0, 0, 0⟩) := by
  obtain ⟨f, rfl⟩ : ∃ f, fuel = f + 1 := ⟨fuel - 1, by omega⟩
  have hrun := Slices.parseSQL_run lits [] [] x f "generateSQL" [""]
    ⟨0, 0, 0⟩ hx hl (by simp) (by omega)
  simp only [List.nil_append, List.append_nil, List.length_nil, Nat.zero_add] at hrun
  have hnull : (Slices.mkNat (x :: lits) [] 0 ⟨0, 0, 0⟩).IsNull = false := by
    simp [Slices.IsNull, Slices.mkNat]
  rw [Slices.parseFuel, NewSlices_eq]
  simp only [hnull, Slices.Current_mkNat, List.getElem?_cons_zero, Bool.false_eq_true, if_false]
  rw [Slices.parseLoop]
  simp only [Slices.emit_mkNat, List.nil_append]
  cases hxt : x.Typ <;> simp [Status.isLiteral, hxt] at hx <;>
    simp [hrun, SQLClause.toClause]

/-! ### Claims about the parser -/

/-- C1: for every non-empty statement sequence whose statements all have a
literal kind (SQL, DATA or VARIABLE), `parse` from a fresh state returns
normally with exactly one clause, the SQL clause whose `Value` is the list of
the statements' values in their order. -/
theorem parse_literals (xs : List slice) (hne : xs ≠ [])
    (hlit : ∀ x ∈ xs, x.Typ.isLiteral = true) :
    (Slices.parse (NewSlices xs)).value? =
      some [Clause.SQL { VarName := "generateSQL", Typ := .SQL } (xs.map (·.Value))] := by
  obtain ⟨x, lits, rfl⟩ := List.exists_cons_of_ne_nil hne
  rw [Slices.parse, Slices.parseFuel_literals x lits _ (hlit x (by simp))
    (fun y hy => hlit y (by simp [hy])) (by simp [Slices.fuelFor, NewSlices]; omega)]
  simp [Outcome.value?]

/-- Witness of C1 on a two-statement sequence. -/
theorem parse_literals_witness :
    ([⟨.SQL, "a", "a"⟩, ⟨.VARIABLE, "b", "b"⟩] : List slice) ≠ [] ∧
    (∀ x ∈ ([⟨.SQL, "a", "a"⟩, ⟨.VARIABLE, "b", "b"⟩] : List slice), x.Typ.isLiteral = true) ∧
    (Slices.parse (NewSlices [⟨.SQL, "a", "a"⟩, ⟨.VARIABLE, "b", "b"⟩])).value? =
      some [Clause.SQL { VarName := "generateSQL", Typ := .SQL } ["a", "b"]] :=
  ⟨by simp, by simp [Status.isLiteral],
    parse_literals [⟨.SQL, "a", "a"⟩, ⟨.VARIABLE, "b", "b"⟩] (by simp)
      (by simp [Status.isLiteral])⟩

/-- C3: the parse of `where if A == 1 "x=1" elseif A == 2 "x=2" else "x=0" end
end` from a fresh state returns normally with exactly one clause, the where
clause `whereCond0` whose only child is the if clause `ifCond0` with condition
`A == 1`, one literal body clause and two else branches whose effective
conditions are `!(A == 1) && A == 2` and `!(A == 1 || A == 2)`. -/
theorem parse_where_if_example :
    (Slices.parse (NewSlices
      [⟨.WHERE, "", "where"⟩, ⟨.IF, "A == 1", "if A == 1"⟩, ⟨.SQL, "\"x=1\"", "\"x=1\""⟩,
       ⟨.ELSEIF, "A == 2", "else if A == 2"⟩, ⟨.SQL, "\"x=2\"", "\"x=2\""⟩,
       ⟨.ELSE, "", "else"⟩, ⟨.SQL, "\"x=0\"", "\"x=0\""⟩, ⟨.END, "", "end"⟩,
       ⟨.END, "", "end"⟩])).value? =
    some [Clause.Where ⟨"whereCond0", .WHERE⟩
      [Clause.If ⟨"ifCond0", .IF⟩ "A == 1" [Clause.SQL ⟨"ifCond0", .SQL⟩ ["\"x=1\""]]
        [Clause.Else ⟨"ifCond0", .ELSEIF⟩ "!(A == 1) && A == 2"
           [Clause.SQL ⟨"ifCond0", .SQL⟩ ["\"x=2\""]],
         Clause.Else ⟨"ifCond0", .ELSE⟩ "!(A == 1 || A == 2)"
           [Clause.SQL ⟨"ifCond0", .SQL⟩ ["\"x=0\""]]]]] := by
  decide!

/-! ### Flat if-chains -/

@[simp] theorem Slices.GetName_IF_mkNat (xs : List slice) (t : List String) (n : Nat)
    (nm : NameCounters) :
    (Slices.mkNat xs t n nm).GetName .IF =
      ("ifCond" ++ toString nm.IF, Slices.mkNat xs t n { nm with IF := nm.IF + 1 }) := rfl

@[simp] theorem Slices.CreateIf_mkNat (xs : List slice) (t : List String) (n : Nat)
    (nm : NameCounters) (name : String) :
    (Slices.mkNat xs t n nm).CreateIf name =
      Slices.mkNat xs (t ++ [name ++ " := make([]helper.Cond, 0, 100)"]) n nm := rfl

@[simp] theorem Slices.appendIfCond_mkNat (xs : List slice) (t : List String) (n : Nat)
    (nm : NameCounters) (name cond result : String) :
    (Slices.mkNat xs t n nm).appendIfCond name cond result =
      Slices.mkNat xs (t ++ [name ++ " = append(" ++ name ++ ", helper.Cond\x7b" ++ cond ++ ", " ++
        result ++ "\x7d)"]) n nm := rfl

theorem Slices.parseSQL_single (xs : List slice) (n : Nat) (x : slice) (fuel : Nat) (name : String)
    (t : List String) (nm : NameCounters) (h0 : xs[n]? = some x) (hx : x.Typ.isLiteral = true)
    (h1 : ∀ z, xs[n + 1]? = some z → z.Typ.isLiteral = false) (hf : 2 ≤ fuel) :
    Slices.parseSQL fuel name (Slices.mkNat xs t n nm) =
      .ok { base := { VarName := name, Typ := .SQL }, Value := [x.Value] }
        (Slices.mkNat xs t n nm) := by
  obtain ⟨f, rfl⟩ : ∃ f, fuel = f + 2 := ⟨fuel - 2, by omega⟩
  simp only [Slices.parseSQL, Slices.Current_mkNat, h0, Slices.parseSQLLoop, hx, if_true,
    Slices.HasMore_mkNat, Slices.Next_mkNat]
  by_cases hlen : n + 1 < xs.length
  · obtain ⟨z, hz⟩ : ∃ z, xs[n + 1]? = some z := ⟨xs[n + 1], List.getElem?_eq_getElem hlen⟩
    have hzl := h1 z hz
    simp [hlen, hz, hzl]
  · simp [hlen]

theorem Slices.parseElSE_single (xs : List slice) (n : Nat) (b l z : slice) (fuel : Nat)
    (name : String) (t : List String) (nm : NameCounters)
    (hb : xs[n]? = some b) (hl : xs[n + 1]? = some l) (hz : xs[n + 2]? = some z)
    (hlt : l.Typ.isLiteral = true)
    (hzt : z.Typ = .ELSEIF ∨ z.Typ = .ELSE ∨ z.Typ = .END) (hf : 4 ≤ fuel) :
    Slices.parseElSE fuel name (Slices.mkNat xs t n nm) =
      .ok { base := { VarName := name, Typ := b.Typ }, Cond := b.Value,
            Value := [Clause.SQL { VarName := name, Typ := .SQL } [l.Value]] }
        (Slices.mkNat xs t (if n + 3 < xs.length then n + 1 else n + 2) nm) := by
  obtain ⟨f, rfl⟩ : ∃ f, fuel = f + 4 := ⟨fuel - 4, by omega⟩
  have hlen : n + 2 < xs.length := by
    by_contra hc
    rw [List.getElem?_eq_none (by omega)] at hz
    cases hz
  have hzl : z.Typ.isLiteral = false := by
    rcases hzt with h | h | h <;> simp [h, Status.isLiteral]
  have hsql := Slices.parseSQL_single xs (n + 1) l (f + 2) name t nm hl hlt
    (fun w hw => by rw [hz] at hw; cases hw; exact hzl) (by omega)
  rw [Slices.parseElSE]
  simp only [Slices.Current_mkNat, hb, Slices.HasMore_mkNat, Slices.Next_mkNat, hl]
  have h1 : n + 1 < xs.length := by omega
  simp only [h1, decide_True, Bool.not_true, Bool.false_eq_true, if_false, Option.map_some']
  rw [Slices.parseElSELoop]
  simp only [Slices.HasMore_mkNat, hlen, decide_True, if_true]
  cases hlt2 : l.Typ <;> simp [hlt2, Status.isLiteral] at hlt <;>
    simp only [hsql, Slices.Next_mkNat, hz, Option.map_some', SQLClause.toClause, List.nil_append] <;>
    rw [Slices.parseElSELoop] <;>
    simp only [Slices.HasMore_mkNat] <;>
    by_cases h3 : n + 3 < xs.length <;>
    rcases hzt with h | h | h <;> simp [h3, h]
theorem branchStmts_cons (b l : slice) (bs : List (slice × slice)) :
    branchStmts ((b, l) :: bs) = b :: l :: branchStmts bs := by
  simp [branchStmts]

theorem branchStmts_length (bs : List (slice × slice)) :
    (branchStmts bs).length = 2 * bs.length := by
  induction bs with
  | nil => rfl
  | cons p bs ih => obtain ⟨b, l⟩ := p; simp [branchStmts_cons, ih]; omega

theorem drop_eq_cons_iff_lookup {α : Type} (xs : List α) (k : Nat) (a : α) (rest : List α)
    (h : xs.drop k = a :: rest) : xs[k]? = some a ∧ xs.drop (k + 1) = rest := by
  constructor
  · have := List.getElem?_drop xs k 0
    rw [h] at this
    simpa using this.symm
  · have := List.drop_drop 1 k xs
    rw [h] at this
    simpa [Nat.add_comm] using this.symm

theorem length_of_drop_eq {α : Type} (xs : List α) (k : Nat) (a : α) (rest : List α)
    (h : xs.drop k = a :: rest) : xs.length = k + rest.length + 1 := by
  have := congrArg List.length h
  simp at this
  omega

theorem Slices.parseIFLoop_branches (e : slice) (he : e.Typ = .END) :
    ∀ (bs : List (slice × slice)),
      (∀ p ∈ bs, (p.1.Typ = .ELSEIF ∨ p.1.Typ = .ELSE) ∧ p.2.Typ.isLiteral = true) →
      ∀ (xs : List slice) (n fuel : Nat) (res : IfClause) (cond : List String)
        (t : List String) (nm : NameCounters),
        xs.drop (n + 1) = branchStmts bs ++ [e] →
        bs.length + 4 ≤ fuel →
        ∃ t', Slices.parseIFLoop fuel res cond (Slices.mkNat xs t n nm) =
          .ok { res with Else := res.Else ++ elseBranches res.base.VarName cond bs }
            (Slices.mkNat xs t' (n + 2 * bs.length + 1) nm) := by
  intro bs
  induction bs with
  | nil =>
    intro _ xs n fuel res cond t nm hd hf
    obtain ⟨f, rfl⟩ : ∃ f, fuel = f + 1 := ⟨fuel - 1, by omega⟩
    obtain ⟨h1, -⟩ := drop_eq_cons_iff_lookup xs (n + 1) e [] hd
    have hlen := length_of_drop_eq xs (n + 1) e [] hd
    refine ⟨t, ?_⟩
    rw [Slices.parseIFLoop]
    simp [elseBranches, he, h1, hlen]
  | cons p bs ih =>
    obtain ⟨b, l⟩ := p
    intro hbs xs n fuel res cond t nm hd hf
    obtain ⟨f, rfl⟩ : ∃ f, fuel = f + 1 := ⟨fuel - 1, by omega⟩
    have hb : b.Typ = .ELSEIF ∨ b.Typ = .ELSE := (hbs (b, l) (by simp)).1
    have hl : l.Typ.isLiteral = true := (hbs (b, l) (by simp)).2
    have hbs' : ∀ p ∈ bs, (p.1.Typ = .ELSEIF ∨ p.1.Typ = .ELSE) ∧ p.2.Typ.isLiteral = true :=
      fun p hp => hbs p (by simp [hp])
    simp only [List.length_cons] at hf
    rw [branchStmts_cons] at hd
    simp only [List.cons_append] at hd
    obtain ⟨hxb, hd1⟩ := drop_eq_cons_iff_lookup xs (n + 1) b _ hd
    obtain ⟨hxl, hd2⟩ := drop_eq_cons_iff_lookup xs (n + 1 + 1) l _ hd1
    have hlen := length_of_drop_eq xs (n + 1) b _ hd
    simp only [List.length_cons, List.length_append, branchStmts_length, List.length_nil] at hlen
    -- the statement that follows the branch
    obtain ⟨z, rest, hz, hzt, hrest⟩ : ∃ z rest, branchStmts bs ++ [e] = z :: rest ∧
        (z.Typ = .ELSEIF ∨ z.Typ = .ELSE ∨ z.Typ = .END) ∧ rest.length = 2 * bs.length := by
      cases bs with
      | nil => exact ⟨e, [], rfl, Or.inr (Or.inr he), rfl⟩
      | cons p' bs' =>
        obtain ⟨b', l'⟩ := p'
        refine ⟨b', l' :: (branchStmts bs' ++ [e]), by simp [branchStmts_cons], ?_, ?_⟩
        · rcases (hbs' (b', l') (by simp)).1 with h | h
          · exact Or.inl h
          · exact Or.inr (Or.inl h)
        · simp [branchStmts_length]; omega
    have hd3 := hd2
    rw [hz] at hd2
    obtain ⟨hxz, -⟩ := drop_eq_cons_iff_lookup xs (n + 1 + 1 + 1) z _ hd2
    have hE := Slices.parseElSE_single xs (n + 1) b l z f res.base.VarName t nm hxb hxl hxz hl hzt
      (by omega)
    rw [Slices.parseIFLoop]
    have hmore : n + 1 < xs.length := by omega
    simp only [Slices.HasMore_mkNat, hmore, decide_True, if_true, Slices.Next_mkNat, hxb,
      Option.map_some']
    by_cases hbs0 : bs = []
    · subst hbs0
      simp only [List.length_nil] at hrest hlen hf ⊢
      have hlt : ¬ (n + 1 + 3 < xs.length) := by omega
      simp only [hlt, if_false] at hE
      obtain ⟨g, rfl⟩ : ∃ g, f = g + 1 := ⟨f - 1, by omega⟩
      have hlt2 : ¬ (n + 1 + 2 + 1 < xs.length) := by omega
      have hze : z = e := by simp [branchStmts] at hz; exact hz.1.symm
      subst hze
      have hxz2 : xs[n + 1 + 2]? = some z := hxz
      rcases hb with hb | hb
      · simp only [hb, hE, elseBranches, if_true, ElseClause.toClause, Slices.appendIfCond_mkNat]
        rw [Slices.parseIFLoop]
        simp only [Slices.HasMore_mkNat, hlt2, decide_False, Bool.false_eq_true, if_false,
          Slices.Current_mkNat, hxz2, he, if_true]
        exact ⟨_, rfl⟩
      · have hne : ¬ (Status.ELSE = Status.ELSEIF) := by decide
        simp only [hb, hE, elseBranches, hne, if_false, ElseClause.toClause,
          Slices.appendIfCond_mkNat]
        rw [Slices.parseIFLoop]
        simp only [Slices.HasMore_mkNat, hlt2, decide_False, Bool.false_eq_true, if_false,
          Slices.Current_mkNat, hxz2, he, if_true]
        exact ⟨_, rfl⟩
    · have hpos : 0 < bs.length := List.length_pos.mpr hbs0
      have hlt : n + 1 + 3 < xs.length := by omega
      simp only [hlt, if_true] at hE
      have hcur : n + 2 * (bs.length + 1) + 1 = n + 1 + 1 + 2 * bs.length + 1 := by omega
      simp only [List.length_cons]
      rw [hcur]
      rcases hb with hb | hb
      · simp only [hb, hE, elseBranches, if_true, ElseClause.toClause, Slices.appendIfCond_mkNat]
        obtain ⟨t', ht'⟩ := ih hbs' xs (n + 1 + 1) f
          { res with Else := res.Else ++ [Clause.Else { VarName := res.base.VarName, Typ := .ELSEIF }
            ("!(" ++ Join cond " || " ++ ") && " ++ b.Value)
            [Clause.SQL { VarName := res.base.VarName, Typ := .SQL } [l.Value]]] }
          (cond ++ [b.Value]) _ nm hd3 (by omega)
        rw [ht']
        simp only [List.append_assoc, List.singleton_append]
        exact ⟨_, rfl⟩
      · have hne : ¬ (Status.ELSE = Status.ELSEIF) := by decide
        simp only [hb, hE, elseBranches, hne, if_false, ElseClause.toClause,
          Slices.appendIfCond_mkNat]
        obtain ⟨t', ht'⟩ := ih hbs' xs (n + 1 + 1) f
          { res with Else := res.Else ++ [Clause.Else { VarName := res.base.VarName, Typ := .ELSE }
            ("!(" ++ Join cond " || " ++ ")")
            [Clause.SQL { VarName := res.base.VarName, Typ := .SQL } [l.Value]]] }
          cond _ nm hd3 (by omega)
        rw [ht']
        simp only [List.append_assoc, List.singleton_append]
        exact ⟨_, rfl⟩
theorem ifCond_zero : "ifCond" ++ toString (0 : Nat) = "ifCond0" := by decide

theorem Slices.parseFuel_chain (i l0 e : slice) (bs : List (slice × slice)) (fuel : Nat)
    (hi : i.Typ = .IF) (hl0 : l0.Typ.isLiteral = true) (he : e.Typ = .END)
    (hbs : ∀ p ∈ bs, (p.1.Typ = .ELSEIF ∨ p.1.Typ = .ELSE) ∧ p.2.Typ.isLiteral = true)
    (hf : bs.length + 8 ≤ fuel) :
    ∃ t', Slices.parseFuel fuel (NewSlices (i :: l0 :: (branchStmts bs ++ [e]))) =
      .ok [Clause.If { VarName := "ifCond0", Typ := .IF } i.Value
            [Clause.SQL { VarName := "ifCond0", Typ := .SQL } [l0.Value]]
            (elseBranches "ifCond0" [i.Value] bs)]
        (Slices.mkNat (i :: l0 :: (branchStmts bs ++ [e])) t' (2 * bs.length + 2)
          { IF := 1, WHERE := 0, SET := 0 }) := by
  obtain ⟨f, rfl⟩ : ∃ f, fuel = f + 4 := ⟨fuel - 4, by omega⟩
  -- the statement after the first literal is not a literal
  have hz : ∀ z, (i :: l0 :: (branchStmts bs ++ [e]))[1 + 1]? = some z → z.Typ.isLiteral = false := by
    intro z hz
    cases bs with
    | nil =>
      simp [branchStmts] at hz
      subst hz
      simp [he, Status.isLiteral]
    | cons p bs' =>
      obtain ⟨b, l⟩ := p
      simp [branchStmts_cons] at hz
      subst hz
      have hb : b.Typ = .ELSEIF ∨ b.Typ = .ELSE := (hbs (b, l) (by simp)).1
      rcases hb with h | h <;> simp [h, Status.isLiteral]
  have hsql := fun t nm => Slices.parseSQL_single (i :: l0 :: (branchStmts bs ++ [e])) 1 l0 (f + 1)
    "ifCond0" t nm (by simp) hl0 hz (by omega)
  have hnull : (Slices.mkNat (i :: l0 :: (branchStmts bs ++ [e])) [] 0 ⟨0, 0, 0⟩).IsNull = false := by
    simp [Slices.IsNull, Slices.mkNat]
  rw [Slices.parseFuel, NewSlices_eq]
  simp only [hnull, Slices.Current_mkNat, List.getElem?_cons_zero, Bool.false_eq_true, if_false]
  rw [Slices.parseLoop]
  simp only [Slices.emit_mkNat, List.nil_append, hi]
  rw [Slices.parseIF]
  simp only [Slices.Current_mkNat, List.getElem?_cons_zero, hi, Slices.GetName_IF_mkNat,
    Slices.CreateIf_mkNat, ifCond_zero]
  rw [Slices.parseIFLoop]
  have hlen : 0 + 1 < (i :: l0 :: (branchStmts bs ++ [e])).length := by simp
  simp only [Slices.HasMore_mkNat, hlen, decide_True, if_true, Slices.Next_mkNat,
    List.getElem?_cons_succ, List.getElem?_cons_zero, Option.map_some']
  obtain ⟨t', ht'⟩ := Slices.parseIFLoop_branches e he bs hbs (i :: l0 :: (branchStmts bs ++ [e])) 1 (f + 1)
    { base := { VarName := "ifCond0", Typ := .IF }, Cond := i.Value,
      Value := [Clause.SQL { VarName := "ifCond0", Typ := .SQL } [l0.Value]], Else := [] }
    [i.Value]
    (([""] ++ ["ifCond0" ++ " := make([]helper.Cond, 0, 100)"]) ++
      ["ifCond0" ++ " = append(" ++ "ifCond0" ++ ", helper.Cond\x7b" ++ i.Value ++ ", " ++
        SQLClause.String { base := { VarName := "ifCond0", Typ := .SQL }, Value := [l0.Value] } ++
        "\x7d)"])
    { IF := 0 + 1, WHERE := 0, SET := 0 } (by simp) (by omega)
  have hfin : ¬ (2 * bs.length + 2 + 1 < (i :: l0 :: (branchStmts bs ++ [e])).length) := by
    simp [branchStmts_length]
  have hcur : 1 + 2 * bs.length + 1 = 2 * bs.length + 2 := by omega
  cases hl : l0.Typ <;> simp [hl, Status.isLiteral] at hl0 <;>
    simp only [hsql, SQLClause.toClause, List.nil_append, Slices.appendIfCond_mkNat, ht',
      IfClause.toClause, Slices.emit_mkNat, Slices.HasMore_mkNat, hfin, decide_False,
      Bool.not_false, if_true, hcur] <;>
    exact ⟨_, rfl⟩
theorem elseBranches_length (name : String) (bs : List (slice × slice)) :
    ∀ prior, (elseBranches name prior bs).length = bs.length := by
  induction bs with
  | nil => intro _; rfl
  | cons p bs ih =>
    obtain ⟨b, l⟩ := p
    intro prior
    by_cases h : b.Typ = .ELSEIF <;> simp [elseBranches, h, ih]

theorem elseBranches_elseif (name : String) (elifs rest : List (slice × slice))
    (h : ∀ p ∈ elifs, p.1.Typ = .ELSEIF) :
    ∀ (prior : List String) (j : Nat) (b l : slice), elifs[j]? = some (b, l) →
      (elseBranches name prior (elifs ++ rest))[j]? =
        some (Clause.Else { VarName := name, Typ := .ELSEIF }
          ("!(" ++ Join (prior ++ (elifs.take j).map (·.1.Value)) " || " ++ ") && " ++ b.Value)
          [Clause.SQL { VarName := name, Typ := .SQL } [l.Value]]) := by
  induction elifs with
  | nil => intro prior j b l hj; simp at hj
  | cons p elifs ih =>
    obtain ⟨b0, l0⟩ := p
    intro prior j b l hj
    have hb0 : b0.Typ = .ELSEIF := h (b0, l0) (by simp)
    cases j with
    | zero =>
      simp at hj
      obtain ⟨rfl, rfl⟩ := hj
      simp [elseBranches, hb0]
    | succ j =>
      simp at hj
      have := ih (fun p hp => h p (by simp [hp])) (prior ++ [b0.Value]) j b l hj
      simp [elseBranches, hb0, this]

theorem elseBranches_else (name : String) (elifs : List (slice × slice)) (b l : slice)
    (h : ∀ p ∈ elifs, p.1.Typ = .ELSEIF) (hb : b.Typ = .ELSE) :
    ∀ (prior : List String),
      (elseBranches name prior (elifs ++ [(b, l)]))[elifs.length]? =
        some (Clause.Else { VarName := name, Typ := .ELSE }
          ("!(" ++ Join (prior ++ elifs.map (·.1.Value)) " || " ++ ")")
          [Clause.SQL { VarName := name, Typ := .SQL } [l.Value]]) := by
  induction elifs with
  | nil => intro prior; simp [elseBranches, hb]
  | cons p elifs ih =>
    obtain ⟨b0, l0⟩ := p
    intro prior
    have hb0 : b0.Typ = .ELSEIF := h (b0, l0) (by simp)
    have := ih (fun p hp => h p (by simp [hp])) (prior ++ [b0.Value])
    simp [elseBranches, hb0, this]

/-- C2: for every flat if-chain `[IF c0, literal, ELSEIF c1, literal, ...,
ELSEIF ck, literal, ELSE, literal, END]` (the `else` part optional), `parse`
from a fresh state returns one if-clause with condition `c0` whose number of
else-branches is the number of `elseif` and `else` statements; the branch of
the j-th `elseif` has the condition `!(c0 || ... || c(j-1)) && cj` and the
branch of `else` has the condition `!(c0 || ... || ck)`. -/
theorem parse_if_chain (i l0 e : slice) (elifs : List (slice × slice))
    (els : Option (slice × slice))
    (hi : i.Typ = .IF) (hl0 : l0.Typ.isLiteral = true) (he : e.Typ = .END)
    (helifs : ∀ p ∈ elifs, p.1.Typ = .ELSEIF ∧ p.2.Typ.isLiteral = true)
    (hels : ∀ p ∈ els, p.1.Typ = .ELSE ∧ p.2.Typ.isLiteral = true) :
    ∃ branches : List Clause,
      (Slices.parse (NewSlices (ifChain i l0 elifs els e))).value? =
        some [Clause.If { VarName := "ifCond0", Typ := .IF } i.Value
          [Clause.SQL { VarName := "ifCond0", Typ := .SQL } [l0.Value]] branches] ∧
      branches.length = elifs.length + els.toList.length ∧
      (∀ (j : Nat) (b l : slice), elifs[j]? = some (b, l) →
        branches[j]? = some (Clause.Else { VarName := "ifCond0", Typ := .ELSEIF }
          ("!(" ++ Join (i.Value :: (elifs.take j).map (·.1.Value)) " || " ++ ") && " ++ b.Value)
          [Clause.SQL { VarName := "ifCond0", Typ := .SQL } [l.Value]])) ∧
      (∀ (b l : slice), els = some (b, l) →
        branches[elifs.length]? = some (Clause.Else { VarName := "ifCond0", Typ := .ELSE }
          ("!(" ++ Join (i.Value :: elifs.map (·.1.Value)) " || " ++ ")")
          [Clause.SQL { VarName := "ifCond0", Typ := .SQL } [l.Value]])) := by
  have hbs : ∀ p ∈ elifs ++ els.toList,
      (p.1.Typ = .ELSEIF ∨ p.1.Typ = .ELSE) ∧ p.2.Typ.isLiteral = true := by
    intro p hp
    rcases List.mem_append.mp hp with h | h
    · exact ⟨Or.inl (helifs p h).1, (helifs p h).2⟩
    · have := hels p (by simpa using h)
      exact ⟨Or.inr this.1, this.2⟩
  obtain ⟨t', ht'⟩ := Slices.parseFuel_chain i l0 e (elifs ++ els.toList)
    (NewSlices (ifChain i l0 elifs els e)).fuelFor hi hl0 he hbs
    (by simp [Slices.fuelFor, NewSlices, ifChain, branchStmts_length]; omega)
  refine ⟨elseBranches "ifCond0" [i.Value] (elifs ++ els.toList), ?_, ?_, ?_, ?_⟩
  · rw [Slices.parse]; unfold ifChain at ht' ⊢; rw [ht']; rfl
  · simp [elseBranches_length]
  · intro j b l hj
    have := elseBranches_elseif "ifCond0" elifs els.toList (fun p hp => (helifs p hp).1)
      [i.Value] j b l hj
    simpa using this
  · intro b l hbl
    subst hbl
    have := elseBranches_else "ifCond0" elifs b l (fun p hp => (helifs p hp).1)
      (hels (b, l) rfl).1 [i.Value]
    simpa using this

/-- Witness of C2: the chain `if a "x" elseif b "y" else "z" end`. -/
theorem parse_if_chain_witness :
    (slice.mk .IF "a" "if a").Typ = .IF ∧
    (slice.mk .SQL "\"x\"" "\"x\"").Typ.isLiteral = true ∧
    (slice.mk .END "" "end").Typ = .END ∧
    (∀ p ∈ [((slice.mk .ELSEIF "b" "else if b"), (slice.mk .SQL "\"y\"" "\"y\""))],
      p.1.Typ = .ELSEIF ∧ p.2.Typ.isLiteral = true) ∧
    (∀ p ∈ some ((slice.mk .ELSE "" "else"), (slice.mk .SQL "\"z\"" "\"z\"")),
      p.1.Typ = .ELSE ∧ p.2.Typ.isLiteral = true) ∧
    ∃ branches : List Clause,
      (Slices.parse (NewSlices (ifChain ⟨.IF, "a", "if a"⟩ ⟨.SQL, "\"x\"", "\"x\""⟩
        [(⟨.ELSEIF, "b", "else if b"⟩, ⟨.SQL, "\"y\"", "\"y\""⟩)]
        (some (⟨.ELSE, "", "else"⟩, ⟨.SQL, "\"z\"", "\"z\""⟩)) ⟨.END, "", "end"⟩))).value? =
        some [Clause.If { VarName := "ifCond0", Typ := .IF } "a"
          [Clause.SQL { VarName := "ifCond0", Typ := .SQL } ["\"x\""]] branches] ∧
      branches.length = 1 + 1 :=
  ⟨rfl, rfl, rfl, by simp [Status.isLiteral], by simp [Status.isLiteral],
    (parse_if_chain ⟨.IF, "a", "if a"⟩ ⟨.SQL, "\"x\"", "\"x\""⟩ ⟨.END, "", "end"⟩
      [(⟨.ELSEIF, "b", "else if b"⟩, ⟨.SQL, "\"y\"", "\"y\""⟩)]
      (some (⟨.ELSE, "", "else"⟩, ⟨.SQL, "\"z\"", "\"z\""⟩)) rfl rfl rfl
      (by simp [Status.isLiteral]) (by simp [Status.isLiteral])).imp
      (fun _ h => ⟨h.1, h.2.1⟩)⟩

/-! ### Block ends -/

/-- C5, the code at the failing input `if a if b end`: two `if` statements and
one `end`, and `parse` returns normally with the nested if-clauses instead of
the error `incomplete SQL,if not end`. -/
theorem parse_nested_if_one_end :
    (Slices.parse (NewSlices
      [⟨.IF, "a", "if a"⟩, ⟨.IF, "b", "if b"⟩, ⟨.END, "", "end"⟩])).value? =
    some [Clause.If ⟨"ifCond0", .IF⟩ "a" [Clause.If ⟨"ifCond1", .IF⟩ "b" [] []] []] := by
  decide!

/-- C6, the code at the failing input `if a else where where end`: the error
of the directly nested `where` is dropped by `parseElSE`, and `parse` returns
normally. -/
theorem parse_where_in_where_under_else :
    (Slices.parse (NewSlices
      [⟨.IF, "a", "if a"⟩, ⟨.ELSE, "", "else"⟩, ⟨.WHERE, "", "where"⟩, ⟨.WHERE, "", "where"⟩,
       ⟨.END, "", "end"⟩])).value? =
    some [Clause.If ⟨"ifCond0", .IF⟩ "a" [] [Clause.Else ⟨"ifCond0", .ELSE⟩ "!(a)" []]] := by
  decide!

/-- C7, counterexample: on `end "a"` the top-level loop goes on after the
`end`, and `parse` returns the literal clause, not an empty clause list. -/
theorem parse_end_then_literal :
    (Slices.parse (NewSlices [⟨.END, "", "end"⟩, ⟨.SQL, "\"a\"", "\"a\""⟩])).value? =
      some [Clause.SQL ⟨"generateSQL", .SQL⟩ ["\"a\""]] ∧
    (Slices.parse (NewSlices [⟨.END, "", "end"⟩, ⟨.SQL, "\"a\"", "\"a\""⟩])).value? ≠ some [] := by
  decide!

/-- C7, amended: when the top-level loop of `parse` meets an `end` statement
it adds no clause and raises no error; the loop ends there only when the `end`
is the last statement and otherwise goes on with the next statement. So
`parse` of `[END]` returns an empty clause list, and `parse` of `END` followed
by a non-empty run of literal statements returns the one literal clause of
that run. -/
theorem parse_top_level_end :
    (∀ (fuel : Nat) (res : List Clause) (x : slice) (s : Slices), x.Typ = .END →
      Slices.parseLoop (fuel + 1) res x s =
        if !(s.emit "").HasMore then .ok res (s.emit "")
        else
          match (s.emit "").Next with
          | none => .crash
          | some (y, s1) => Slices.parseLoop fuel res y s1) ∧
    (∀ e : slice, e.Typ = .END → (Slices.parse (NewSlices [e])).value? = some []) ∧
    (∀ (e x : slice) (lits : List slice), e.Typ = .END → x.Typ.isLiteral = true →
      (∀ y ∈ lits, y.Typ.isLiteral = true) →
      (Slices.parse (NewSlices (e :: x :: lits))).value? =
        some [Clause.SQL { VarName := "generateSQL", Typ := .SQL }
          (x.Value :: lits.map (·.Value))]) := by
  refine ⟨?_, ?_, ?_⟩
  · intro fuel res x s hx
    rw [Slices.parseLoop]
    simp only [hx]
  · intro e he
    have h1 : (Slices.mkNat [e] [] 0 ⟨0, 0, 0⟩).IsNull = false := by
      simp [Slices.IsNull, Slices.mkNat]
    have hfuel : (NewSlices [e]).fuelFor = 3 + 1 := rfl
    rw [Slices.parse, hfuel, Slices.parseFuel, NewSlices_eq]
    simp only [h1, Bool.false_eq_true, if_false, Slices.Current_mkNat, List.getElem?_cons_zero]
    rw [Slices.parseLoop]
    simp [he, Outcome.value?]
  · intro e x lits he hx hl
    have h1 : (Slices.mkNat (e :: x :: lits) [] 0 ⟨0, 0, 0⟩).IsNull = false := by
      simp [Slices.IsNull, Slices.mkNat]
    have hfuel : (NewSlices (e :: x :: lits)).fuelFor = (2 * lits.length + 4) + 1 + 1 := by
      simp [Slices.fuelFor, NewSlices]; omega
    have hrun := Slices.parseSQL_run lits [e] [] x (2 * lits.length + 4) "generateSQL" ["", ""]
      ⟨0, 0, 0⟩ hx hl (by simp) (by omega)
    simp only [List.append_nil, List.length_singleton, List.singleton_append] at hrun
    rw [Slices.parse, hfuel, Slices.parseFuel, NewSlices_eq]
    simp only [h1, Bool.false_eq_true, if_false, Slices.Current_mkNat, List.getElem?_cons_zero]
    rw [Slices.parseLoop]
    simp only [he, Slices.emit_mkNat, List.nil_append, Slices.HasMore_mkNat, Slices.Next_mkNat]
    simp only [List.length_cons, Nat.zero_add, List.getElem?_cons_succ, List.getElem?_cons_zero,
      Option.map_some']
    have hlt : 1 < lits.length + 1 + 1 := by omega
    simp only [hlt, decide_True, Bool.not_true, Bool.false_eq_true, if_false]
    rw [Slices.parseLoop]
    simp only [Slices.emit_mkNat, List.singleton_append]
    have hle : lits.length + 1 ≤ 1 + lits.length := by omega
    cases hxt : x.Typ <;> simp [Status.isLiteral, hxt] at hx <;>
      simp [hrun, SQLClause.toClause, Outcome.value?, hle]

/-- Witness of the amended C7 on `end "a" b`. -/
theorem parse_top_level_end_witness :
    (slice.mk .END "" "end").Typ = .END ∧
    (slice.mk .SQL "\"a\"" "\"a\"").Typ.isLiteral = true ∧
    (∀ y ∈ [slice.mk .VARIABLE "b" "b"], y.Typ.isLiteral = true) ∧
    (Slices.parse (NewSlices [⟨.END, "", "end"⟩, ⟨.SQL, "\"a\"", "\"a\""⟩,
      ⟨.VARIABLE, "b", "b"⟩])).value? =
      some [Clause.SQL { VarName := "generateSQL", Typ := .SQL } ["\"a\"", "b"]] :=
  ⟨rfl, rfl, by simp [Status.isLiteral],
    parse_top_level_end.2.2 ⟨.END, "", "end"⟩ ⟨.SQL, "\"a\"", "\"a\""⟩ [⟨.VARIABLE, "b", "b"⟩]
      rfl rfl (by simp [Status.isLiteral])⟩

/-! ### Guards of a chain -/

/-- C8, the code at the failing input `if a "x" elseif b || c "y" end`: the
guard emitted for the `elseif` branch is `!(a) && b || c`, and under the
assignment `a = true, b = false, c = true` both the guard `a` of the if
branch and that guard are true. -/
theorem elseif_or_guards_overlap :
    (Slices.parse (NewSlices
      [⟨.IF, "a", "if a"⟩, ⟨.SQL, "\"x\"", "\"x\""⟩, ⟨.ELSEIF, "b || c", "else if b || c"⟩,
       ⟨.SQL, "\"y\"", "\"y\""⟩, ⟨.END, "", "end"⟩])).value? =
      some [Clause.If ⟨"ifCond0", .IF⟩ "a" [Clause.SQL ⟨"ifCond0", .SQL⟩ ["\"x\""]]
        [Clause.Else ⟨"ifCond0", .ELSEIF⟩ "!(a) && b || c"
          [Clause.SQL ⟨"ifCond0", .SQL⟩ ["\"y\""]]]] ∧
    evalGuard (fun x => x == "a" || x == "c") "a" = some true ∧
    evalGuard (fun x => x == "a" || x == "c") "!(a) && b || c" = some true := by
  decide!

/-! ### Variable names -/

theorem NameCounters.le_refl (a : NameCounters) : a.le a := fun _ => Nat.le_refl _

@[simp] theorem Slices.emit_Current (s : Slices) (l : String) : (s.emit l).Current = s.Current := rfl
@[simp] theorem Slices.SubIndex_Names (s : Slices) : s.SubIndex.Names = s.Names := rfl

theorem accInv_le {k : Status} {lo n : Nat} {v e : List Clause} (h : accInv k lo n v e) : lo ≤ n :=
  h.1

/-- The validator on a four-fragment list: the switch on the second fragment. -/
theorem check_four (kw a op b : fragment) :
    checkTempleFragmentValid [kw, a, op, b] =
      match a.Typ with
      | .IF | .ELSE | .END | .BOOL | .LOGICAL | .WHERE | .SET =>
        checkTempleFragmentValidLoop [kw, a, op, b] 2
      | .INT | .STRING | .OTHER | .TIME | .NIL =>
        if isExpressionValid [a, op, b] then none
        else some ("condition type not match：" ++ fragmentToString [a, op, b])
      | _ => some ("unknow fragment ： " ++ a.Value ++ " ") := by
  rw [checkTempleFragmentValid, checkTempleFragmentValidLoop]
  simp
  cases a.Typ <;> simp <;> (rw [checkTempleFragmentValidLoop]; simp)

/-- C9: for every fragment list `[keyword, a, op, b]` in which `op` is a
comparison operator and `a`, `b` are operands of different declared types
among bool, int, string, time and other, `checkTempleFragmentValid` returns
an error. -/
theorem check_mismatch (kw a op b : fragment) (hop : op.Typ = .EXPRESSION)
    (ha : a.Typ.isDeclaredType = true) (hb : b.Typ.isDeclaredType = true)
    (hne : a.Typ ≠ b.Typ) :
    (checkTempleFragmentValid [kw, a, op, b]).isSome = true := by
  rw [check_four]
  cases hat : a.Typ <;> simp [hat, Status.isDeclaredType] at ha hne ⊢
  · rw [checkTempleFragmentValidLoop]; simp [hop]
  all_goals
    cases hbt : b.Typ <;> simp [hbt, Status.isDeclaredType] at hb hne ⊢ <;>
      simp [isExpressionValid, hop, hat, hbt]

/-- Witness of C9: an `int` operand compared with a `string` operand. -/
theorem check_mismatch_witness :
    (fragment.mk .EXPRESSION "==" false).Typ = .EXPRESSION ∧
    (fragment.mk .INT "A" false).Typ.isDeclaredType = true ∧
    (fragment.mk .STRING "B" false).Typ.isDeclaredType = true ∧
    (fragment.mk .INT "A" false).Typ ≠ (fragment.mk .STRING "B" false).Typ ∧
    (checkTempleFragmentValid [⟨.IF, "if", false⟩, ⟨.INT, "A", false⟩, ⟨.EXPRESSION, "==", false⟩,
      ⟨.STRING, "B", false⟩]).isSome = true :=
  ⟨rfl, rfl, rfl, by decide,
    check_mismatch ⟨.IF, "if", false⟩ ⟨.INT, "A", false⟩ ⟨.EXPRESSION, "==", false⟩
      ⟨.STRING, "B", false⟩ rfl rfl rfl (by decide)⟩

/-- C10, counterexample: on `if x == y` with two bool operands the validator
passes over `x` and rejects the operator `==` as an unknown fragment. -/
theorem check_same_bool_fails :
    checkTempleFragmentValid [⟨.IF, "if", false⟩, ⟨.BOOL, "x", false⟩,
      ⟨.EXPRESSION, "==", false⟩, ⟨.BOOL, "y", false⟩] = some "unknow fragment ： == " := by
  rw [check_four]
  simp only
  rw [checkTempleFragmentValidLoop]
  simp

/-- C10, amended: for every fragment list `[keyword, a, op, b]` in which `op`
is a comparison operator and `a`, `b` are operands of the same declared type,
`checkTempleFragmentValid` returns no error when that type is int, string,
time or other, and returns the unknown-fragment error for `op` when it is
bool. -/
theorem check_same_type (kw a op b : fragment) (hop : op.Typ = .EXPRESSION)
    (ha : a.Typ.isDeclaredType = true) (hb : b.Typ = a.Typ) :
    (a.Typ ≠ .BOOL → checkTempleFragmentValid [kw, a, op, b] = none) ∧
    (a.Typ = .BOOL →
      checkTempleFragmentValid [kw, a, op, b] =
        some ("unknow fragment ： " ++ op.Value ++ " ")) := by
  rw [check_four]
  cases hat : a.Typ <;> simp [hat, Status.isDeclaredType] at ha ⊢
  · rw [checkTempleFragmentValidLoop]; simp [hop]
  all_goals simp [isExpressionValid, hop, hat, hb]

/-- Witness of the amended C10: two `int` operands. -/
theorem check_same_type_witness :
    (fragment.mk .EXPRESSION "==" false).Typ = .EXPRESSION ∧
    (fragment.mk .INT "A" false).Typ.isDeclaredType = true ∧
    (fragment.mk .INT "B" false).Typ = (fragment.mk .INT "A" false).Typ ∧
    checkTempleFragmentValid [⟨.IF, "if", false⟩, ⟨.INT, "A", false⟩,
      ⟨.EXPRESSION, "==", false⟩, ⟨.INT, "B", false⟩] = none :=
  ⟨rfl, rfl, rfl,
    (check_same_type ⟨.IF, "if", false⟩ ⟨.INT, "A", false⟩ ⟨.EXPRESSION, "==", false⟩
      ⟨.INT, "B", false⟩ rfl rfl rfl).1 (by decide)⟩

/-! ### Claims about the classifier -/

theorem checkFragment_switch (s : String) (params : List Param)
    (h : digital (ToLower (Trim s " ")) ∈ switchWords) :
    ∃ k : Status, k ≠ .UNKNOWN ∧ checkFragment s params = (⟨k, Trim s " ", false⟩, none) := by
  unfold checkFragment
  dsimp only
  generalize digital (ToLower (Trim s " ")) = sw at h ⊢
  by_cases c1 : sw = "<integer>"
  · rw [if_pos c1]; exact ⟨_, by decide, rfl⟩
  rw [if_neg c1]
  by_cases c2 : sw = "&&" ∨ sw = "||"
  · rw [if_pos c2]; exact ⟨_, by decide, rfl⟩
  rw [if_neg c2]
  by_cases c3 : sw = ">" ∨ sw = "<" ∨ sw = ">=" ∨ sw = "<=" ∨ sw = "==" ∨ sw = "!="
  · rw [if_pos c3]; exact ⟨_, by decide, rfl⟩
  rw [if_neg c3]
  by_cases c4 : sw = "end"
  · rw [if_pos c4]; exact ⟨_, by decide, rfl⟩
  rw [if_neg c4]
  by_cases c5 : sw = "if"
  · rw [if_pos c5]; exact ⟨_, by decide, rfl⟩
  rw [if_neg c5]
  by_cases c6 : sw = "set"
  · rw [if_pos c6]; exact ⟨_, by decide, rfl⟩
  rw [if_neg c6]
  by_cases c7 : sw = "else"
  · rw [if_pos c7]; exact ⟨_, by decide, rfl⟩
  rw [if_neg c7]
  by_cases c8 : sw = "where"
  · rw [if_pos c8]; exact ⟨_, by decide, rfl⟩
  rw [if_neg c8]
  by_cases c9 : sw = "true" ∨ sw = "false"
  · rw [if_pos c9]; exact ⟨_, by decide, rfl⟩
  rw [if_neg c9]
  by_cases c10 : sw = "nil"
  · rw [if_pos c10]; exact ⟨_, by decide, rfl⟩
  exfalso
  simp only [switchWords, keywords, List.mem_cons, List.mem_singleton, List.mem_nil_iff,
    or_false] at h
  tauto

theorem checkFragment_default (s : String) (params : List Param)
    (h : digital (ToLower (Trim s " ")) ∉ switchWords) :
    checkFragment s params =
      if (fragment.fragmentByParams ⟨.UNKNOWN, Trim s " ", false⟩ params).Typ = .UNKNOWN then
        (fragment.fragmentByParams ⟨.UNKNOWN, Trim s " ", false⟩ params,
          some ("unknow parameter: " ++ s))
      else (fragment.fragmentByParams ⟨.UNKNOWN, Trim s " ", false⟩ params, none) := by
  unfold checkFragment
  dsimp only
  generalize digital (ToLower (Trim s " ")) = sw at h ⊢
  simp only [switchWords, keywords, List.mem_cons, List.mem_singleton, List.mem_nil_iff,
    or_false, not_or] at h
  obtain ⟨h1, h2, h3, h4, h5, h6, h7, h8, h9, h10, h11, h12, h13, h14, h15, h16, h17⟩ := h
  rw [if_neg h1, if_neg (by tauto), if_neg (by tauto), if_neg h10, if_neg h11, if_neg h12,
    if_neg h13, if_neg h14, if_neg (by tauto), if_neg h17]

/-- The parameter scan never produces the kinds that only keywords have: its
result has the kind it was entered with or one of bool, int, string, time
and other. -/
theorem fragmentByParams_Typ (params : List Param) (f : fragment) :
    (f.fragmentByParams params).Typ = f.Typ ∨
      (f.fragmentByParams params).Typ.isDeclaredType = true := by
  induction params generalizing f with
  | nil => left; rfl
  | cons param params ih =>
    rw [fragment.fragmentByParams]
    split
    · split
      · right; rfl
      · split
        · right; rfl
        · split
          · right; rfl
          · split
            · rcases ih { Typ := .TIME, Value := f.Value, IsArray := param.IsArray } with h | h
              · right; rw [h]; rfl
              · right; exact h
            · rcases ih { Typ := .OTHER, Value := f.Value, IsArray := param.IsArray } with h | h
              · right; rw [h]; rfl
              · right; exact h
    · exact ih f

/-- The parameter scan leaves a fragment of unknown kind unknown exactly when
no parameter has the fragment's text as its name. -/
theorem fragmentByParams_unknown_iff (params : List Param) (f : fragment)
    (hf : f.Typ = .UNKNOWN) :
    (f.fragmentByParams params).Typ = .UNKNOWN ↔ ∀ p ∈ params, p.Name ≠ f.Value := by
  induction params with
  | nil => simp [fragment.fragmentByParams, hf]
  | cons param params ih =>
    rw [fragment.fragmentByParams]
    by_cases hn : param.Name = f.Value
    · have hdecl : ∀ g : fragment, g.Typ.isDeclaredType = true →
          (g.fragmentByParams params).Typ ≠ .UNKNOWN := by
        intro g hg h
        rcases fragmentByParams_Typ params g with h1 | h1
        · rw [h1] at h; rw [h] at hg; exact absurd hg (by decide)
        · rw [h] at h1; exact absurd h1 (by decide)
      have hne : ¬ ∀ p ∈ param :: params, p.Name ≠ f.Value := fun h => h param (by simp) hn
      simp only [hn, if_true, hne, iff_false]
      split
      · simp
      · split
        · simp
        · split
          · simp
          · split
            · exact hdecl _ rfl
            · exact hdecl _ rfl
    · simp only [hn, if_false, ih, List.mem_cons, forall_eq_or_imp, ne_eq, not_false_eq_true,
        true_and]

theorem isDigit_toLowerChar (c : Char) : (toLowerChar c).isDigit = c.isDigit := by
  unfold toLowerChar
  have key : ∀ n : Nat, 65 ≤ n → n ≤ 90 → (Char.ofNat (n + 32)).isDigit = false := by
    intro n h1 h2
    interval_cases n <;> rfl
  have hd : c.isDigit = (decide (48 ≤ c.toNat) && decide (c.toNat ≤ 57)) := by
    rfl
  split
  · rename_i h
    obtain ⟨h1, h2⟩ := h
    have h1' : 65 ≤ c.toNat := h1
    have h2' : c.toNat ≤ 90 := h2
    rw [key _ h1' h2', hd]
    simp; omega
  · split
    · rename_i h
      have : c.toNat = 0x130 := by simp [Char.toNat, h]
      rw [hd, this]; rfl
    · split
      · rename_i h
        have : c.toNat = 0x212A := by simp [Char.toNat, h]
        rw [hd, this]; rfl
      · rfl

theorem isDigit_ToLower (s : String) : isDigit (ToLower s) = isDigit s := by
  simp [isDigit, ToLower, List.all_map, Function.comp_def, isDigit_toLowerChar]

/-- A fragment that `checkFragment` classifies as the nil literal carries no
array flag. -/
theorem checkFragment_nil_flag (s : String) (params : List Param)
    (h : (checkFragment s params).1.Typ = .NIL) : (checkFragment s params).1.IsArray = false := by
  by_cases hsw : digital (ToLower (Trim s " ")) ∈ switchWords
  · obtain ⟨k, -, heq⟩ := checkFragment_switch s params hsw
    rw [heq]
  · exfalso
    rw [checkFragment_default s params hsw] at h
    have hk : ¬ (fragment.fragmentByParams ⟨.UNKNOWN, Trim s " ", false⟩ params).Typ = .NIL := by
      intro h
      rcases fragmentByParams_Typ params ⟨.UNKNOWN, Trim s " ", false⟩ with h1 | h1
      · rw [h1] at h; exact Status.noConfusion h
      · rw [h] at h1; exact absurd h1 (by decide)
    split at h <;> exact hk h

/-- C11: for every 3-fragment window `[a, op, b]` with `op` a comparison
operator in which one of `a`, `b` is the nil literal, carrying no array flag,
`isExpressionValid` returns true if and only if the other operand is
array-typed; the classifier `checkFragment` gives a nil literal no array
flag. -/
theorem nil_comparison_valid_iff_array (a op b : fragment) (hop : op.Typ = .EXPRESSION) :
    (a.Typ = .NIL → a.IsArray = false →
      (isExpressionValid [a, op, b] = true ↔ b.IsArray = true)) ∧
    (b.Typ = .NIL → b.IsArray = false →
      (isExpressionValid [a, op, b] = true ↔ a.IsArray = true)) ∧
    (∀ (s : String) (params : List Param), (checkFragment s params).1.Typ = .NIL →
      (checkFragment s params).1.IsArray = false) := by
  refine ⟨?_, ?_, checkFragment_nil_flag⟩
  · intro ha hf
    simp [isExpressionValid, hop, ha, hf]
  · intro hb hf
    simp [isExpressionValid, hop, hb, hf]

/-- Witness of C11: the nil literal compared with an array parameter, and a
parameter that is no array compared with the nil literal. -/
theorem nil_comparison_valid_iff_array_witness :
    (fragment.mk .EXPRESSION "==" false).Typ = .EXPRESSION ∧
    isExpressionValid [⟨.NIL, "nil", false⟩, ⟨.EXPRESSION, "==", false⟩, ⟨.INT, "ids", true⟩]
      = true ∧
    isExpressionValid [⟨.INT, "id", false⟩, ⟨.EXPRESSION, "==", false⟩, ⟨.NIL, "nil", false⟩]
      ≠ true :=
  ⟨rfl,
    ((nil_comparison_valid_iff_array ⟨.NIL, "nil", false⟩ ⟨.EXPRESSION, "==", false⟩
      ⟨.INT, "ids", true⟩ rfl).1 rfl rfl).2 rfl,
    fun h => Bool.false_ne_true
      (((nil_comparison_valid_iff_array ⟨.INT, "id", false⟩ ⟨.EXPRESSION, "==", false⟩
        ⟨.NIL, "nil", false⟩ rfl).2.1 rfl rfl).1 h)⟩

/-- C17, counterexample: the token `<integer>` is not all digits, is none of
the keywords and names no parameter of the empty list, and `checkFragment`
returns it as a fragment of kind INT with no error. -/
theorem checkFragment_integer_mark :
    Trim "<integer>" " " ≠ "" ∧ isDigit (Trim "<integer>" " ") = false ∧
    ToLower (Trim "<integer>" " ") ∉ keywords ∧
    checkFragment "<integer>" [] = (⟨.INT, "<integer>", false⟩, none) := by
  decide!

/-- C17, amended: for every non-blank token whose trimmed lower-case text is
not the mark `<integer>` and every parameter list, `checkFragment` returns
the `unknow parameter` error if and only if the trimmed token is not all
digits, its lower-case text is none of the keywords and no declared
parameter has the trimmed token as its name; in every other case it returns
no error and a fragment of a known kind. -/
theorem checkFragment_unknown_iff (s : String) (params : List Param)
    (_hblank : Trim s " " ≠ "") (hmark : ToLower (Trim s " ") ≠ "<integer>") :
    ((checkFragment s params).2 = some ("unknow parameter: " ++ s) ↔
      (isDigit (Trim s " ") = false ∧ ToLower (Trim s " ") ∉ keywords ∧
        ∀ p ∈ params, p.Name ≠ Trim s " ")) ∧
    ((checkFragment s params).2 ≠ some ("unknow parameter: " ++ s) →
      (checkFragment s params).2 = none ∧ (checkFragment s params).1.Typ ≠ .UNKNOWN) := by
  by_cases hsw : digital (ToLower (Trim s " ")) ∈ switchWords
  · obtain ⟨k, hk, heq⟩ := checkFragment_switch s params hsw
    rw [heq]
    refine ⟨?_, fun _ => ⟨rfl, hk⟩⟩
    simp only [reduceCtorEq, false_iff, not_and]
    intro hd hkw
    exfalso
    rw [digital, isDigit_ToLower, hd] at hsw
    simp only [Bool.false_eq_true, if_false, switchWords, List.mem_cons] at hsw
    rcases hsw with h | h
    · exact hmark h
    · exact hkw h
  · rw [checkFragment_default s params hsw]
    have hd : isDigit (Trim s " ") = false := by
      cases hdig : isDigit (Trim s " ")
      · rfl
      · exfalso; apply hsw
        rw [digital, isDigit_ToLower, hdig]
        simp [switchWords]
    have hkw : ToLower (Trim s " ") ∉ keywords := by
      intro h; apply hsw
      rw [digital, isDigit_ToLower, hd]
      simp [switchWords, h]
    have hiff := fragmentByParams_unknown_iff params ⟨.UNKNOWN, Trim s " ", false⟩ rfl
    split
    · rename_i hu
      exact ⟨⟨fun _ => ⟨hd, hkw, hiff.1 hu⟩, fun _ => rfl⟩, fun h => absurd rfl h⟩
    · rename_i hu
      refine ⟨⟨fun h => by simp at h, fun h => absurd (hiff.2 h.2.2) hu⟩, fun _ => ⟨rfl, hu⟩⟩

/-- Witness of the amended C17: an undeclared name, and the same name once
it is declared. -/
theorem checkFragment_unknown_iff_witness :
    Trim " id " " " ≠ "" ∧ ToLower (Trim " id " " ") ≠ "<integer>" ∧
    (checkFragment " id " [⟨"name", "string", false⟩]).2 = some ("unknow parameter: " ++ " id ") ∧
    (checkFragment " id " [⟨"id", "int", false⟩]).1.Typ ≠ .UNKNOWN :=
  ⟨by decide, by decide,
    (checkFragment_unknown_iff " id " [⟨"name", "string", false⟩] (by decide) (by decide)).1.2
      (by decide),
    ((checkFragment_unknown_iff " id " [⟨"id", "int", false⟩] (by decide) (by decide)).2
      (by decide)).2⟩

/-! ### Claims about the statement grouper -/

theorem Join_singleton (x sep : String) : Join [x] sep = x := rfl

/-- C18, counterexample: on the run `[else, x]` the grouper returns the
syntax error and a statement of no kind, not a plain ELSE statement. -/
theorem fragmentToSLice_else_other :
    fragmentToSLice [⟨.ELSE, "else", false⟩, ⟨.INT, "x", false⟩] =
      (⟨.UNKNOWN, "", "else x"⟩, some "syntax error:else x") := by
  decide!

/-- C18, amended: for every fragment run whose first fragment is the keyword
else, `fragmentToSLice` returns a plain ELSE statement without error when the
run is that keyword alone, returns an ELSEIF statement without error, its
condition the values after the second fragment joined by single spaces, when
the second fragment is the keyword if and at least one more fragment
follows, and returns the syntax error in every other case. -/
theorem fragmentToSLice_else (e : fragment) (he : ToLower e.Value = "else") :
    fragmentToSLice [e] = (⟨.ELSE, "", e.Value⟩, none) ∧
    (∀ (f2 f3 : fragment) (more : List fragment), ToLower f2.Value = "if" →
      fragmentToSLice (e :: f2 :: f3 :: more) =
        (⟨.ELSEIF, Join ((f3 :: more).map (fun t => t.Value)) " ",
          Join ((e :: f2 :: f3 :: more).map (fun t => t.Value)) " "⟩, none)) ∧
    (∀ (f2 : fragment) (more : List fragment), ToLower f2.Value ≠ "if" ∨ more = [] →
      fragmentToSLice (e :: f2 :: more) =
        (⟨.UNKNOWN, "", Join ((e :: f2 :: more).map (fun t => t.Value)) " "⟩,
          some ("syntax error:" ++ Join ((e :: f2 :: more).map (fun t => t.Value)) " "))) := by
  have hne : ¬ ("else" = "if") := by decide
  refine ⟨?_, ?_, ?_⟩
  · simp [fragmentToSLice, he, hne, Join_singleton]
  · intro f2 f3 more h2
    simp [fragmentToSLice, he, hne, h2]
  · intro f2 more h
    rcases h with h | h
    · simp [fragmentToSLice, he, hne, h]
    · subst h
      simp [fragmentToSLice, he, hne]

/-- Witness of the amended C18: the run `[else, if, ok]`. -/
theorem fragmentToSLice_else_witness :
    ToLower (fragment.mk .ELSE "else" false).Value = "else" ∧
    fragmentToSLice [⟨.ELSE, "else", false⟩, ⟨.IF, "if", false⟩, ⟨.BOOL, "ok", false⟩] =
      (⟨.ELSEIF, "ok", "else if ok"⟩, none) :=
  ⟨by decide,
    (fragmentToSLice_else ⟨.ELSE, "else", false⟩ (by decide)).2.1 ⟨.IF, "if", false⟩
      ⟨.BOOL, "ok", false⟩ [] (by decide)⟩

/-- C19, counterexample: on the run `[if]`, the keyword alone, the grouper
returns the syntax error and a statement of no kind. -/
theorem fragmentToSLice_if_alone :
    fragmentToSLice [⟨.IF, "if", false⟩] = (⟨.UNKNOWN, "", "if"⟩, some "syntax error:if") := by
  decide!

/-- C19, amended: for every fragment run `[if, f1, ..., fn]` with `n ≥ 1`
whose first fragment is the keyword if, `fragmentToSLice` returns without
error a statement of kind IF whose condition text is the values of
`f1..fn` joined by single spaces and whose origin text is the values of all
fragments joined by single spaces; on the keyword alone it returns the
syntax error. -/
theorem fragmentToSLice_if (i : fragment) (hi : ToLower i.Value = "if") :
    (∀ (f1 : fragment) (fs : List fragment),
      fragmentToSLice (i :: f1 :: fs) =
        (⟨.IF, Join ((f1 :: fs).map (fun t => t.Value)) " ",
          Join ((i :: f1 :: fs).map (fun t => t.Value)) " "⟩, none)) ∧
    fragmentToSLice [i] = (⟨.UNKNOWN, "", i.Value⟩, some ("syntax error:" ++ i.Value)) := by
  refine ⟨?_, ?_⟩
  · intro f1 fs
    simp [fragmentToSLice, hi]
  · simp [fragmentToSLice, hi, Join_singleton]

/-- Witness of the amended C19: the run `[if, a, ==, b]`. -/
theorem fragmentToSLice_if_witness :
    ToLower (fragment.mk .IF "if" false).Value = "if" ∧
    fragmentToSLice [⟨.IF, "if", false⟩, ⟨.INT, "a", false⟩, ⟨.EXPRESSION, "==", false⟩,
      ⟨.INT, "b", false⟩] = (⟨.IF, "a == b", "if a == b"⟩, none) :=
  ⟨by decide,
    (fragmentToSLice_if ⟨.IF, "if", false⟩ (by decide)).1 ⟨.INT, "a", false⟩
      [⟨.EXPRESSION, "==", false⟩, ⟨.INT, "b", false⟩]⟩

/-! ### Claims about the serialiser of a literal clause -/

/-- Replacement is the identity on a text in which the first character of the
pattern does not occur. -/
theorem replaceAllAux_of_not_mem (c0 : Char) (tl new : List Char) :
    ∀ l : List Char, c0 ∉ l → replaceAllAux (c0 :: tl) new 0 l = l := by
  intro l
  induction l with
  | nil => intro _; rfl
  | cons c rest ih =>
    intro h
    simp only [List.mem_cons, not_or] at h
    have hc : (c0 == c) = false := by simpa using h.1
    rw [replaceAllAux]
    simp only [List.isPrefixOf, hc, Bool.false_and, Bool.false_eq_true, if_false, ih h.2]

theorem intercalate_go_not_mem (c : Char) (sep : String) (hsep : c ∉ sep.data) :
    ∀ (ps : List String) (acc : String), c ∉ acc.data → (∀ p ∈ ps, c ∉ p.data) →
      c ∉ (String.intercalate.go acc sep ps).data := by
  intro ps
  induction ps with
  | nil => intro acc hacc _; simpa [String.intercalate.go] using hacc
  | cons p ps ih =>
    intro acc hacc hps
    rw [String.intercalate.go]
    apply ih
    · simp only [String.data_append, List.mem_append, not_or]
      exact ⟨⟨hacc, hsep⟩, hps p (by simp)⟩
    · exact fun q hq => hps q (by simp [hq])

theorem Join_not_mem (c : Char) (sep : String) (hsep : c ∉ sep.data) (ps : List String)
    (hps : ∀ p ∈ ps, c ∉ p.data) : c ∉ (Join ps sep).data := by
  cases ps with
  | nil => simp [Join, String.intercalate]
  | cons p ps =>
    rw [Join, String.intercalate]
    exact intercalate_go_not_mem c sep hsep ps p (hps p (by simp)) (fun q hq => hps q (by simp [hq]))

/-- C12, counterexample: the pieces `a` and `b` are returned as `a+b`, with
the separator between them, not as their concatenation `ab`. -/
theorem SQLClause_String_two_pieces :
    (SQLClause.mk ⟨"", .SQL⟩ ["a", "b"]).String = "a+b" ∧
    (SQLClause.mk ⟨"", .SQL⟩ ["a", "b"]).String ≠ "a" ++ "b" := by
  decide!

/-- C12, amended: for every literal clause none of whose text pieces contains
a double quote, `String()` returns the pieces in their order with a `+`
between consecutive pieces; a clause with one such piece returns it
unchanged. -/
theorem SQLClause_String_join (s : SQLClause) (h : ∀ p ∈ s.Value, '"' ∉ p.data) :
    s.String = Join s.Value "+" ∧ (∀ p, s.Value = [p] → s.String = p) := by
  have key : s.String = Join s.Value "+" := by
    have hj := Join_not_mem '"' "+" (by decide) s.Value h
    simp only [SQLClause.String, ReplaceAll]
    rw [replaceAllAux_of_not_mem _ _ _ _ hj]
  refine ⟨key, ?_⟩
  intro p hp
  rw [key, hp]
  rfl

/-- Witness of the amended C12: three pieces without a double quote. -/
theorem SQLClause_String_join_witness :
    (∀ p ∈ (SQLClause.mk ⟨"", .SQL⟩ ["a", "b", "c"]).Value, '"' ∉ p.data) ∧
    (SQLClause.mk ⟨"", .SQL⟩ ["a", "b", "c"]).String = "a+b+c" :=
  ⟨by decide, (SQLClause_String_join (SQLClause.mk ⟨"", .SQL⟩ ["a", "b", "c"]) (by decide)).1⟩

/-! ### The assembly statements of a one-branch block -/

theorem Slices.parseIFLoop_end (xs : List slice) (n f : Nat) (e : slice) (res : IfClause)
    (cond : List String) (t : List String) (nm : NameCounters)
    (he : e.Typ = .END) (h1 : xs[n + 1]? = some e) (hlen : xs.length = n + 2) :
    Slices.parseIFLoop (f + 1) res cond (Slices.mkNat xs t n nm) =
      .ok res (Slices.mkNat xs t (n + 1) nm) := by
  rw [Slices.parseIFLoop]
  simp [he, h1, hlen]

/-- C20: for every condition text `c` and every literal statement with text
`t`, `parse` of `[IF c, literal t, END]` from a fresh state returns and
leaves the assembly statement list exactly the empty text, the line that
initialises `ifCond0`, the line that appends the pair of `c` and the
`String()` text of the literal clause built from `t`, and the line that adds
the if-clause to `generateSQL`. -/
theorem parse_if_literal_tmpl (i l e : slice) (hi : i.Typ = .IF)
    (hl : l.Typ.isLiteral = true) (he : e.Typ = .END) :
    ∃ cs s, (NewSlices [i, l, e]).parse = .ok cs s ∧
      s.tmpl = ["", "ifCond0 := make([]helper.Cond, 0, 100)",
        "ifCond0 = append(ifCond0, helper.Cond\x7b" ++ i.Value ++ ", " ++
          (SQLClause.mk ⟨"ifCond0", .SQL⟩ [l.Value]).String ++ "\x7d)",
        "generateSQL+=helper.IfClause(ifCond0)"] := by
  have hz : ∀ z, [i, l, e][1 + 1]? = some z → z.Typ.isLiteral = false := by
    intro z hz
    simp at hz
    subst hz
    simp [he, Status.isLiteral]
  have hsql := fun t nm => Slices.parseSQL_single [i, l, e] 1 l 5 "ifCond0" t nm (by simp) hl hz
    (by omega)
  have hnull : (Slices.mkNat [i, l, e] [] 0 ⟨0, 0, 0⟩).IsNull = false := by
    simp [Slices.IsNull, Slices.mkNat]
  have hfuel : (NewSlices [i, l, e]).fuelFor = 4 + 4 := by
    simp [Slices.fuelFor, NewSlices]
  rw [Slices.parse, hfuel, Slices.parseFuel, NewSlices_eq]
  simp only [hnull, Slices.Current_mkNat, List.getElem?_cons_zero, Bool.false_eq_true, if_false]
  rw [Slices.parseLoop]
  simp only [Slices.emit_mkNat, List.nil_append, hi]
  rw [Slices.parseIF]
  simp only [Slices.Current_mkNat, List.getElem?_cons_zero, hi, Slices.GetName_IF_mkNat,
    Slices.CreateIf_mkNat, ifCond_zero]
  rw [Slices.parseIFLoop]
  have hlen : 0 + 1 < [i, l, e].length := by simp
  simp only [Slices.HasMore_mkNat, hlen, decide_True, if_true, Slices.Next_mkNat,
    List.getElem?_cons_succ, List.getElem?_cons_zero, Option.map_some']
  have hend := fun res cond t nm => Slices.parseIFLoop_end [i, l, e] 1 4 e res cond t nm he
    (by simp) (by simp)
  have hfin : ¬ (1 + 1 + 1 < [i, l, e].length) := by simp
  cases hlt : l.Typ <;> simp [hlt, Status.isLiteral] at hl <;>
    simp only [hsql, SQLClause.toClause, List.nil_append, Slices.appendIfCond_mkNat, hend,
      IfClause.toClause, Slices.emit_mkNat, Slices.HasMore_mkNat, hfin, decide_False,
      Bool.not_false, if_true] <;>
    refine ⟨_, _, rfl, ?_⟩ <;> simp [Slices.mkNat]

/-- Witness of C20: the block `if a > 0`, one SQL text, `end`. -/
theorem parse_if_literal_tmpl_witness :
    (slice.mk .IF "a > 0" "if a > 0").Typ = .IF ∧
    (slice.mk .SQL "\"select 1\"" "\"select 1\"").Typ.isLiteral = true ∧
    (slice.mk .END "" "end").Typ = .END ∧
    ∃ cs s, (NewSlices [⟨.IF, "a > 0", "if a > 0"⟩, ⟨.SQL, "\"select 1\"", "\"select 1\""⟩,
        ⟨.END, "", "end"⟩]).parse = .ok cs s ∧
      s.tmpl = ["", "ifCond0 := make([]helper.Cond, 0, 100)",
        "ifCond0 = append(ifCond0, helper.Cond\x7b" ++ "a > 0" ++ ", " ++
          (SQLClause.mk ⟨"ifCond0", .SQL⟩ ["\"select 1\""]).String ++ "\x7d)",
        "generateSQL+=helper.IfClause(ifCond0)"] :=
  ⟨rfl, rfl, rfl,
    parse_if_literal_tmpl ⟨.IF, "a > 0", "if a > 0"⟩ ⟨.SQL, "\"select 1\"", "\"select 1\""⟩
      ⟨.END, "", "end"⟩ rfl rfl rfl⟩

/-! ### Claims about the lexer -/

theorem splitTemplateLoop_default (tmpl : String) (params : List Param) (c : Char)
    (rest buf : List Char) (fragList : List fragment) (hc : isDefaultChar c = true) :
    splitTemplateLoop tmpl params (c :: rest) buf fragList =
      splitTemplateLoop tmpl params rest (buf ++ [c]) fragList := by
  simp only [isDefaultChar, Bool.not_eq_true', Bool.or_eq_false_iff, decide_eq_false_iff_not] at hc
  obtain ⟨⟨⟨⟨⟨⟨⟨h1, h2⟩, h3⟩, h4⟩, h5⟩, h6⟩, h7⟩, h8⟩ := hc
  cases rest with
  | nil => rw [splitTemplateLoop.eq_2, if_neg h1, if_neg h2, if_neg (by tauto), if_neg (by tauto)]; try rfl
  | cons d rest2 => rw [splitTemplateLoop.eq_3, if_neg h1, if_neg h2, if_neg (by tauto), if_neg (by tauto)]; try rfl

theorem splitTemplateLoop_run (tmpl : String) (params : List Param) (w : List Char)
    (hw : ∀ c ∈ w, isDefaultChar c = true) :
    ∀ (rest buf : List Char) (fragList : List fragment),
      splitTemplateLoop tmpl params (w ++ rest) buf fragList =
        splitTemplateLoop tmpl params rest (buf ++ w) fragList := by
  induction w with
  | nil => intro rest buf fragList; simp
  | cons c w ih =>
    intro rest buf fragList
    rw [List.cons_append, splitTemplateLoop_default tmpl params c _ _ _ (hw c (by simp)),
      ih (fun d hd => hw d (by simp [hd]))]
    simp

theorem splitTemplateLoop_space (tmpl : String) (params : List Param)
    (rest buf : List Char) (fragList : List fragment) :
    splitTemplateLoop tmpl params (' ' :: rest) buf fragList =
      match flushBuf params buf fragList with
      | .error err => .error err
      | .ok fragList => splitTemplateLoop tmpl params rest [] fragList := by
  cases rest with
  | nil => rw [splitTemplateLoop.eq_2, if_neg (by decide), if_pos rfl]; try rfl
  | cons d rest2 => rw [splitTemplateLoop.eq_3, if_neg (by decide), if_pos rfl]; try rfl

theorem splitTemplateLoop_quote (tmpl : String) (params : List Param)
    (rest buf : List Char) (fragList : List fragment) :
    splitTemplateLoop tmpl params ('"' :: rest) buf fragList =
      splitTemplateQuote tmpl params '"' rest (buf ++ ['"']) fragList := by
  cases rest with
  | nil => rw [splitTemplateLoop.eq_2, if_pos rfl]; try rfl
  | cons d rest2 => rw [splitTemplateLoop.eq_3, if_pos rfl]; try rfl

theorem splitTemplateLoop_operator (tmpl : String) (params : List Param) (c : Char)
    (rest buf : List Char) (fragList : List fragment)
    (hc : c = '>' ∨ c = '<' ∨ c = '=' ∨ c = '!') :
    splitTemplateLoop tmpl params (c :: rest) buf fragList =
      match flushBuf params buf fragList with
      | .error err => .error err
      | .ok fragList =>
        match rest with
        | [] => .error ("incomplete code:" ++ tmpl)
        | d :: rest2 =>
          if d = '=' then
            match checkFragment (String.mk [c, d]) params with
            | (_, some err) => .error err
            | (f, none) => splitTemplateLoop tmpl params rest2 [] (fragList ++ [f])
          else
            match checkFragment (String.mk [c]) params with
            | (_, some err) => .error err
            | (f, none) => splitTemplateLoop tmpl params (d :: rest2) [] (fragList ++ [f]) := by
  have h1 : ¬ c = '"' := by rcases hc with h | h | h | h <;> rw [h] <;> decide
  have h2 : ¬ c = ' ' := by rcases hc with h | h | h | h <;> rw [h] <;> decide
  cases rest with
  | nil => rw [splitTemplateLoop.eq_2, if_neg h1, if_neg h2, if_pos hc]; try rfl
  | cons d rest2 => rw [splitTemplateLoop.eq_3, if_neg h1, if_neg h2, if_pos hc]; try rfl

theorem splitTemplateLoop_single (tmpl : String) (params : List Param) (c : Char)
    (rest buf : List Char) (fragList : List fragment)
    (hc : c = '&' ∨ c = '|') :
    splitTemplateLoop tmpl params (c :: rest) buf fragList =
      match rest with
      | [] => .error ("incomplete code:" ++ tmpl)
      | d :: rest2 =>
        if d = c then
          match flushBuf params buf fragList with
          | .error err => .error err
          | .ok fragList =>
            splitTemplateLoop tmpl params rest2 []
              (fragList ++ [{ Typ := .LOGICAL, Value := String.mk [c, d], IsArray := false }])
        else splitTemplateLoop tmpl params (d :: rest2) buf fragList := by
  have h1 : ¬ c = '"' := by rcases hc with h | h <;> rw [h] <;> decide
  have h2 : ¬ c = ' ' := by rcases hc with h | h <;> rw [h] <;> decide
  have h3 : ¬ (c = '>' ∨ c = '<' ∨ c = '=' ∨ c = '!') := by
    rcases hc with h | h <;> rw [h] <;> decide
  cases rest with
  | nil => rw [splitTemplateLoop.eq_2, if_neg h1, if_neg h2, if_neg h3, if_pos hc]; try rfl
  | cons d rest2 => rw [splitTemplateLoop.eq_3, if_neg h1, if_neg h2, if_neg h3, if_pos hc]; try rfl

theorem splitTemplateQuote_unclosed (tmpl : String) (params : List Param) :
    ∀ (rest : List Char) (prev : Char) (buf : List Char) (fragList : List fragment),
      '"' ∉ rest →
      splitTemplateQuote tmpl params prev rest buf fragList =
        .error ("incomplete code:" ++ tmpl) := by
  intro rest
  induction rest with
  | nil => intro prev buf fragList _; rw [splitTemplateQuote]
  | cons c rest ih =>
    intro prev buf fragList h
    simp only [List.mem_cons, not_or] at h
    have hc : ¬ (c = '"' ∧ prev ≠ '\\') := fun hh => h.1 hh.1.symm
    rw [splitTemplateQuote, if_neg hc]
    exact ih c _ _ h.2

theorem splitTemplateLoop_one_quote (tmpl : String) (params : List Param) :
    ∀ (n : Nat) (rest : List Char), rest.length ≤ n → rest.count '"' = 1 →
      ∀ (buf : List Char) (fragList : List fragment),
        ∃ err, splitTemplateLoop tmpl params rest buf fragList = .error err := by
  intro n
  induction n with
  | zero =>
    intro rest hlen hq
    have : rest = [] := List.length_eq_zero.mp (by omega)
    subst this
    simp at hq
  | succ n ih =>
    intro rest hlen hq buf fragList
    cases rest with
    | nil => simp at hq
    | cons c rest =>
      simp only [List.length_cons] at hlen
      by_cases h1 : c = '"'
      · subst h1
        rw [List.count_cons_self] at hq
        have hno : '"' ∉ rest := by
          intro hm
          have := List.count_pos_iff.mpr hm
          omega
        rw [splitTemplateLoop_quote, splitTemplateQuote_unclosed tmpl params rest _ _ _ hno]
        exact ⟨_, rfl⟩
      rw [List.count_cons_of_ne (Ne.symm h1)] at hq
      by_cases h2 : c = ' '
      · subst h2
        rw [splitTemplateLoop_space]
        cases hfl : flushBuf params buf fragList with
        | error e => exact ⟨_, rfl⟩
        | ok fl => exact ih rest (by omega) hq [] fl
      by_cases h3 : c = '>' ∨ c = '<' ∨ c = '=' ∨ c = '!'
      · rw [splitTemplateLoop_operator tmpl params c rest buf fragList h3]
        cases hfl : flushBuf params buf fragList with
        | error e => exact ⟨_, rfl⟩
        | ok fl =>
          cases rest with
          | nil => exact ⟨_, rfl⟩
          | cons d rest2 =>
            simp only [List.length_cons] at hlen
            by_cases hd : d = '='
            · subst hd
              rw [List.count_cons_of_ne (by decide)] at hq
              simp only [if_true]
              rcases hcf : checkFragment (String.mk [c, '=']) params with ⟨f, _ | e⟩
              · exact ih rest2 (by omega) hq [] _
              · exact ⟨_, rfl⟩
            · simp only [hd, if_false]
              rcases hcf : checkFragment (String.mk [c]) params with ⟨f, _ | e⟩
              · exact ih (d :: rest2) (by simp; omega) hq [] _
              · exact ⟨_, rfl⟩
      by_cases h4 : c = '&' ∨ c = '|'
      · rw [splitTemplateLoop_single tmpl params c rest buf fragList h4]
        cases rest with
        | nil => exact ⟨_, rfl⟩
        | cons d rest2 =>
          simp only [List.length_cons] at hlen
          by_cases hd : d = c
          · subst hd
            rw [List.count_cons_of_ne (Ne.symm h1)] at hq
            simp only [if_true]
            cases hfl : flushBuf params buf fragList with
            | error e => exact ⟨_, rfl⟩
            | ok fl => exact ih rest2 (by omega) hq [] _
          · simp only [hd, if_false]
            exact ih (d :: rest2) (by simp; omega) hq buf fragList
      have hdef : isDefaultChar c = true := by
        simp only [isDefaultChar, Bool.not_eq_true', Bool.or_eq_false_iff,
          decide_eq_false_iff_not]
        tauto
      rw [splitTemplateLoop_default tmpl params c rest buf fragList hdef]
      exact ih rest (by omega) hq _ _

/-- C13: for every template that contains exactly one double-quote
character, `splitTemplate` returns an error, and with it no fragment list. -/
theorem splitTemplate_one_quote (tmpl : String) (params : List Param)
    (h : tmpl.data.count '"' = 1) :
    ∃ err, splitTemplate tmpl params = .error err :=
  splitTemplateLoop_one_quote tmpl params tmpl.data.length tmpl.data (Nat.le_refl _) h [] []

/-- Witness of C13: a template whose string literal is opened and never
closed. -/
theorem splitTemplate_one_quote_witness :
    ("id == \"abc".data.count '"' = 1) ∧
    ∃ err, splitTemplate "id == \"abc" [⟨"id", "string", false⟩] = .error err :=
  ⟨by decide, splitTemplate_one_quote "id == \"abc" [⟨"id", "string", false⟩] (by decide)⟩

theorem flushBuf_nil (params : List Param) (fragList : List fragment) :
    flushBuf params [] fragList = .ok fragList := rfl

theorem flushBuf_token (params : List Param) (buf : List Char) (fragList : List fragment)
    (h : buf ≠ []) :
    flushBuf params buf fragList =
      match checkFragment (String.mk buf) params with
      | (_, some err) => .error err
      | (f, none) => .ok (fragList ++ [f]) := by
  rw [flushBuf, if_neg h]

theorem splitTemplateLoop_token (tmpl : String) (params : List Param) (w : List Char)
    (hw : ∀ c ∈ w, isDefaultChar c = true) (fragList : List fragment) :
    splitTemplateLoop tmpl params w [] fragList = flushBuf params w fragList := by
  have h := splitTemplateLoop_run tmpl params w hw [] [] fragList
  rw [List.append_nil, List.nil_append] at h
  rw [h, splitTemplateLoop]

theorem isDefaultChar_of_isAlphanum (c : Char) (h : c.isAlphanum = true) :
    isDefaultChar c = true := by
  simp only [isDefaultChar, Bool.not_eq_true', Bool.or_eq_false_iff, decide_eq_false_iff_not]
  refine ⟨⟨⟨⟨⟨⟨⟨?_, ?_⟩, ?_⟩, ?_⟩, ?_⟩, ?_⟩, ?_⟩, ?_⟩ <;>
    (intro hc; rw [hc] at h; exact absurd h (by decide))

theorem checkFragment_operator (op : String) (params : List Param)
    (hop : op ∈ [">", "<", ">=", "<=", "==", "!="]) :
    checkFragment op params = (⟨.EXPRESSION, op, false⟩, none) := by
  simp only [List.mem_cons, List.mem_singleton, List.mem_nil_iff, or_false] at hop
  rcases hop with h | h | h | h | h | h <;> subst h <;> rfl

theorem splitTemplateLoop_comparison (tmpl : String) (params : List Param)
    (A B : List Char) (op : String) (hA : A ≠ []) (hB : B ≠ [])
    (hAd : ∀ c ∈ A, isDefaultChar c = true) (hBd : ∀ c ∈ B, isDefaultChar c = true)
    (hop : op ∈ [">", "<", ">=", "<=", "==", "!="]) :
    (splitTemplateLoop tmpl params (A ++ (op.data ++ B)) [] [] =
      match checkFragment (String.mk A) params with
      | (_, some err) => .error err
      | (fa, none) =>
        match checkFragment (String.mk B) params with
        | (_, some err) => .error err
        | (fb, none) => .ok [fa, ⟨.EXPRESSION, op, false⟩, fb]) ∧
    (splitTemplateLoop tmpl params (A ++ (' ' :: (op.data ++ (' ' :: B)))) [] [] =
      match checkFragment (String.mk A) params with
      | (_, some err) => .error err
      | (fa, none) =>
        match checkFragment (String.mk B) params with
        | (_, some err) => .error err
        | (fb, none) => .ok [fa, ⟨.EXPRESSION, op, false⟩, fb]) := by
  have hopf := checkFragment_operator op params hop
  obtain ⟨b0, B', rfl⟩ : ∃ b0 B', B = b0 :: B' := by
    cases B with
    | nil => exact absurd rfl hB
    | cons b0 B' => exact ⟨b0, B', rfl⟩
  have hb0 : ¬ b0 = '=' := by
    intro h
    have := hBd b0 (by simp)
    rw [h] at this
    exact absurd this (by decide)
  have htail := fun fl => splitTemplateLoop_token tmpl params (b0 :: B') hBd fl
  obtain ⟨c, hc, hcase⟩ : ∃ c : Char, (c = '>' ∨ c = '<' ∨ c = '=' ∨ c = '!') ∧
      (op.data = [c] ∨ op.data = [c, '=']) := by
    simp only [List.mem_cons, List.mem_singleton, List.mem_nil_iff, or_false] at hop
    rcases hop with h | h | h | h | h | h <;> subst h
    · exact ⟨'>', by decide, Or.inl rfl⟩
    · exact ⟨'<', by decide, Or.inl rfl⟩
    · exact ⟨'>', by decide, Or.inr rfl⟩
    · exact ⟨'<', by decide, Or.inr rfl⟩
    · exact ⟨'=', by decide, Or.inr rfl⟩
    · exact ⟨'!', by decide, Or.inr rfl⟩
  have hmk : String.mk op.data = op := rfl
  have hsp : ¬ (' ' = '=') := by decide
  constructor
  · rw [splitTemplateLoop_run tmpl params A hAd, List.nil_append]
    rcases hcase with h | h
    · rw [h, List.singleton_append, splitTemplateLoop_operator tmpl params c _ _ _ hc,
        flushBuf_token params A [] hA, ← h, hmk, hopf]
      rcases hca : checkFragment (String.mk A) params with ⟨fa, _ | ea⟩
      · simp only [hb0, if_false, htail, flushBuf_token params (b0 :: B') _ hB]
        rcases hcb : checkFragment (String.mk (b0 :: B')) params with ⟨fb, _ | eb⟩
        · simp
        · simp
      · simp
    · rw [h, List.cons_append, List.singleton_append,
        splitTemplateLoop_operator tmpl params c _ _ _ hc,
        flushBuf_token params A [] hA]
      simp only [if_true]
      rw [← h, hmk, hopf]
      rcases hca : checkFragment (String.mk A) params with ⟨fa, _ | ea⟩
      · simp only [if_true, htail, flushBuf_token params (b0 :: B') _ hB]
        rcases hcb : checkFragment (String.mk (b0 :: B')) params with ⟨fb, _ | eb⟩
        · simp
        · simp
      · simp
  · rw [splitTemplateLoop_run tmpl params A hAd, List.nil_append, splitTemplateLoop_space,
      flushBuf_token params A [] hA]
    rcases hca : checkFragment (String.mk A) params with ⟨fa, _ | ea⟩
    swap
    · simp
    simp only [List.nil_append]
    rcases hcase with h | h
    · rw [h, List.singleton_append, splitTemplateLoop_operator tmpl params c _ _ _ hc,
        flushBuf_nil, ← h, hmk, hopf]
      simp only [hsp, if_false, splitTemplateLoop_space, flushBuf_nil, htail,
        flushBuf_token params (b0 :: B') _ hB]
      rcases hcb : checkFragment (String.mk (b0 :: B')) params with ⟨fb, _ | eb⟩
      · simp
      · simp
    · rw [h, List.cons_append, List.singleton_append,
        splitTemplateLoop_operator tmpl params c _ _ _ hc, flushBuf_nil]
      simp only [if_true]
      rw [← h, hmk, hopf]
      simp only [if_true, splitTemplateLoop_space, flushBuf_nil, htail,
        flushBuf_token params (b0 :: B') _ hB]
      rcases hcb : checkFragment (String.mk (b0 :: B')) params with ⟨fb, _ | eb⟩
      · simp
      · simp

theorem splitTemplateQuote_span (tmpl : String) (params : List Param) :
    ∀ (body : List Char) (prev : Char) (rest buf : List Char) (fragList : List fragment),
      (∀ c ∈ body, c ≠ '"' ∧ c ≠ '\\') → prev ≠ '\\' →
      splitTemplateQuote tmpl params prev (body ++ '"' :: rest) buf fragList =
        splitTemplateLoop tmpl params rest []
          (fragList ++ [⟨.STRING, String.mk (buf ++ body ++ ['"']), false⟩]) := by
  intro body
  induction body with
  | nil =>
    intro prev rest buf fragList _ hp
    rw [List.nil_append, splitTemplateQuote, if_pos ⟨rfl, hp⟩, List.append_nil]
  | cons c body ih =>
    intro prev rest buf fragList h hp
    have hc := h c (by simp)
    have hn : ¬ (c = '"' ∧ prev ≠ '\\') := fun hh => hc.1 hh.1
    rw [List.cons_append, splitTemplateQuote, if_neg hn,
      ih c rest _ fragList (fun d hd => h d (by simp [hd])) hc.2]
    simp

/-- A string literal without an inner quote or backslash, met outside a
string literal: the fragment that the lexer appends holds the content that
the buffer had when the literal opened, followed by the literal. -/
theorem splitTemplateLoop_quoted_span (tmpl : String) (params : List Param)
    (body rest buf : List Char) (fragList : List fragment)
    (h : ∀ c ∈ body, c ≠ '"' ∧ c ≠ '\\') :
    splitTemplateLoop tmpl params ('"' :: (body ++ '"' :: rest)) buf fragList =
      splitTemplateLoop tmpl params rest []
        (fragList ++ [⟨.STRING, String.mk (buf ++ '"' :: body ++ ['"']), false⟩]) := by
  rw [splitTemplateLoop_quote, splitTemplateQuote_span tmpl params body '"' rest _ fragList h
    (by decide)]
  simp

/-- C14: on the template `a"b"` with `a` a declared parameter, `splitTemplate`
succeeds with one string-literal fragment whose value is `a"b"`: the quoted
span `"b"` is not a fragment of its own, and the token `a` before it is
neither classified nor returned. -/
theorem splitTemplate_token_before_quote :
    splitTemplate "a\"b\"" [⟨"a", "string", false⟩] = .ok [⟨.STRING, "a\"b\"", false⟩] := by
  decide!

/-- C15, counterexample: a single `&` that ends the template makes
`splitTemplate` return the `incomplete code` error. -/
theorem splitTemplate_single_amp_last :
    splitTemplate "a&" [⟨"a", "bool", false⟩] = .error "incomplete code:a&" := by
  decide!

/-- C15, amended: when the scan of `splitTemplate` is outside a string literal
and meets a single `&` or `|`, then, if a different character follows, the
scan goes on at that character with the buffer and the fragment list
unchanged, so the character causes no error and reaches no fragment, and, if
the template ends there, the `incomplete code` error is returned. So for
tokens `a` and `b` without a special character, `b` not empty, the template
`a`, the single character, `b` gives the same result as the template
`a`, `b`. -/
theorem splitTemplate_single_absorbed (c : Char) (hc : c = '&' ∨ c = '|')
    (tmpl : String) (params : List Param) (buf : List Char) (fragList : List fragment) :
    (∀ (d : Char) (rest : List Char), d ≠ c →
      splitTemplateLoop tmpl params (c :: d :: rest) buf fragList =
        splitTemplateLoop tmpl params (d :: rest) buf fragList) ∧
    splitTemplateLoop tmpl params [c] buf fragList = .error ("incomplete code:" ++ tmpl) ∧
    (∀ a b : String, (∀ x ∈ a.data, isDefaultChar x = true) →
      (∀ x ∈ b.data, isDefaultChar x = true) → b ≠ "" →
      splitTemplate (a ++ String.singleton c ++ b) params = splitTemplate (a ++ b) params) := by
  refine ⟨?_, ?_, ?_⟩
  · intro d rest hd
    rw [splitTemplateLoop_single tmpl params c _ _ _ hc]
    simp only [hd, if_false]
  · rw [splitTemplateLoop_single tmpl params c _ _ _ hc]
  · intro a b ha hb hne
    obtain ⟨b0, B', hB⟩ : ∃ b0 B', b.data = b0 :: B' := by
      cases hbd : b.data with
      | nil => exact absurd (String.ext hbd) hne
      | cons b0 B' => exact ⟨b0, B', rfl⟩
    have hb0 : ¬ b0 = c := by
      intro h
      have := hb b0 (by simp [hB])
      rw [h] at this
      rcases hc with h' | h' <;> rw [h'] at this <;> exact absurd this (by decide)
    have hab : ∀ x ∈ a.data ++ b.data, isDefaultChar x = true := by
      intro x hx
      rcases List.mem_append.mp hx with h | h
      · exact ha x h
      · exact hb x h
    have hs : (String.singleton c).data = [c] := rfl
    simp only [splitTemplate, String.data_append, hs, List.append_assoc, List.singleton_append]
    rw [splitTemplateLoop_token _ params _ hab, splitTemplateLoop_run _ params a.data ha, hB,
      splitTemplateLoop_single _ params c _ _ _ hc]
    simp only [hb0, if_false]
    rw [← hB]
    have h := splitTemplateLoop_run (a ++ String.singleton c ++ b) params b.data hb []
      ([] ++ a.data) []
    rw [List.append_nil] at h
    rw [h, splitTemplateLoop, List.nil_append]

/-- Witness of the amended C15: a single `&` and a single `|` between two
letters. -/
theorem splitTemplate_single_absorbed_witness :
    ('&' = '&' ∨ '&' = '|') ∧
    splitTemplateLoop "a&b" [] ['&', 'b'] ['a'] [] = splitTemplateLoop "a&b" [] ['b'] ['a'] [] ∧
    splitTemplate ("a" ++ String.singleton '&' ++ "b") [⟨"ab", "int", false⟩] =
      splitTemplate ("a" ++ "b") [⟨"ab", "int", false⟩] :=
  ⟨Or.inl rfl,
    (splitTemplate_single_absorbed '&' (Or.inl rfl) "a&b" [] ['a'] []).1 'b' [] (by decide),
    (splitTemplate_single_absorbed '&' (Or.inl rfl) "" [⟨"ab", "int", false⟩] [] []).2.2 "a" "b"
      (by decide) (by decide) (by decide)⟩

/-- C16: for all non-empty tokens `a` and `b` made of characters that are
none of the special characters of the lexer, as letters and digits are, and
every comparison operator `op` among `>`, `<`, `>=`, `<=`, `==`, `!=`,
`splitTemplate` returns the same result for the template `a`, `op`, `b`
without spaces as for the template with a space on either side of `op`: the
error of the classifier for `a` or else for `b`, and otherwise the fragment
of `a`, the operator as a comparison fragment of its own, and the fragment
of `b`. -/
theorem splitTemplate_comparison_unspaced (a b op : String) (params : List Param)
    (ha : a ≠ "") (hb : b ≠ "")
    (had : ∀ c ∈ a.data, isDefaultChar c = true) (hbd : ∀ c ∈ b.data, isDefaultChar c = true)
    (hop : op ∈ [">", "<", ">=", "<=", "==", "!="]) :
    splitTemplate (a ++ op ++ b) params = splitTemplate (a ++ " " ++ op ++ " " ++ b) params ∧
    splitTemplate (a ++ op ++ b) params =
      match checkFragment a params with
      | (_, some err) => .error err
      | (fa, none) =>
        match checkFragment b params with
        | (_, some err) => .error err
        | (fb, none) => .ok [fa, ⟨.EXPRESSION, op, false⟩, fb] := by
  have hA : a.data ≠ [] := fun h => ha (String.ext h)
  have hB : b.data ≠ [] := fun h => hb (String.ext h)
  have h1 := (splitTemplateLoop_comparison (a ++ op ++ b) params a.data b.data op hA hB had hbd
    hop).1
  have h2 := (splitTemplateLoop_comparison (a ++ " " ++ op ++ " " ++ b) params a.data b.data op
    hA hB had hbd hop).2
  have e1 : splitTemplate (a ++ op ++ b) params =
      splitTemplateLoop (a ++ op ++ b) params (a.data ++ (op.data ++ b.data)) [] [] := by
    simp only [splitTemplate, String.data_append, List.append_assoc]
  have e2 : splitTemplate (a ++ " " ++ op ++ " " ++ b) params =
      splitTemplateLoop (a ++ " " ++ op ++ " " ++ b) params
        (a.data ++ (' ' :: (op.data ++ (' ' :: b.data)))) [] [] := by
    simp only [splitTemplate, String.data_append, List.append_assoc]
    rfl
  rw [e1, e2, h1, h2]
  exact ⟨rfl, rfl⟩

/-- Witness of C16: the tokens `age` and `18` around `>=`. -/
theorem splitTemplate_comparison_unspaced_witness :
    ("age" : String) ≠ "" ∧ ("18" : String) ≠ "" ∧
    (∀ c ∈ ("age" : String).data, isDefaultChar c = true) ∧
    (∀ c ∈ ("18" : String).data, isDefaultChar c = true) ∧
    (">=" : String) ∈ [">", "<", ">=", "<=", "==", "!="] ∧
    splitTemplate ("age" ++ ">=" ++ "18") [⟨"age", "int", false⟩] =
      splitTemplate ("age" ++ " " ++ ">=" ++ " " ++ "18") [⟨"age", "int", false⟩] :=
  ⟨by decide, by decide, by decide, by decide, by decide,
    (splitTemplate_comparison_unspaced "age" "18" ">=" [⟨"age", "int", false⟩] (by decide)
      (by decide) (by decide) (by decide) (by decide)).1⟩

/-! ### Termination and the range of the cursor -/

theorem Slices.reaches_refl (s : Slices) (h : s.inRange) : s.reaches s :=
  ⟨rfl, Int.le_refl _, h.2⟩

theorem Slices.reaches_trans {s s1 s2 : Slices} (h1 : s.reaches s1) (h2 : s1.reaches s2) :
    s.reaches s2 := by
  obtain ⟨a1, b1, c1⟩ := h1
  obtain ⟨a2, b2, c2⟩ := h2
  refine ⟨a2.trans a1, by omega, ?_⟩
  rw [a1] at c2
  exact c2

theorem Slices.reaches_inRange {s s1 : Slices} (h : s.inRange) (h1 : s.reaches s1) :
    s1.inRange := by
  obtain ⟨a1, b1, c1⟩ := h1
  refine ⟨by have := h.1; omega, ?_⟩
  rw [a1]
  exact c1

theorem Outcome.settled_of_reaches {α : Type} {s s1 : Slices} (h : s.reaches s1)
    (o : Outcome α) (ho : o.settled s1) : o.settled s := by
  cases o with
  | ok v s2 => exact Slices.reaches_trans h ho
  | fail e s2 => exact Slices.reaches_trans h ho
  | crash =>
    simp only [Outcome.settled] at ho ⊢
    rw [← h.1]
    exact ho
  | outOfFuel => exact ho

/-- A successful `Next`: the new state, its cursor and the statement read. -/
theorem Slices.Next_spec {s s1 : Slices} {n : slice} (h : s.Next = some (n, s1)) :
    s1.slices = s.slices ∧ s1.currentIndex = s.currentIndex + 1 ∧ s1.Current = some n := by
  simp only [Slices.Next] at h
  split at h
  · cases h
  · rename_i x hx
    simp only [Option.some.injEq, Prod.mk.injEq] at h
    obtain ⟨rfl, rfl⟩ := h
    exact ⟨rfl, rfl, hx⟩

/-- After a successful test `HasMore`, `Next` reads inside the sequence. -/
theorem Slices.Next_of_HasMore (s : Slices) (h : s.inRange) (hm : s.HasMore = true) :
    ∃ n s1, s.Next = some (n, s1) := by
  simp only [Slices.HasMore, decide_eq_true_eq] at hm
  obtain ⟨h0, h1⟩ := h
  have hlt : (s.currentIndex + 1).toNat < s.slices.length := by omega
  simp only [Slices.Next, Slices.index]
  rw [if_neg (by omega), List.getElem?_eq_getElem hlt]
  exact ⟨_, _, rfl⟩

theorem Slices.Current_of_inRange (s : Slices) (h : s.inRange) : ∃ x, s.Current = some x := by
  obtain ⟨h0, h1⟩ := h
  have hlt : s.currentIndex.toNat < s.slices.length := by omega
  simp only [Slices.Current, Slices.index]
  rw [if_neg (by omega), List.getElem?_eq_getElem hlt]
  exact ⟨_, rfl⟩

theorem Slices.Current_mem {s : Slices} {x : slice} (h : s.Current = some x) : x ∈ s.slices := by
  simp only [Slices.Current, Slices.index] at h
  split at h
  · cases h
  · exact List.getElem?_mem h

/-- The loop of `parseSQL` returns normally when the fuel covers the
statements after the cursor; the cursor it leaves is an index, at most one
step before its start, and not before its start when the loop variable is a
literal. -/
theorem Slices.parseSQLLoop_settled : ∀ (fuel : Nat) (res : SQLClause) (x : slice) (s : Slices),
    s.inRange → s.ahead + 1 ≤ (fuel : Int) →
    ∃ r s1, Slices.parseSQLLoop fuel res x s = .ok r s1 ∧ s1.slices = s.slices ∧
      s.currentIndex - 1 ≤ s1.currentIndex ∧ s1.currentIndex < (s.slices.length : Int) ∧
      (x.Typ.isLiteral = true → s.currentIndex ≤ s1.currentIndex) := by
  intro fuel
  induction fuel with
  | zero =>
    intro res x s h hf
    exfalso
    have := h.2
    simp only [Slices.ahead] at hf
    omega
  | succ fuel ih =>
    intro res x s h hf
    rw [Slices.parseSQLLoop]
    by_cases hx : x.Typ.isLiteral = true
    · simp only [hx, if_true]
      by_cases hm : s.HasMore = true
      · obtain ⟨n, s1, hn⟩ := Slices.Next_of_HasMore s h hm
        obtain ⟨e1, e2, -⟩ := Slices.Next_spec hn
        simp only [hm, Bool.not_true, Bool.false_eq_true, if_false, hn]
        simp only [Slices.HasMore, decide_eq_true_eq] at hm
        have hr : s1.inRange := ⟨by have := h.1; omega, by rw [e1]; omega⟩
        obtain ⟨r, s2, hrun, a, b, c, -⟩ := ih _ n s1 hr (by
          simp only [Slices.ahead, e1, e2] at hf ⊢
          push_cast at hf
          omega)
        refine ⟨r, s2, hrun, a.trans e1, by omega, by rw [← e1]; exact c, fun _ => by omega⟩
      · simp only [hm, Bool.not_false, if_true]
        exact ⟨_, _, rfl, rfl, by omega, h.2, fun _ => Int.le_refl _⟩
    · simp only [hx, Bool.false_eq_true, if_false]
      refine ⟨_, _, rfl, rfl, ?_, ?_, fun h' => h'.elim⟩
      · simp [Slices.SubIndex]
      · have := h.2
        simp only [Slices.SubIndex]
        omega

/-- Method `parseSQL`, entered on a literal, settles. -/
theorem Slices.parseSQL_settled (fuel : Nat) (name : String) (s : Slices) (x : slice)
    (h : s.inRange) (hc : s.Current = some x) (hx : x.Typ.isLiteral = true)
    (hf : s.ahead + 1 ≤ (fuel : Int)) :
    ∃ r s1, Slices.parseSQL fuel name s = .ok r s1 ∧ s.reaches s1 := by
  rw [Slices.parseSQL, hc]
  obtain ⟨r, s1, hrun, a, -, c, d⟩ := Slices.parseSQLLoop_settled fuel
    { base := { VarName := name, Typ := .SQL }, Value := [] } x s h hf
  exact ⟨r, s1, hrun, a, d hx, c⟩

@[simp] theorem Slices.emit_slices (s : Slices) (l : String) : (s.emit l).slices = s.slices := rfl
@[simp] theorem Slices.emit_currentIndex (s : Slices) (l : String) :
    (s.emit l).currentIndex = s.currentIndex := rfl

theorem Slices.reaches_emit {s s1 : Slices} (h : s.reaches s1) (l : String) :
    s.reaches (s1.emit l) := h

theorem Slices.reaches_appendIfCond {s s1 : Slices} (h : s.reaches s1) (a b c : String) :
    s.reaches (s1.appendIfCond a b c) := h

theorem Slices.reaches_appendSetValue {s s1 : Slices} (h : s.reaches s1) (a b : String) :
    s.reaches (s1.appendSetValue a b) := h

theorem Slices.reaches_Next {s s1 : Slices} {n : slice} (h : s.inRange)
    (hm : s.HasMore = true) (hn : s.Next = some (n, s1)) :
    s.reaches s1 ∧ s1.inRange ∧ s1.ahead = s.ahead - 1 ∧ s1.Current = some n ∧
      1 ≤ s1.currentIndex := by
  obtain ⟨e1, e2, e3⟩ := Slices.Next_spec hn
  simp only [Slices.HasMore, decide_eq_true_eq] at hm
  obtain ⟨h0, h1⟩ := h
  refine ⟨⟨e1, by omega, by omega⟩, ⟨by omega, by rw [e1]; omega⟩, ?_, e3, by omega⟩
  simp only [Slices.ahead, e1, e2]
  omega

theorem Slices.reaches_ahead {s s1 : Slices} (h : s.reaches s1) : s1.ahead ≤ s.ahead := by
  obtain ⟨e1, e2, e3⟩ := h
  simp only [Slices.ahead, e1]
  omega

theorem Slices.ahead_nonneg {s : Slices} (h : s.inRange) : 0 ≤ s.ahead := by
  have := h.2
  simp only [Slices.ahead]
  omega

theorem whereLoop_run {fuel : Nat} (ih : RunSpec fuel) :
    ∀ res s, s.inRange → 2 * s.ahead + 1 ≤ ((fuel + 1 : Nat) : Int) →
    (Slices.parseWhereLoop (fuel + 1) res s).settled s := by
  intro res s h hf
  push_cast at hf
  rw [Slices.parseWhereLoop]
  by_cases hm : s.HasMore = true
  · obtain ⟨n, s1, hn⟩ := Slices.Next_of_HasMore s h hm
    obtain ⟨r1, i1, a1, c1, -⟩ := Slices.reaches_Next h hm hn
    simp only [hm, if_true, hn]
    have hlit : n.Typ.isLiteral = true →
        (match Slices.parseSQL fuel res.base.VarName s1 with
          | .ok strClause s =>
            Slices.parseWhereLoop fuel { res with Value := res.Value ++ [strClause.toClause] }
              (s.appendSetValue res.base.VarName strClause.String)
          | .fail e s => .fail e s
          | .crash => .crash
          | .outOfFuel => .outOfFuel).settled s := by
      intro hl
      obtain ⟨r, s2, hrun, r2⟩ := Slices.parseSQL_settled fuel res.base.VarName s1 n i1 c1 hl
        (by omega)
      simp only [hrun]
      have r3 := Slices.reaches_trans r1 r2
      have := Slices.reaches_ahead r2
      exact Outcome.settled_of_reaches (Slices.reaches_appendSetValue r3 _ _) _
        (ih.whereLoop _ _ (Slices.reaches_inRange h r3) (by
          show 2 * s2.ahead + 1 ≤ (fuel : Int)
          omega))
    split
    · rename_i hT; exact hlit (by rw [hT]; rfl)
    · rename_i hT; exact hlit (by rw [hT]; rfl)
    · rename_i hT; exact hlit (by rw [hT]; rfl)
    · have hsub := ih.ifRun s1 i1 (by omega)
      cases hrun : Slices.parseIF fuel s1 with
      | ok c s2 =>
        rw [hrun] at hsub
        have r3 := Slices.reaches_trans r1 hsub
        have := Slices.reaches_ahead hsub
        exact Outcome.settled_of_reaches (Slices.reaches_appendSetValue r3 _ _) _
          (ih.whereLoop _ _ (Slices.reaches_inRange h r3) (by
            show 2 * s2.ahead + 1 ≤ (fuel : Int)
            omega))
      | fail e s2 => rw [hrun] at hsub; exact Slices.reaches_trans r1 hsub
      | crash => rw [hrun] at hsub; exact Outcome.settled_of_reaches r1 .crash hsub
      | outOfFuel => rw [hrun] at hsub; exact hsub.elim
    · exact r1
    · exact r1
  · simp only [hm, Bool.false_eq_true, if_false]
    obtain ⟨x, hx⟩ := Slices.Current_of_inRange s h
    simp only [hx]
    split
    · exact Slices.reaches_refl s h
    · exact Slices.reaches_refl s h

theorem setLoop_run {fuel : Nat} (ih : RunSpec fuel) :
    ∀ res s, s.inRange → 2 * s.ahead + 1 ≤ ((fuel + 1 : Nat) : Int) →
    (Slices.parseSetLoop (fuel + 1) res s).settled s := by
  intro res s h hf
  push_cast at hf
  rw [Slices.parseSetLoop]
  by_cases hm : s.HasMore = true
  · obtain ⟨n, s1, hn⟩ := Slices.Next_of_HasMore s h hm
    obtain ⟨r1, i1, a1, c1, -⟩ := Slices.reaches_Next h hm hn
    simp only [hm, if_true, hn]
    have hlit : n.Typ.isLiteral = true →
        (match Slices.parseSQL fuel res.base.VarName s1 with
          | .ok strClause s =>
            Slices.parseSetLoop fuel { res with Value := res.Value ++ [strClause.toClause] }
              (s.appendSetValue res.base.VarName strClause.String)
          | .fail e s => .fail e s
          | .crash => .crash
          | .outOfFuel => .outOfFuel).settled s := by
      intro hl
      obtain ⟨r, s2, hrun, r2⟩ := Slices.parseSQL_settled fuel res.base.VarName s1 n i1 c1 hl
        (by omega)
      simp only [hrun]
      have r3 := Slices.reaches_trans r1 r2
      have := Slices.reaches_ahead r2
      exact Outcome.settled_of_reaches (Slices.reaches_appendSetValue r3 _ _) _
        (ih.setLoop _ _ (Slices.reaches_inRange h r3) (by
          show 2 * s2.ahead + 1 ≤ (fuel : Int)
          omega))
    split
    · rename_i hT; exact hlit (by rw [hT]; rfl)
    · rename_i hT; exact hlit (by rw [hT]; rfl)
    · rename_i hT; exact hlit (by rw [hT]; rfl)
    · have hsub := ih.ifRun s1 i1 (by omega)
      cases hrun : Slices.parseIF fuel s1 with
      | ok c s2 =>
        rw [hrun] at hsub
        have r3 := Slices.reaches_trans r1 hsub
        have := Slices.reaches_ahead hsub
        exact Outcome.settled_of_reaches (Slices.reaches_appendSetValue r3 _ _) _
          (ih.setLoop _ _ (Slices.reaches_inRange h r3) (by
            show 2 * s2.ahead + 1 ≤ (fuel : Int)
            omega))
      | fail e s2 => rw [hrun] at hsub; exact Slices.reaches_trans r1 hsub
      | crash => rw [hrun] at hsub; exact Outcome.settled_of_reaches r1 .crash hsub
      | outOfFuel => rw [hrun] at hsub; exact hsub.elim
    · exact r1
    · exact r1
  · simp only [hm, Bool.false_eq_true, if_false]
    obtain ⟨x, hx⟩ := Slices.Current_of_inRange s h
    simp only [hx]
    split
    · exact Slices.reaches_refl s h
    · exact Slices.reaches_refl s h


theorem Slices.GetName_fields (s : Slices) (t : Status) :
    (s.GetName t).2.slices = s.slices ∧ (s.GetName t).2.currentIndex = s.currentIndex := by
  cases t <;> exact ⟨rfl, rfl⟩

theorem Slices.reaches_GetName (s : Slices) (h : s.inRange) (t : Status) :
    s.reaches (s.GetName t).2 := by
  obtain ⟨a, b⟩ := Slices.GetName_fields s t
  exact ⟨a, by omega, by rw [b]; exact h.2⟩

theorem Slices.ahead_GetName (s : Slices) (t : Status) : (s.GetName t).2.ahead = s.ahead := by
  obtain ⟨a, b⟩ := Slices.GetName_fields s t
  simp only [Slices.ahead, a, b]

theorem whereRun_run {fuel : Nat} (ih : RunSpec fuel) :
    ∀ s, s.inRange → 2 * s.ahead + 2 ≤ ((fuel + 1 : Nat) : Int) →
    (Slices.parseWhere (fuel + 1) s).settled s := by
  intro s h hf
  push_cast at hf
  rw [Slices.parseWhere]
  obtain ⟨x, hx⟩ := Slices.Current_of_inRange s h
  simp only [hx]
  have r1 := Slices.reaches_GetName s h x.Typ
  have a1 := Slices.ahead_GetName s x.Typ
  exact @Outcome.settled_of_reaches _ s ((s.GetName x.Typ).2.CreateStringSet (s.GetName x.Typ).1)
    r1 _ (ih.whereLoop _ _ (Slices.reaches_inRange h r1) (by
      show 2 * (s.GetName x.Typ).2.ahead + 1 ≤ (fuel : Int)
      omega))

theorem setRun_run {fuel : Nat} (ih : RunSpec fuel) :
    ∀ s, s.inRange → 2 * s.ahead + 2 ≤ ((fuel + 1 : Nat) : Int) →
    (Slices.parseSet (fuel + 1) s).settled s := by
  intro s h hf
  push_cast at hf
  rw [Slices.parseSet]
  obtain ⟨x, hx⟩ := Slices.Current_of_inRange s h
  simp only [hx]
  have r1 := Slices.reaches_GetName s h x.Typ
  have a1 := Slices.ahead_GetName s x.Typ
  exact @Outcome.settled_of_reaches _ s ((s.GetName x.Typ).2.CreateStringSet (s.GetName x.Typ).1)
    r1 _ (ih.setLoop _ _ (Slices.reaches_inRange h r1) (by
      show 2 * (s.GetName x.Typ).2.ahead + 1 ≤ (fuel : Int)
      omega))

theorem ifRun_run {fuel : Nat} (ih : RunSpec fuel) :
    ∀ s, s.inRange → 2 * s.ahead + 2 ≤ ((fuel + 1 : Nat) : Int) →
    (Slices.parseIF (fuel + 1) s).settled s := by
  intro s h hf
  push_cast at hf
  rw [Slices.parseIF]
  obtain ⟨x, hx⟩ := Slices.Current_of_inRange s h
  simp only [hx]
  have r1 := Slices.reaches_GetName s h x.Typ
  have a1 := Slices.ahead_GetName s x.Typ
  exact @Outcome.settled_of_reaches _ s ((s.GetName x.Typ).2.CreateIf (s.GetName x.Typ).1)
    r1 _ (ih.ifLoop _ _ _ (Slices.reaches_inRange h r1) (by
      show 2 * (s.GetName x.Typ).2.ahead + 1 ≤ (fuel : Int)
      omega))

theorem Slices.Next_inRange {s s1 : Slices} {n : slice} (h : s.inRange)
    (hn : s.Next = some (n, s1)) :
    s.reaches s1 ∧ s1.inRange ∧ s1.ahead = s.ahead - 1 ∧ s1.Current = some n := by
  obtain ⟨e1, e2, e3⟩ := Slices.Next_spec hn
  have hlt : s1.currentIndex < (s1.slices.length : Int) := by
    simp only [Slices.Current, Slices.index] at e3
    split at e3
    · cases e3
    · have := (List.getElem?_eq_some.mp e3).1
      omega
  obtain ⟨h0, h1⟩ := h
  rw [e1] at hlt
  refine ⟨⟨e1, by omega, hlt⟩, ⟨by omega, by rw [e1]; exact hlt⟩, ?_, e3⟩
  simp only [Slices.ahead, e1, e2]
  omega

theorem hasElse_of_Current {s : Slices} {n : slice} (hc : s.Current = some n)
    (ht : n.Typ = .ELSE ∨ n.Typ = .ELSEIF) : hasElse s.slices :=
  ⟨n, Slices.Current_mem hc, ht⟩

theorem elseLoop_run {fuel : Nat} (ih : RunSpec fuel) :
    ∀ name res n s, s.inRange → hasElse s.slices → s.Current = some n →
    2 * s.ahead + 3 ≤ ((fuel + 1 : Nat) : Int) →
    (Slices.parseElSELoop (fuel + 1) name res n s).settled s.SubIndex := by
  intro name res n s h he hc hf
  push_cast at hf
  have hsub : s.SubIndex.reaches s := ⟨rfl, by simp [Slices.SubIndex], h.2⟩
  -- the post statement and the next iteration
  have hpost : ∀ (res1 : ElseClause) (s2 : Slices), s.reaches s2 →
      (match s2.Next with
        | none => (.crash : Outcome ElseClause)
        | some (m, s) => Slices.parseElSELoop fuel name res1 m s).settled s.SubIndex := by
    intro res1 s2 r2
    have i2 := Slices.reaches_inRange h r2
    have a2 := Slices.reaches_ahead r2
    cases hn : s2.Next with
    | none => exact he
    | some p =>
      obtain ⟨m, s3⟩ := p
      obtain ⟨r3, i3, a3, c3⟩ := Slices.Next_inRange i2 hn
      have he3 : hasElse s3.slices := by rw [r3.1, r2.1]; exact he
      have hrun := ih.elseLoop name res1 m s3 i3 he3 c3 (by omega)
      have r4 : s.SubIndex.reaches s3.SubIndex := by
        obtain ⟨x1, x2, x3⟩ := Slices.reaches_trans r2 r3
        refine ⟨x1, ?_, ?_⟩
        · simp only [Slices.SubIndex]; omega
        · simp only [Slices.SubIndex]; omega
      exact Outcome.settled_of_reaches r4 _ hrun
  rw [Slices.parseElSELoop]
  by_cases hm : s.HasMore = true
  · simp only [hm, if_true]
    have hlit : n.Typ.isLiteral = true →
        (match Slices.parseSQL fuel name s with
          | .ok c s =>
            match s.Next with
            | none => (.crash : Outcome ElseClause)
            | some (m, s) =>
              Slices.parseElSELoop fuel name { res with Value := res.Value ++ [c.toClause] } m s
          | .fail e s => .fail e s
          | .crash => .crash
          | .outOfFuel => .outOfFuel).settled s.SubIndex := by
      intro hl
      obtain ⟨r, s2, hrun, r2⟩ := Slices.parseSQL_settled fuel name s n h hc hl (by
        have := Slices.ahead_nonneg h
        omega)
      simp only [hrun]
      exact hpost _ s2 r2
    split
    · rename_i hT; exact hlit (by rw [hT]; rfl)
    · rename_i hT; exact hlit (by rw [hT]; rfl)
    · rename_i hT; exact hlit (by rw [hT]; rfl)
    · have hs := ih.ifRun s h (by omega)
      cases hrun : Slices.parseIF fuel s with
      | ok c s2 => rw [hrun] at hs; exact hpost _ s2 hs
      | fail e s2 => rw [hrun] at hs; exact Slices.reaches_trans hsub hs
      | crash => exact he
      | outOfFuel => rw [hrun] at hs; exact hs.elim
    · have hs := ih.whereRun s h (by omega)
      cases hrun : Slices.parseWhere fuel s with
      | ok c s2 => rw [hrun] at hs; exact hpost _ s2 hs
      | fail e s2 => rw [hrun] at hs; exact Slices.reaches_trans hsub hs
      | crash => exact he
      | outOfFuel => rw [hrun] at hs; exact hs.elim
    · have hs := ih.setRun s h (by omega)
      cases hrun : Slices.parseSet fuel s with
      | ok c s2 => rw [hrun] at hs; exact hpost _ s2 hs
      | fail e s2 => rw [hrun] at hs; exact Slices.reaches_trans hsub hs
      | crash => exact he
      | outOfFuel => rw [hrun] at hs; exact hs.elim
    · exact ⟨rfl, Int.le_refl _, by have := h.2; simp only [Slices.SubIndex]; omega⟩
  · simp only [hm, Bool.false_eq_true, if_false]
    exact hsub

theorem elseRun_run {fuel : Nat} (ih : RunSpec fuel) :
    ∀ name s, s.inRange → hasElse s.slices → 2 * s.ahead + 2 ≤ ((fuel + 1 : Nat) : Int) →
    (Slices.parseElSE (fuel + 1) name s).settled s := by
  intro name s h he hf
  push_cast at hf
  rw [Slices.parseElSE]
  obtain ⟨x, hx⟩ := Slices.Current_of_inRange s h
  simp only [hx]
  by_cases hm : s.HasMore = true
  · obtain ⟨n, s1, hn⟩ := Slices.Next_of_HasMore s h hm
    obtain ⟨r1, i1, a1, c1⟩ := Slices.Next_inRange h hn
    simp only [hm, Bool.not_true, Bool.false_eq_true, if_false, hn]
    have he1 : hasElse s1.slices := by rw [r1.1]; exact he
    have hrun := ih.elseLoop name
      { base := { VarName := name, Typ := x.Typ }, Cond := x.Value, Value := [] } n s1 i1 he1 c1
      (by omega)
    have r2 : s.reaches s1.SubIndex := by
      obtain ⟨e1, e2, -⟩ := Slices.Next_spec hn
      exact ⟨e1, by simp only [Slices.SubIndex]; omega, by
        have := h.2
        simp only [Slices.SubIndex]; omega⟩
    exact Outcome.settled_of_reaches r2 _ hrun
  · simp only [hm, Bool.not_false, if_true]
    exact Slices.reaches_refl s h

theorem ifLoop_run {fuel : Nat} (ih : RunSpec fuel) :
    ∀ res cond s, s.inRange → 2 * s.ahead + 1 ≤ ((fuel + 1 : Nat) : Int) →
    (Slices.parseIFLoop (fuel + 1) res cond s).settled s := by
  intro res cond s h hf
  push_cast at hf
  rw [Slices.parseIFLoop]
  by_cases hm : s.HasMore = true
  · obtain ⟨n, s1, hn⟩ := Slices.Next_of_HasMore s h hm
    obtain ⟨r1, i1, a1, c1⟩ := Slices.Next_inRange h hn
    simp only [hm, if_true, hn]
    -- the next iteration, entered from a state that a sub-parser left
    have hnext : ∀ (res1 : IfClause) (cond1 : List String) (s2 : Slices) (a b c : String),
        s1.reaches s2 →
        (Slices.parseIFLoop fuel res1 cond1 (s2.appendIfCond a b c)).settled s := by
      intro res1 cond1 s2 a b c r2
      have r3 := Slices.reaches_trans r1 r2
      have := Slices.reaches_ahead r2
      exact Outcome.settled_of_reaches (Slices.reaches_appendIfCond r3 _ _ _) _
        (ih.ifLoop _ _ _ (Slices.reaches_inRange h r3) (by
          show 2 * s2.ahead + 1 ≤ (fuel : Int)
          omega))
    have hlit : n.Typ.isLiteral = true →
        (match Slices.parseSQL fuel res.base.VarName s1 with
          | .ok str s =>
            Slices.parseIFLoop fuel { res with Value := res.Value ++ [str.toClause] } cond
              (s.appendIfCond res.base.VarName res.Cond str.String)
          | .fail e s => .fail e s
          | .crash => .crash
          | .outOfFuel => .outOfFuel).settled s := by
      intro hl
      obtain ⟨r, s2, hrun, r2⟩ := Slices.parseSQL_settled fuel res.base.VarName s1 n i1 c1 hl
        (by omega)
      simp only [hrun]
      exact hnext _ _ s2 _ _ _ r2
    split
    · rename_i hT; exact hlit (by rw [hT]; rfl)
    · rename_i hT; exact hlit (by rw [hT]; rfl)
    · rename_i hT; exact hlit (by rw [hT]; rfl)
    · have hs := ih.ifRun s1 i1 (by omega)
      cases hrun : Slices.parseIF fuel s1 with
      | ok c s2 => rw [hrun] at hs; exact hnext _ _ s2 _ _ _ hs
      | fail e s2 => rw [hrun] at hs; exact Slices.reaches_trans r1 hs
      | crash => rw [hrun] at hs; exact Outcome.settled_of_reaches r1 .crash hs
      | outOfFuel => rw [hrun] at hs; exact hs.elim
    · have hs := ih.whereRun s1 i1 (by omega)
      cases hrun : Slices.parseWhere fuel s1 with
      | ok c s2 => rw [hrun] at hs; exact hnext _ _ s2 _ _ _ hs
      | fail e s2 => rw [hrun] at hs; exact Slices.reaches_trans r1 hs
      | crash => rw [hrun] at hs; exact Outcome.settled_of_reaches r1 .crash hs
      | outOfFuel => rw [hrun] at hs; exact hs.elim
    · have hs := ih.setRun s1 i1 (by omega)
      cases hrun : Slices.parseSet fuel s1 with
      | ok c s2 => rw [hrun] at hs; exact hnext _ _ s2 _ _ _ hs
      | fail e s2 => rw [hrun] at hs; exact Slices.reaches_trans r1 hs
      | crash => rw [hrun] at hs; exact Outcome.settled_of_reaches r1 .crash hs
      | outOfFuel => rw [hrun] at hs; exact hs.elim
    · rename_i hT
      have he1 := hasElse_of_Current c1 (Or.inr hT)
      have hs := ih.elseRun res.base.VarName s1 i1 he1 (by omega)
      cases hrun : Slices.parseElSE fuel res.base.VarName s1 with
      | ok c s2 => rw [hrun] at hs; exact hnext _ _ s2 _ _ _ hs
      | fail e s2 => rw [hrun] at hs; exact Slices.reaches_trans r1 hs
      | crash => rw [hrun] at hs; exact Outcome.settled_of_reaches r1 .crash hs
      | outOfFuel => rw [hrun] at hs; exact hs.elim
    · rename_i hT
      have he1 := hasElse_of_Current c1 (Or.inl hT)
      have hs := ih.elseRun res.base.VarName s1 i1 he1 (by omega)
      cases hrun : Slices.parseElSE fuel res.base.VarName s1 with
      | ok c s2 => rw [hrun] at hs; exact hnext _ _ s2 _ _ _ hs
      | fail e s2 => rw [hrun] at hs; exact Slices.reaches_trans r1 hs
      | crash => rw [hrun] at hs; exact Outcome.settled_of_reaches r1 .crash hs
      | outOfFuel => rw [hrun] at hs; exact hs.elim
    · exact r1
    · exact r1
  · simp only [hm, Bool.false_eq_true, if_false]
    obtain ⟨x, hx⟩ := Slices.Current_of_inRange s h
    simp only [hx]
    split
    · exact Slices.reaches_refl s h
    · exact Slices.reaches_refl s h

theorem runSpec (fuel : Nat) : RunSpec fuel := by
  induction fuel with
  | zero =>
    have hz : ∀ (s : Slices) (k : Int), s.inRange → 0 < k → 2 * s.ahead + k ≤ ((0 : Nat) : Int) →
        False := by
      intro s k h hk hf
      have := Slices.ahead_nonneg h
      simp only [Nat.cast_zero] at hf
      omega
    exact {
      ifRun := fun s h hf => (hz s 2 h (by omega) hf).elim
      ifLoop := fun _ _ s h hf => (hz s 1 h (by omega) hf).elim
      elseRun := fun _ s h _ hf => (hz s 2 h (by omega) hf).elim
      elseLoop := fun _ _ _ s h _ _ hf => (hz s 3 h (by omega) hf).elim
      whereRun := fun s h hf => (hz s 2 h (by omega) hf).elim
      whereLoop := fun _ s h hf => (hz s 1 h (by omega) hf).elim
      setRun := fun s h hf => (hz s 2 h (by omega) hf).elim
      setLoop := fun _ s h hf => (hz s 1 h (by omega) hf).elim }
  | succ fuel ih =>
    exact {
      ifRun := ifRun_run ih
      ifLoop := ifLoop_run ih
      elseRun := elseRun_run ih
      elseLoop := elseLoop_run ih
      whereRun := whereRun_run ih
      whereLoop := whereLoop_run ih
      setRun := setRun_run ih
      setLoop := setLoop_run ih }

/-- The loop of `parse` settles when the fuel covers two units for every
statement after the cursor and three more. -/
theorem Slices.parseLoop_settled : ∀ (fuel : Nat) (res : List Clause) (x : slice) (s : Slices),
    s.inRange → s.Current = some x → 2 * s.ahead + 3 ≤ (fuel : Int) →
    (Slices.parseLoop fuel res x s).settled s := by
  intro fuel
  induction fuel with
  | zero =>
    intro res x s h _ hf
    have := Slices.ahead_nonneg h
    simp only [Nat.cast_zero] at hf
    omega
  | succ fuel ih =>
    intro res x s h hc hf
    push_cast at hf
    have hspec := runSpec fuel
    have r0 : s.reaches (s.emit "") := Slices.reaches_refl s h
    have i0 : (s.emit "").inRange := h
    have hc0 : (s.emit "").Current = some x := hc
    have a0 : (s.emit "").ahead = s.ahead := rfl
    -- the end of an iteration: the test `HasMore` and the post statement
    have hpost : ∀ (res1 : List Clause) (s2 : Slices), s.reaches s2 →
        (if (!s2.HasMore) = true then Outcome.ok res1 s2
          else
            match s2.Next with
            | none => .crash
            | some (y, s) => Slices.parseLoop fuel res1 y s).settled s := by
      intro res1 s2 r2
      have i2 := Slices.reaches_inRange h r2
      have a2 := Slices.reaches_ahead r2
      by_cases hm : s2.HasMore = true
      · obtain ⟨y, s3, hn⟩ := Slices.Next_of_HasMore s2 i2 hm
        obtain ⟨r3, i3, a3, c3⟩ := Slices.Next_inRange i2 hn
        simp only [hm, Bool.not_true, Bool.false_eq_true, if_false, hn]
        exact Outcome.settled_of_reaches (Slices.reaches_trans r2 r3) _
          (ih res1 y s3 i3 c3 (by omega))
      · simp only [hm, Bool.not_false, if_true]
        exact r2
    rw [Slices.parseLoop]
    have hlit : x.Typ.isLiteral = true →
        ∃ r s2, Slices.parseSQL fuel "generateSQL" (s.emit "") = .ok r s2 ∧
          (s.emit "").reaches s2 := fun hl =>
      Slices.parseSQL_settled fuel "generateSQL" (s.emit "") x i0 hc0 hl (by
        have := Slices.ahead_nonneg h
        omega)
    cases hT : x.Typ
    case SQL =>
      obtain ⟨r, s2, hrun, r2⟩ := hlit (by rw [hT]; rfl)
      simp only [hrun]
      exact hpost _ _ (Slices.reaches_emit (Slices.reaches_trans r0 r2) _)
    case DATA =>
      obtain ⟨r, s2, hrun, r2⟩ := hlit (by rw [hT]; rfl)
      simp only [hrun]
      exact hpost _ _ (Slices.reaches_emit (Slices.reaches_trans r0 r2) _)
    case VARIABLE =>
      obtain ⟨r, s2, hrun, r2⟩ := hlit (by rw [hT]; rfl)
      simp only [hrun]
      exact hpost _ _ (Slices.reaches_emit (Slices.reaches_trans r0 r2) _)
    case IF =>
      have hs := hspec.ifRun (s.emit "") i0 (by omega)
      cases hrun : Slices.parseIF fuel (s.emit "") with
      | ok c s2 =>
        rw [hrun] at hs
        exact hpost _ _ (Slices.reaches_emit (Slices.reaches_trans r0 hs) _)
      | fail e s2 => rw [hrun] at hs; exact Slices.reaches_trans r0 hs
      | crash => rw [hrun] at hs; exact hs
      | outOfFuel => rw [hrun] at hs; exact hs.elim
    case WHERE =>
      have hs := hspec.whereRun (s.emit "") i0 (by omega)
      cases hrun : Slices.parseWhere fuel (s.emit "") with
      | ok c s2 =>
        rw [hrun] at hs
        exact hpost _ _ (Slices.reaches_emit (Slices.reaches_trans r0 hs) _)
      | fail e s2 => rw [hrun] at hs; exact Slices.reaches_trans r0 hs
      | crash => rw [hrun] at hs; exact hs
      | outOfFuel => rw [hrun] at hs; exact hs.elim
    case SET =>
      have hs := hspec.setRun (s.emit "") i0 (by omega)
      cases hrun : Slices.parseSet fuel (s.emit "") with
      | ok c s2 =>
        rw [hrun] at hs
        exact hpost _ _ (Slices.reaches_emit (Slices.reaches_trans r0 hs) _)
      | fail e s2 => rw [hrun] at hs; exact Slices.reaches_trans r0 hs
      | crash => rw [hrun] at hs; exact hs
      | outOfFuel => rw [hrun] at hs; exact hs.elim
    case END => exact hpost _ _ r0
    all_goals exact r0

/-- Method `parse` from a fresh state over a non-empty statement sequence
settles for every fuel from that of the model on. -/
theorem Slices.parseFuel_settled (x : slice) (xs : List slice) (fuel : Nat)
    (hf : (NewSlices (x :: xs)).fuelFor ≤ fuel) :
    (Slices.parseFuel fuel (NewSlices (x :: xs))).settled (NewSlices (x :: xs)) := by
  have h : (NewSlices (x :: xs)).inRange := by
    simp only [Slices.inRange, NewSlices, List.length_cons]
    omega
  have hc : (NewSlices (x :: xs)).Current = some x := by
    simp [Slices.Current, Slices.index, NewSlices]
  have hnull : (NewSlices (x :: xs)).IsNull = false := by
    simp [Slices.IsNull, NewSlices]
  rw [Slices.parseFuel, hnull, hc]
  simp only [Bool.false_eq_true, if_false]
  apply Slices.parseLoop_settled fuel [] x _ h hc
  simp only [Slices.fuelFor, NewSlices, List.length_cons] at hf
  simp only [Slices.ahead, NewSlices, List.length_cons]
  push_cast
  omega

/-- An index-out-of-range panic of `parse` happens only on a statement
sequence with an `else` or `else if` statement. -/
theorem parse_crash_hasElse (xs : List slice) (h : (NewSlices xs).parse = .crash) :
    hasElse xs := by
  cases xs with
  | nil => simp [Slices.parse, Slices.parseFuel, Slices.IsNull, NewSlices] at h
  | cons x xs =>
    have := Slices.parseFuel_settled x xs _ (Nat.le_refl _)
    rw [Slices.parse] at h
    rw [h] at this
    exact this

/-- C21: on the sequence `if a`, `else`, `if b`, `end`, whose outer block has
no `end`, and on the sequence `if a`, `else`, two literals, `parse` from a
fresh state ends with an index-out-of-range panic. -/
theorem parse_else_reads_past_end :
    (NewSlices [⟨.IF, "a", "if a"⟩, ⟨.ELSE, "", "else"⟩, ⟨.IF, "b", "if b"⟩,
      ⟨.END, "", "end"⟩]).parse = .crash ∧
    (NewSlices [⟨.IF, "a", "if a"⟩, ⟨.ELSE, "", "else"⟩, ⟨.SQL, "\"x\"", "\"x\""⟩,
      ⟨.SQL, "\"y\"", "\"y\""⟩]).parse = .crash := by
  decide!

/-! ### Independence of the fuel -/

theorem Slices.parseSQLLoop_stable : ∀ (fuel : Nat) (res : SQLClause) (x : slice) (s : Slices),
    Slices.parseSQLLoop fuel res x s ≠ .outOfFuel →
    Slices.parseSQLLoop (fuel + 1) res x s = Slices.parseSQLLoop fuel res x s := by
  intro fuel
  induction fuel with
  | zero => intro res x s h; exact absurd rfl h
  | succ fuel ih =>
    intro res x s h
    rw [Slices.parseSQLLoop] at h
    rw [Slices.parseSQLLoop]
    conv_rhs => rw [Slices.parseSQLLoop]
    by_cases hx : x.Typ.isLiteral = true
    · simp only [hx, if_true] at h ⊢
      by_cases hm : s.HasMore = true
      · simp only [hm, Bool.not_true, Bool.false_eq_true, if_false] at h ⊢
        cases hn : s.Next with
        | none => rfl
        | some p =>
          obtain ⟨y, s1⟩ := p
          simp only [hn] at h ⊢
          exact ih _ _ _ h
      · simp only [hm, Bool.not_false, if_true]
    · simp only [hx, Bool.false_eq_true, if_false]

theorem Slices.parseSQL_stable (fuel : Nat) (name : String) (s : Slices)
    (h : Slices.parseSQL fuel name s ≠ .outOfFuel) :
    Slices.parseSQL (fuel + 1) name s = Slices.parseSQL fuel name s := by
  rw [Slices.parseSQL] at h
  rw [Slices.parseSQL, Slices.parseSQL]
  split
  · rfl
  · rename_i x hx
    simp only [hx] at h
    exact Slices.parseSQLLoop_stable _ _ _ _ h

theorem whereLoop_stable {fuel : Nat} (ih : StableSpec fuel) :
    ∀ res s, Slices.parseWhereLoop (fuel + 1) res s ≠ .outOfFuel →
    Slices.parseWhereLoop (fuel + 1 + 1) res s = Slices.parseWhereLoop (fuel + 1) res s := by
  intro res s h
  rw [Slices.parseWhereLoop] at h
  rw [Slices.parseWhereLoop]
  conv_rhs => rw [Slices.parseWhereLoop]
  by_cases hm : s.HasMore = true
  · simp only [hm, if_true] at h ⊢
    cases hn : s.Next with
    | none => rfl
    | some p =>
      obtain ⟨n, s1⟩ := p
      simp only [hn] at h ⊢
      cases hT : n.Typ <;> simp only [hT] at h ⊢
      · cases hsub : Slices.parseSQL fuel res.base.VarName s1 with
        | outOfFuel => simp [hsub] at h
        | crash => rw [Slices.parseSQL_stable fuel _ _ (by rw [hsub]; simp), hsub]
        | fail e s2 => rw [Slices.parseSQL_stable fuel _ _ (by rw [hsub]; simp), hsub]
        | ok c s2 =>
          rw [Slices.parseSQL_stable fuel _ _ (by rw [hsub]; simp), hsub]
          simp only [hsub] at h
          exact ih.whereLoop _ _ h
      · cases hsub : Slices.parseSQL fuel res.base.VarName s1 with
        | outOfFuel => simp [hsub] at h
        | crash => rw [Slices.parseSQL_stable fuel _ _ (by rw [hsub]; simp), hsub]
        | fail e s2 => rw [Slices.parseSQL_stable fuel _ _ (by rw [hsub]; simp), hsub]
        | ok c s2 =>
          rw [Slices.parseSQL_stable fuel _ _ (by rw [hsub]; simp), hsub]
          simp only [hsub] at h
          exact ih.whereLoop _ _ h
      · cases hsub : Slices.parseSQL fuel res.base.VarName s1 with
        | outOfFuel => simp [hsub] at h
        | crash => rw [Slices.parseSQL_stable fuel _ _ (by rw [hsub]; simp), hsub]
        | fail e s2 => rw [Slices.parseSQL_stable fuel _ _ (by rw [hsub]; simp), hsub]
        | ok c s2 =>
          rw [Slices.parseSQL_stable fuel _ _ (by rw [hsub]; simp), hsub]
          simp only [hsub] at h
          exact ih.whereLoop _ _ h
      · cases hsub : Slices.parseIF fuel s1 with
        | outOfFuel => simp [hsub] at h
        | crash => rw [ih.ifRun _ (by rw [hsub]; simp), hsub]
        | fail e s2 => rw [ih.ifRun _ (by rw [hsub]; simp), hsub]
        | ok c s2 =>
          rw [ih.ifRun _ (by rw [hsub]; simp), hsub]
          simp only [hsub] at h
          exact ih.whereLoop _ _ h
  · simp only [hm, Bool.false_eq_true, if_false]

theorem setLoop_stable {fuel : Nat} (ih : StableSpec fuel) :
    ∀ res s, Slices.parseSetLoop (fuel + 1) res s ≠ .outOfFuel →
    Slices.parseSetLoop (fuel + 1 + 1) res s = Slices.parseSetLoop (fuel + 1) res s := by
  intro res s h
  rw [Slices.parseSetLoop] at h
  rw [Slices.parseSetLoop]
  conv_rhs => rw [Slices.parseSetLoop]
  by_cases hm : s.HasMore = true
  · simp only [hm, if_true] at h ⊢
    cases hn : s.Next with
    | none => rfl
    | some p =>
      obtain ⟨n, s1⟩ := p
      simp only [hn] at h ⊢
      cases hT : n.Typ <;> simp only [hT] at h ⊢
      · cases hsub : Slices.parseSQL fuel res.base.VarName s1 with
        | outOfFuel => simp [hsub] at h
        | crash => rw [Slices.parseSQL_stable fuel _ _ (by rw [hsub]; simp), hsub]
        | fail e s2 => rw [Slices.parseSQL_stable fuel _ _ (by rw [hsub]; simp), hsub]
        | ok c s2 =>
          rw [Slices.parseSQL_stable fuel _ _ (by rw [hsub]; simp), hsub]
          simp only [hsub] at h
          exact ih.setLoop _ _ h
      · cases hsub : Slices.parseSQL fuel res.base.VarName s1 with
        | outOfFuel => simp [hsub] at h
        | crash => rw [Slices.parseSQL_stable fuel _ _ (by rw [hsub]; simp), hsub]
        | fail e s2 => rw [Slices.parseSQL_stable fuel _ _ (by rw [hsub]; simp), hsub]
        | ok c s2 =>
          rw [Slices.parseSQL_stable fuel _ _ (by rw [hsub]; simp), hsub]
          simp only [hsub] at h
          exact ih.setLoop _ _ h
      · cases hsub : Slices.parseSQL fuel res.base.VarName s1 with
        | outOfFuel => simp [hsub] at h
        | crash => rw [Slices.parseSQL_stable fuel _ _ (by rw [hsub]; simp), hsub]
        | fail e s2 => rw [Slices.parseSQL_stable fuel _ _ (by rw [hsub]; simp), hsub]
        | ok c s2 =>
          rw [Slices.parseSQL_stable fuel _ _ (by rw [hsub]; simp), hsub]
          simp only [hsub] at h
          exact ih.setLoop _ _ h
      · cases hsub : Slices.parseIF fuel s1 with
        | outOfFuel => simp [hsub] at h
        | crash => rw [ih.ifRun _ (by rw [hsub]; simp), hsub]
        | fail e s2 => rw [ih.ifRun _ (by rw [hsub]; simp), hsub]
        | ok c s2 =>
          rw [ih.ifRun _ (by rw [hsub]; simp), hsub]
          simp only [hsub] at h
          exact ih.setLoop _ _ h
  · simp only [hm, Bool.false_eq_true, if_false]

theorem ifLoop_stable {fuel : Nat} (ih : StableSpec fuel) :
    ∀ res cond s, Slices.parseIFLoop (fuel + 1) res cond s ≠ .outOfFuel →
    Slices.parseIFLoop (fuel + 1 + 1) res cond s = Slices.parseIFLoop (fuel + 1) res cond s := by
  intro res cond s h
  rw [Slices.parseIFLoop] at h
  rw [Slices.parseIFLoop]
  conv_rhs => rw [Slices.parseIFLoop]
  by_cases hm : s.HasMore = true
  · simp only [hm, if_true] at h ⊢
    cases hn : s.Next with
    | none => rfl
    | some p =>
      obtain ⟨n, s1⟩ := p
      simp only [hn] at h ⊢
      cases hT : n.Typ <;> simp only [hT] at h ⊢
      · cases hsub : Slices.parseSQL fuel res.base.VarName s1 with
        | outOfFuel => simp [hsub] at h
        | crash => rw [Slices.parseSQL_stable fuel _ _ (by rw [hsub]; simp), hsub]
        | fail e s2 => rw [Slices.parseSQL_stable fuel _ _ (by rw [hsub]; simp), hsub]
        | ok c s2 =>
          rw [Slices.parseSQL_stable fuel _ _ (by rw [hsub]; simp), hsub]
          simp only [hsub] at h
          exact ih.ifLoop _ _ _ h
      · cases hsub : Slices.parseSQL fuel res.base.VarName s1 with
        | outOfFuel => simp [hsub] at h
        | crash => rw [Slices.parseSQL_stable fuel _ _ (by rw [hsub]; simp), hsub]
        | fail e s2 => rw [Slices.parseSQL_stable fuel _ _ (by rw [hsub]; simp), hsub]
        | ok c s2 =>
          rw [Slices.parseSQL_stable fuel _ _ (by rw [hsub]; simp), hsub]
          simp only [hsub] at h
          exact ih.ifLoop _ _ _ h
      · cases hsub : Slices.parseSQL fuel res.base.VarName s1 with
        | outOfFuel => simp [hsub] at h
        | crash => rw [Slices.parseSQL_stable fuel _ _ (by rw [hsub]; simp), hsub]
        | fail e s2 => rw [Slices.parseSQL_stable fuel _ _ (by rw [hsub]; simp), hsub]
        | ok c s2 =>
          rw [Slices.parseSQL_stable fuel _ _ (by rw [hsub]; simp), hsub]
          simp only [hsub] at h
          exact ih.ifLoop _ _ _ h
      · cases hsub : Slices.parseIF fuel s1 with
        | outOfFuel => simp [hsub] at h
        | crash => rw [ih.ifRun _ (by rw [hsub]; simp), hsub]
        | fail e s2 => rw [ih.ifRun _ (by rw [hsub]; simp), hsub]
        | ok c s2 =>
          rw [ih.ifRun _ (by rw [hsub]; simp), hsub]
          simp only [hsub] at h
          exact ih.ifLoop _ _ _ h
      · cases hsub : Slices.parseElSE fuel res.base.VarName s1 with
        | outOfFuel => simp [hsub] at h
        | crash => rw [ih.elseRun _ _ (by rw [hsub]; simp), hsub]
        | fail e s2 => rw [ih.elseRun _ _ (by rw [hsub]; simp), hsub]
        | ok c s2 =>
          rw [ih.elseRun _ _ (by rw [hsub]; simp), hsub]
          simp only [hsub] at h
          exact ih.ifLoop _ _ _ h
      · cases hsub : Slices.parseElSE fuel res.base.VarName s1 with
        | outOfFuel => simp [hsub] at h
        | crash => rw [ih.elseRun _ _ (by rw [hsub]; simp), hsub]
        | fail e s2 => rw [ih.elseRun _ _ (by rw [hsub]; simp), hsub]
        | ok c s2 =>
          rw [ih.elseRun _ _ (by rw [hsub]; simp), hsub]
          simp only [hsub] at h
          exact ih.ifLoop _ _ _ h
      · cases hsub : Slices.parseWhere fuel s1 with
        | outOfFuel => simp [hsub] at h
        | crash => rw [ih.whereRun _ (by rw [hsub]; simp), hsub]
        | fail e s2 => rw [ih.whereRun _ (by rw [hsub]; simp), hsub]
        | ok c s2 =>
          rw [ih.whereRun _ (by rw [hsub]; simp), hsub]
          simp only [hsub] at h
          exact ih.ifLoop _ _ _ h
      · cases hsub : Slices.parseSet fuel s1 with
        | outOfFuel => simp [hsub] at h
        | crash => rw [ih.setRun _ (by rw [hsub]; simp), hsub]
        | fail e s2 => rw [ih.setRun _ (by rw [hsub]; simp), hsub]
        | ok c s2 =>
          rw [ih.setRun _ (by rw [hsub]; simp), hsub]
          simp only [hsub] at h
          exact ih.ifLoop _ _ _ h
  · simp only [hm, Bool.false_eq_true, if_false]

theorem ifRun_stable {fuel : Nat} (ih : StableSpec fuel) :
    ∀ s, Slices.parseIF (fuel + 1) s ≠ .outOfFuel →
    Slices.parseIF (fuel + 1 + 1) s = Slices.parseIF (fuel + 1) s := by
  intro s h
  rw [Slices.parseIF] at h
  rw [Slices.parseIF]
  conv_rhs => rw [Slices.parseIF]
  cases hc : s.Current with
  | none => rfl
  | some x =>
    simp only [hc] at h ⊢
    exact ih.ifLoop _ _ _ h

theorem whereRun_stable {fuel : Nat} (ih : StableSpec fuel) :
    ∀ s, Slices.parseWhere (fuel + 1) s ≠ .outOfFuel →
    Slices.parseWhere (fuel + 1 + 1) s = Slices.parseWhere (fuel + 1) s := by
  intro s h
  rw [Slices.parseWhere] at h
  rw [Slices.parseWhere]
  conv_rhs => rw [Slices.parseWhere]
  cases hc : s.Current with
  | none => rfl
  | some x =>
    simp only [hc] at h ⊢
    exact ih.whereLoop _ _ h

theorem setRun_stable {fuel : Nat} (ih : StableSpec fuel) :
    ∀ s, Slices.parseSet (fuel + 1) s ≠ .outOfFuel →
    Slices.parseSet (fuel + 1 + 1) s = Slices.parseSet (fuel + 1) s := by
  intro s h
  rw [Slices.parseSet] at h
  rw [Slices.parseSet]
  conv_rhs => rw [Slices.parseSet]
  cases hc : s.Current with
  | none => rfl
  | some x =>
    simp only [hc] at h ⊢
    exact ih.setLoop _ _ h

theorem elseRun_stable {fuel : Nat} (ih : StableSpec fuel) :
    ∀ name s, Slices.parseElSE (fuel + 1) name s ≠ .outOfFuel →
    Slices.parseElSE (fuel + 1 + 1) name s = Slices.parseElSE (fuel + 1) name s := by
  intro name s h
  rw [Slices.parseElSE] at h
  rw [Slices.parseElSE]
  conv_rhs => rw [Slices.parseElSE]
  cases hc : s.Current with
  | none => rfl
  | some x =>
    simp only [hc] at h ⊢
    by_cases hm : s.HasMore = true
    · simp only [hm, Bool.not_true, Bool.false_eq_true, if_false] at h ⊢
      cases hn : s.Next with
      | none => rfl
      | some p =>
        obtain ⟨n, s1⟩ := p
        simp only [hn] at h ⊢
        exact ih.elseLoop _ _ _ _ h
    · simp only [hm, Bool.not_false, if_true]

theorem elseLoop_stable {fuel : Nat} (ih : StableSpec fuel) :
    ∀ name res n s, Slices.parseElSELoop (fuel + 1) name res n s ≠ .outOfFuel →
    Slices.parseElSELoop (fuel + 1 + 1) name res n s =
      Slices.parseElSELoop (fuel + 1) name res n s := by
  intro name res n s h
  rw [Slices.parseElSELoop] at h
  rw [Slices.parseElSELoop]
  conv_rhs => rw [Slices.parseElSELoop]
  by_cases hm : s.HasMore = true
  · simp only [hm, if_true] at h ⊢
    cases hT : n.Typ <;> simp only [hT] at h ⊢
    · cases hsub : Slices.parseSQL fuel name s with
      | outOfFuel => simp [hsub] at h
      | crash => rw [Slices.parseSQL_stable fuel _ _ (by rw [hsub]; simp), hsub]
      | fail e s2 => rw [Slices.parseSQL_stable fuel _ _ (by rw [hsub]; simp), hsub]
      | ok c s2 =>
        rw [Slices.parseSQL_stable fuel _ _ (by rw [hsub]; simp), hsub]
        simp only [hsub] at h
        dsimp only
        cases hn2 : s2.Next with
        | none => rfl
        | some p =>
          obtain ⟨m, s3⟩ := p
          simp only [hn2] at h ⊢
          exact ih.elseLoop _ _ _ _ h
    · cases hsub : Slices.parseSQL fuel name s with
      | outOfFuel => simp [hsub] at h
      | crash => rw [Slices.parseSQL_stable fuel _ _ (by rw [hsub]; simp), hsub]
      | fail e s2 => rw [Slices.parseSQL_stable fuel _ _ (by rw [hsub]; simp), hsub]
      | ok c s2 =>
        rw [Slices.parseSQL_stable fuel _ _ (by rw [hsub]; simp), hsub]
        simp only [hsub] at h
        dsimp only
        cases hn2 : s2.Next with
        | none => rfl
        | some p =>
          obtain ⟨m, s3⟩ := p
          simp only [hn2] at h ⊢
          exact ih.elseLoop _ _ _ _ h
    · cases hsub : Slices.parseSQL fuel name s with
      | outOfFuel => simp [hsub] at h
      | crash => rw [Slices.parseSQL_stable fuel _ _ (by rw [hsub]; simp), hsub]
      | fail e s2 => rw [Slices.parseSQL_stable fuel _ _ (by rw [hsub]; simp), hsub]
      | ok c s2 =>
        rw [Slices.parseSQL_stable fuel _ _ (by rw [hsub]; simp), hsub]
        simp only [hsub] at h
        dsimp only
        cases hn2 : s2.Next with
        | none => rfl
        | some p =>
          obtain ⟨m, s3⟩ := p
          simp only [hn2] at h ⊢
          exact ih.elseLoop _ _ _ _ h
    · cases hsub : Slices.parseIF fuel s with
      | outOfFuel => simp [hsub] at h
      | crash => rw [ih.ifRun _ (by rw [hsub]; simp), hsub]
      | fail e s2 => rw [ih.ifRun _ (by rw [hsub]; simp), hsub]
      | ok c s2 =>
        rw [ih.ifRun _ (by rw [hsub]; simp), hsub]
        simp only [hsub] at h
        dsimp only
        cases hn2 : s2.Next with
        | none => rfl
        | some p =>
          obtain ⟨m, s3⟩ := p
          simp only [hn2] at h ⊢
          exact ih.elseLoop _ _ _ _ h
    · cases hsub : Slices.parseWhere fuel s with
      | outOfFuel => simp [hsub] at h
      | crash => rw [ih.whereRun _ (by rw [hsub]; simp), hsub]
      | fail e s2 => rw [ih.whereRun _ (by rw [hsub]; simp), hsub]
      | ok c s2 =>
        rw [ih.whereRun _ (by rw [hsub]; simp), hsub]
        simp only [hsub] at h
        dsimp only
        cases hn2 : s2.Next with
        | none => rfl
        | some p =>
          obtain ⟨m, s3⟩ := p
          simp only [hn2] at h ⊢
          exact ih.elseLoop _ _ _ _ h
    · cases hsub : Slices.parseSet fuel s with
      | outOfFuel => simp [hsub] at h
      | crash => rw [ih.setRun _ (by rw [hsub]; simp), hsub]
      | fail e s2 => rw [ih.setRun _ (by rw [hsub]; simp), hsub]
      | ok c s2 =>
        rw [ih.setRun _ (by rw [hsub]; simp), hsub]
        simp only [hsub] at h
        dsimp only
        cases hn2 : s2.Next with
        | none => rfl
        | some p =>
          obtain ⟨m, s3⟩ := p
          simp only [hn2] at h ⊢
          exact ih.elseLoop _ _ _ _ h
  · simp only [hm, Bool.false_eq_true, if_false]

theorem stableSpec (fuel : Nat) : StableSpec fuel := by
  induction fuel with
  | zero =>
    exact {
      ifRun := fun s h => absurd (by rw [Slices.parseIF]) h
      ifLoop := fun _ _ s h => absurd (by rw [Slices.parseIFLoop]) h
      elseRun := fun _ s h => absurd (by rw [Slices.parseElSE]) h
      elseLoop := fun _ _ _ s h => absurd (by rw [Slices.parseElSELoop]) h
      whereRun := fun s h => absurd (by rw [Slices.parseWhere]) h
      whereLoop := fun _ s h => absurd (by rw [Slices.parseWhereLoop]) h
      setRun := fun s h => absurd (by rw [Slices.parseSet]) h
      setLoop := fun _ s h => absurd (by rw [Slices.parseSetLoop]) h }
  | succ fuel ih =>
    exact {
      ifRun := ifRun_stable ih
      ifLoop := ifLoop_stable ih
      elseRun := elseRun_stable ih
      elseLoop := elseLoop_stable ih
      whereRun := whereRun_stable ih
      whereLoop := whereLoop_stable ih
      setRun := setRun_stable ih
      setLoop := setLoop_stable ih }

theorem Slices.parseLoop_stable : ∀ (fuel : Nat) (res : List Clause) (x : slice) (s : Slices),
    Slices.parseLoop fuel res x s ≠ .outOfFuel →
    Slices.parseLoop (fuel + 1) res x s = Slices.parseLoop fuel res x s := by
  intro fuel
  induction fuel with
  | zero => intro res x s h; exact absurd rfl h
  | succ fuel ih =>
    intro res x s h
    have hst := stableSpec fuel
    -- the end of an iteration: the test `HasMore` and the post statement
    have hpost : ∀ (res1 : List Clause) (s2 : Slices),
        (if (!s2.HasMore) = true then Outcome.ok res1 s2
          else
            match s2.Next with
            | none => .crash
            | some (y, s) => Slices.parseLoop fuel res1 y s) ≠ .outOfFuel →
        (if (!s2.HasMore) = true then Outcome.ok res1 s2
          else
            match s2.Next with
            | none => .crash
            | some (y, s) => Slices.parseLoop (fuel + 1) res1 y s) =
        (if (!s2.HasMore) = true then Outcome.ok res1 s2
          else
            match s2.Next with
            | none => .crash
            | some (y, s) => Slices.parseLoop fuel res1 y s) := by
      intro res1 s2 h2
      by_cases hm : s2.HasMore = true
      · simp only [hm, Bool.not_true, Bool.false_eq_true, if_false] at h2 ⊢
        cases hn : s2.Next with
        | none => rfl
        | some p =>
          obtain ⟨y, s3⟩ := p
          simp only [hn] at h2 ⊢
          exact ih _ _ _ h2
      · simp only [hm, Bool.not_false, if_true]
    rw [Slices.parseLoop] at h
    rw [Slices.parseLoop]
    conv_rhs => rw [Slices.parseLoop]
    cases hT : x.Typ <;> simp only [hT] at h ⊢
    · cases hsub : Slices.parseSQL fuel "generateSQL" (s.emit "") with
      | outOfFuel => simp [hsub] at h
      | crash => rw [Slices.parseSQL_stable fuel _ _ (by rw [hsub]; simp), hsub]
      | fail e s2 => rw [Slices.parseSQL_stable fuel _ _ (by rw [hsub]; simp), hsub]
      | ok c s2 =>
        rw [Slices.parseSQL_stable fuel _ _ (by rw [hsub]; simp), hsub]
        simp only [hsub] at h
        exact hpost _ _ h
    · cases hsub : Slices.parseSQL fuel "generateSQL" (s.emit "") with
      | outOfFuel => simp [hsub] at h
      | crash => rw [Slices.parseSQL_stable fuel _ _ (by rw [hsub]; simp), hsub]
      | fail e s2 => rw [Slices.parseSQL_stable fuel _ _ (by rw [hsub]; simp), hsub]
      | ok c s2 =>
        rw [Slices.parseSQL_stable fuel _ _ (by rw [hsub]; simp), hsub]
        simp only [hsub] at h
        exact hpost _ _ h
    · cases hsub : Slices.parseSQL fuel "generateSQL" (s.emit "") with
      | outOfFuel => simp [hsub] at h
      | crash => rw [Slices.parseSQL_stable fuel _ _ (by rw [hsub]; simp), hsub]
      | fail e s2 => rw [Slices.parseSQL_stable fuel _ _ (by rw [hsub]; simp), hsub]
      | ok c s2 =>
        rw [Slices.parseSQL_stable fuel _ _ (by rw [hsub]; simp), hsub]
        simp only [hsub] at h
        exact hpost _ _ h
    · cases hsub : Slices.parseIF fuel (s.emit "") with
      | outOfFuel => simp [hsub] at h
      | crash => rw [hst.ifRun _ (by rw [hsub]; simp), hsub]
      | fail e s2 => rw [hst.ifRun _ (by rw [hsub]; simp), hsub]
      | ok c s2 =>
        rw [hst.ifRun _ (by rw [hsub]; simp), hsub]
        simp only [hsub] at h
        exact hpost _ _ h
    · cases hsub : Slices.parseWhere fuel (s.emit "") with
      | outOfFuel => simp [hsub] at h
      | crash => rw [hst.whereRun _ (by rw [hsub]; simp), hsub]
      | fail e s2 => rw [hst.whereRun _ (by rw [hsub]; simp), hsub]
      | ok c s2 =>
        rw [hst.whereRun _ (by rw [hsub]; simp), hsub]
        simp only [hsub] at h
        exact hpost _ _ h
    · cases hsub : Slices.parseSet fuel (s.emit "") with
      | outOfFuel => simp [hsub] at h
      | crash => rw [hst.setRun _ (by rw [hsub]; simp), hsub]
      | fail e s2 => rw [hst.setRun _ (by rw [hsub]; simp), hsub]
      | ok c s2 =>
        rw [hst.setRun _ (by rw [hsub]; simp), hsub]
        simp only [hsub] at h
        exact hpost _ _ h
    · exact hpost _ _ h

theorem Slices.parseFuel_stable (fuel : Nat) (s : Slices)
    (h : Slices.parseFuel fuel s ≠ .outOfFuel) :
    Slices.parseFuel (fuel + 1) s = Slices.parseFuel fuel s := by
  rw [Slices.parseFuel] at h
  rw [Slices.parseFuel, Slices.parseFuel]
  by_cases hn : s.IsNull = true
  · simp only [hn, if_true]
  · simp only [hn, Bool.false_eq_true, if_false] at h ⊢
    cases hc : s.Current with
    | none => rfl
    | some x =>
      simp only [hc] at h ⊢
      exact Slices.parseLoop_stable _ _ _ _ h

/-- Once the fuel of `parse` did not run out, every larger fuel gives the
same outcome. -/
theorem Slices.parseFuel_stable_le (s : Slices) (fuel0 : Nat)
    (h : Slices.parseFuel fuel0 s ≠ .outOfFuel) :
    ∀ fuel, fuel0 ≤ fuel → Slices.parseFuel fuel s = Slices.parseFuel fuel0 s := by
  intro fuel hle
  obtain ⟨k, rfl⟩ : ∃ k, fuel = fuel0 + k := ⟨fuel - fuel0, by omega⟩
  clear hle
  induction k with
  | zero => rfl
  | succ k ih =>
    rw [← Nat.add_assoc, Slices.parseFuel_stable _ _ (by rw [ih]; exact h), ih]

/-! ### Termination -/

/-- C23: `parse` terminates on every statement sequence: from a fresh state
the fuel that the model gives to `parse` does not run out, every larger fuel
gives the same outcome, and a normal return leaves the cursor on an index of
the sequence. -/
theorem parse_terminates (xs : List slice) :
    (NewSlices xs).parse ≠ .outOfFuel ∧
    (∀ fuel, (NewSlices xs).fuelFor ≤ fuel →
      Slices.parseFuel fuel (NewSlices xs) = (NewSlices xs).parse) ∧
    (∀ st, (NewSlices xs).parse.state? = some st →
      0 ≤ st.currentIndex ∧ st.currentIndex < (xs.length : Int)) := by
  have key : (NewSlices xs).parse ≠ .outOfFuel := by
    cases xs with
    | nil => simp [Slices.parse, Slices.parseFuel, Slices.IsNull, NewSlices]
    | cons x xs =>
      have := Slices.parseFuel_settled x xs _ (Nat.le_refl _)
      intro h
      rw [Slices.parse] at h
      rw [h] at this
      exact this
  refine ⟨key, Slices.parseFuel_stable_le _ _ key, ?_⟩
  intro st hst
  cases xs with
  | nil => simp [Slices.parse, Slices.parseFuel, Slices.IsNull, NewSlices, Outcome.state?] at hst
  | cons x xs =>
    have := Slices.parseFuel_settled x xs _ (Nat.le_refl _)
    rw [Slices.parse] at hst
    cases hp : Slices.parseFuel (NewSlices (x :: xs)).fuelFor (NewSlices (x :: xs)) with
    | ok r s1 =>
      rw [hp] at this hst
      simp only [Outcome.state?, Option.some.injEq] at hst
      subst hst
      obtain ⟨-, h2, h3⟩ := this
      exact ⟨h2, h3⟩
    | fail e s1 => rw [hp] at hst; simp [Outcome.state?] at hst
    | crash => rw [hp] at hst; simp [Outcome.state?] at hst
    | outOfFuel => rw [hp] at hst; simp [Outcome.state?] at hst

/-- Witness of C23: the block `if a`, one literal, `end` with a fuel of one
hundred. -/
theorem parse_terminates_witness :
    (NewSlices [⟨.IF, "a", "if a"⟩, ⟨.SQL, "\"x\"", "\"x\""⟩, ⟨.END, "", "end"⟩]).fuelFor ≤ 100 ∧
    Slices.parseFuel 100
        (NewSlices [⟨.IF, "a", "if a"⟩, ⟨.SQL, "\"x\"", "\"x\""⟩, ⟨.END, "", "end"⟩]) =
      (NewSlices [⟨.IF, "a", "if a"⟩, ⟨.SQL, "\"x\"", "\"x\""⟩, ⟨.END, "", "end"⟩]).parse :=
  ⟨by decide,
    (parse_terminates [⟨.IF, "a", "if a"⟩, ⟨.SQL, "\"x\"", "\"x\""⟩, ⟨.END, "", "end"⟩]).2.1 100
      (by decide)⟩

/-! ### Quoted literals in a literal clause -/

theorem intercalate_go_data (sep : String) : ∀ (ps : List String) (acc : String),
    (String.intercalate.go acc sep ps).data =
      acc.data ++ (ps.map (fun p => sep.data ++ p.data)).flatten := by
  intro ps
  induction ps with
  | nil => intro acc; simp [String.intercalate.go]
  | cons p ps ih =>
    intro acc
    rw [String.intercalate.go, ih]
    simp [String.data_append]

theorem join_data : ∀ (ps : List String) (acc : String),
    (ps.foldl (fun r s => r ++ s) acc).data = acc.data ++ (ps.map String.data).flatten := by
  intro ps
  induction ps with
  | nil => intro acc; simp
  | cons p ps ih =>
    intro acc
    rw [List.foldl_cons, ih]
    simp [String.data_append]

/-- The text after the body of a quoted piece in the joined text: the closing
quote, and for every further body the `+`, its opening quote, the body and
its closing quote. -/
theorem quotedTail_eq (bs : List String) :
    '"' :: ((bs.map (fun x => "\"" ++ x ++ "\"")).map
        (fun p => '+' :: p.data)).flatten =
      (bs.map (fun x => '"' :: '+' :: '"' :: x.data)).flatten ++ ['"'] := by
  induction bs with
  | nil => rfl
  | cons b bs ih =>
    simp only [List.map_cons, List.flatten_cons, String.data_append, List.append_assoc,
      List.singleton_append, List.cons_append, List.nil_append]
    rw [← ih]

theorem replaceAllAux_body (new : List Char) : ∀ (b t : List Char), '"' ∉ b →
    replaceAllAux ['"', '+', '"'] new 0 (b ++ t) = b ++ replaceAllAux ['"', '+', '"'] new 0 t := by
  intro b
  induction b with
  | nil => intro t _; rfl
  | cons c b ih =>
    intro t h
    simp only [List.mem_cons, not_or] at h
    have hc : ('"' == c) = false := by simpa using h.1
    rw [List.cons_append, replaceAllAux]
    simp only [List.isPrefixOf, hc, Bool.false_and, Bool.false_eq_true, if_false, ih t h.2,
      List.cons_append]

theorem replaceAllAux_separator (t : List Char) :
    replaceAllAux ['"', '+', '"'] [] 0 ('"' :: '+' :: '"' :: t) =
      replaceAllAux ['"', '+', '"'] [] 0 t := by
  rw [replaceAllAux]
  simp [List.isPrefixOf, replaceAllAux]

theorem replaceAllAux_tail : ∀ (bs : List String), (∀ x ∈ bs, '"' ∉ x.data) →
    replaceAllAux ['"', '+', '"'] [] 0
        ((bs.map (fun x => '"' :: '+' :: '"' :: x.data)).flatten ++ ['"']) =
      (bs.map String.data).flatten ++ ['"'] := by
  intro bs
  induction bs with
  | nil => intro _; simp [replaceAllAux, List.isPrefixOf]
  | cons b bs ih =>
    intro h
    simp only [List.map_cons, List.flatten_cons, List.cons_append, List.append_assoc]
    rw [replaceAllAux_separator, replaceAllAux_body [] _ _ (h b (by simp)),
      ih (fun x hx => h x (by simp [hx]))]

theorem replaceAllAux_open (b t : List Char) (hq : '"' ∉ b) (hb : b ≠ ['+']) :
    replaceAllAux ['"', '+', '"'] [] 0 ('"' :: (b ++ '"' :: t)) =
      '"' :: replaceAllAux ['"', '+', '"'] [] 0 (b ++ '"' :: t) := by
  rw [replaceAllAux]
  have hp : List.isPrefixOf ['"', '+', '"'] ('"' :: (b ++ '"' :: t)) = false := by
    cases b with
    | nil => simp [List.isPrefixOf]
    | cons c b =>
      cases b with
      | nil =>
        have : c ≠ '+' := fun h => hb (by rw [h])
        simp [List.isPrefixOf, Ne.symm this]
      | cons d b =>
        have : d ≠ '"' := fun h => hq (by simp [h])
        simp [List.isPrefixOf, Ne.symm this]
  simp only [hp, Bool.false_eq_true, if_false]

/-- For quoted pieces whose bodies hold no double quote and whose first body
is not the single character `+`, `String()` is one quoted literal whose body
is the bodies in their order. -/
theorem SQLClause_String_quoted (base : clause) (b : String) (bs : List String)
    (hq : ∀ x ∈ b :: bs, '"' ∉ x.data) (hb : b ≠ "+") :
    (SQLClause.mk base ((b :: bs).map (fun x => "\"" ++ x ++ "\""))).String =
      "\"" ++ String.join (b :: bs) ++ "\"" := by
  have hbd : b.data ≠ ['+'] := fun h => hb (String.ext h)
  apply String.ext
  simp only [SQLClause.String, ReplaceAll, Join, List.map_cons, String.intercalate,
    intercalate_go_data, String.data_append, String.join, List.foldl_cons, join_data]
  simp only [List.singleton_append, List.cons_append, List.nil_append, List.append_assoc]
  rw [replaceAllAux_open _ _ (hq b (by simp)) hbd, replaceAllAux_body [] _ _ (hq b (by simp)),
    quotedTail_eq bs, replaceAllAux_tail bs (fun x hx => hq x (by simp [hx]))]

/-- C22: on the one-piece list that holds the quoted literal `"+"`, `String()`
returns the empty text and not that literal, on the pieces `"+"`, `"b"` it
returns `+"b"` and not `"+b"`, and `parse` of the one literal statement
`"+"` emits the assembly line `generateSQL+=` with nothing after it. -/
theorem SQLClause_String_plus_literal :
    (SQLClause.mk ⟨"generateSQL", .SQL⟩ ["\"+\""]).String = "" ∧
    (SQLClause.mk ⟨"generateSQL", .SQL⟩ ["\"+\"", "\"b\""]).String = "+\"b\"" ∧
    ((NewSlices [⟨.SQL, "\"+\"", "\"+\""⟩]).parse).state?.map (fun s => s.tmpl) =
      some ["", "generateSQL+="] := by
  decide!

/-! ### The entries of the block parsers -/

theorem Slices.GetName_bump (s : Slices) (k : Status) (hk : k = .IF ∨ k = .WHERE ∨ k = .SET) :
    (s.GetName k).1 = nameOf k (s.Names.get k) ∧ (s.GetName k).2.Names = s.Names.bump k := by
  rcases hk with h | h | h <;> subst h <;> exact ⟨rfl, rfl⟩

end Gen
